import Mathlib

/-!
# Verification of the Tubes2 recipe path-finding engines

This file embeds, in Lean 4, the Go path-finding code of the repository
(the breadth-first, depth-bounded depth-first and bidirectional search
engines over a tier-constrained recipe catalog) and proves or refutes the
frozen specification claims about it.

Modelling conventions:
* Go strings are `String`; Go `int` is `Int`.
* The `ElementStore` keeps only the data the search engines read: the key
  set of the `Elements` map, the flat `Recipes` slice, the `BasicElements`
  slice and the `TierMap`.  The display-only fields (image URLs, the
  `TreeStructure` built for visualization) are irrelevant to every claim
  and are omitted from `SearchResult`.
* Go maps whose values matter (`parent`, `TierMap`, `forwardTier`) are
  association lists read through `List.lookup`; maps used as sets
  (`visited`) are lists read through `List.contains`.  The engines insert
  a key only when it is absent, so cons / erase-first is extensionally
  the Go map insert / delete at every reachable state.
* `time.Now` is modelled by an explicit `now : Int` parameter that the
  code stores into `executionTime`; nothing else depends on it.
* The concurrent fan-out of `FindMultiplePaths` is modelled as the
  sequential execution of the spawned worker bodies in spawn order;
  per-worker results that do not depend on shared mutable state are
  unchanged by this, and theorems about individual workers are stated
  for arbitrary contents of the shared signature set so that they cover
  every interleaving.
-/

set_option maxHeartbeats 1000000
set_option maxRecDepth 10000

namespace Tubes

/-- A recipe: a pair of ingredient identifiers plus the identifier they
produce (Go struct `Recipe`). -/
structure Recipe where
  ingredients : List String
  result : String
  deriving DecidableEq, Repr

/-- A backpointer entry: the element the search expanded from and the
recipe that produced the discovered element (Go struct `RecipeStep`). -/
structure RecipeStep where
  parentID : String
  recipe : Recipe
  deriving DecidableEq, Repr

/-- The search-relevant part of a `SearchResult`: the recipe path, the
visited-node count, the elapsed time and the variation tag.  The
visualization-only `TreeStructure` field is omitted. -/
structure SearchResult where
  path : List Recipe
  visitedNodes : Int
  executionTime : Int
  variationIndex : Int
  deriving DecidableEq, Repr

/-- The three sentinel errors of the Algorithm package
(`ErrElementNotFound`, `ErrNoBasicElements`, `ErrNoPathFound`). -/
inductive SearchError where
  | elementNotFound
  | noBasicElements
  | noPathFound
  deriving DecidableEq, Repr

/-- The catalog index (Go struct `ElementStore`): the identifiers present
in the `Elements` map, the flat recipe list, the basic-element identifier
list and the identifier-to-tier map. -/
structure ElementStore where
  elements : List String
  recipes : List Recipe
  basicElements : List String
  tierMap : List (String × Int)
  deriving DecidableEq, Repr

/-- `GetElementTier`: tier of an element, `-1` if the identifier is not in
the tier map. -/
def ElementStore.getElementTier (es : ElementStore) (elementID : String) : Int :=
  match es.tierMap.lookup elementID with
  | some tier => tier
  | none => -1

/-- `GetBasicElements`: the basic-element identifiers that are present in
the `Elements` map, in `BasicElements` order. -/
def ElementStore.getBasicElements (es : ElementStore) : List String :=
  es.basicElements.filter (fun name => es.elements.contains name)

/-- Well-formedness of a catalog, as established by `NewElementStore`:
recipe results and basic elements are catalogued elements, basic elements
sit at tier 0, every catalogued element has a non-negative tier, and every
recipe has exactly two ingredients. -/
structure WFStore (es : ElementStore) : Prop where
  resultsInElements : ∀ r ∈ es.recipes, r.result ∈ es.elements
  basicsInElements : ∀ b ∈ es.basicElements, b ∈ es.elements
  basicTierZero : ∀ b ∈ es.basicElements, es.getElementTier b = 0
  elemTierNonneg : ∀ x ∈ es.elements, 0 ≤ es.getElementTier x
  recipeTwoIngredients : ∀ r ∈ es.recipes, r.ingredients.length = 2

/-- `reconstructPath`, fuel-indexed walk: follow the backpointer map from
`current` until an element with no entry is reached, prepending each
traversed recipe.  The fuel bounds the walk; `reconstructPath` below
supplies enough fuel for every terminating walk. -/
def reconstructPathAux (parentMap : List (String × RecipeStep)) :
    Nat → String → List Recipe
  | 0, _ => []
  | fuel + 1, current =>
    match parentMap.lookup current with
    | none => []
    | some step => reconstructPathAux parentMap fuel step.parentID ++ [step.recipe]

/-- `reconstructPath` (identical in the BFS and DFS engine files): walk the
backpointer map from the target back to an element with no entry. -/
def reconstructPath (target : String) (parentMap : List (String × RecipeStep)) :
    List Recipe :=
  reconstructPathAux parentMap (parentMap.length + 1) target

/-- Whether the backpointer walk from `current` reaches an element with no
entry within `fuel` steps (the Go loop in `reconstructPath` terminates). -/
def walkEnds (parentMap : List (String × RecipeStep)) : Nat → String → Bool
  | 0, _ => false
  | fuel + 1, current =>
    match parentMap.lookup current with
    | none => true
    | some step => walkEnds parentMap fuel step.parentID

/-- `getPathSignature` (shared by the BFS and DFS multi-path drivers): the
canonical signature of a path, the concatenation of result and sorted
ingredient pair of each recipe. -/
def getPathSignature (path : List Recipe) : String :=
  if path.isEmpty then ""
  else
    path.foldl (fun sig recipe =>
      let sig := sig ++ recipe.result ++ ":"
      match recipe.ingredients with
      | ing0 :: ing1 :: _ =>
        if ing1 < ing0 then sig ++ ing1 ++ "+" ++ ing0 ++ ";"
        else sig ++ ing0 ++ "+" ++ ing1 ++ ";"
      | _ => sig) ""

/-- State threaded through a breadth-first search loop: the FIFO frontier,
the visited set, the backpointer map, the visited counter and the
found flag. -/
structure LoopState where
  queue : List String
  visited : List String
  parent : List (String × RecipeStep)
  visitedCount : Int
  found : Bool
  deriving Repr

/-- Tier validity of a single recipe: both ingredient tiers strictly below
the result tier (the invariant of the claims). -/
def ValidRecipe (es : ElementStore) (r : Recipe) : Prop :=
  ∀ ing ∈ r.ingredients, es.getElementTier ing < es.getElementTier r.result

instance (es : ElementStore) (r : Recipe) : Decidable (ValidRecipe es r) :=
  inferInstanceAs (Decidable (∀ ing ∈ r.ingredients, _))

/-- Tier validity of a whole path. -/
def TierValidPath (es : ElementStore) (path : List Recipe) : Prop :=
  ∀ r ∈ path, ValidRecipe es r

/-- Marking a fresh member of the universe as visited strictly shrinks the
unvisited part of the universe (the workhorse of every loop measure). -/
theorem filter_unvisited_cons (U v : List String) (x : String)
    (hU : x ∈ U) (hv : ¬ v.contains x = true) :
    (U.filter (fun y => !(x :: v).contains y)).length + 1 ≤
      (U.filter (fun y => !v.contains y)).length := by
  have hsub : U.filter (fun y => !(x :: v).contains y) =
      (U.filter (fun y => !v.contains y)).filter (fun y => !(y == x)) := by
    rw [List.filter_filter]
    apply List.filter_congr
    intro y _
    simp [List.contains_cons, Bool.and_comm]
    tauto
  rw [hsub]
  have hmem : x ∈ U.filter (fun y => !v.contains y) := by
    simp only [List.mem_filter]
    exact ⟨hU, by simpa using hv⟩
  have hlt := (List.length_filter_lt_length_iff_exists
    (l := U.filter (fun y => !v.contains y))
    (p := fun y => !(y == x))).mpr ⟨x, hmem, by simp⟩
  omega

namespace BFS1

/-!
## The non-filtering breadth-first engine

`BreadthFirstFinder` as in the source file that checks only the progress
constraint (`resultTier > currentTier`) and never the per-ingredient
validity constraint.
-/

/-- `getPossibleRecipesThatRespectTiers` (non-filtering variant): recipes
using the element as an ingredient whose result tier strictly exceeds the
current tier. -/
def getPossibleRecipesThatRespectTiers (es : ElementStore) (elementID : String)
    (currentTier : Int) : List Recipe :=
  es.recipes.filter (fun recipe =>
    recipe.ingredients.contains elementID &&
      decide (currentTier < es.getElementTier recipe.result))

/-- The inner expansion loop of `FindShortestPath`: try each candidate
recipe, enqueue unvisited results, record backpointers, stop early when
the target is produced. -/
def expandStep (es : ElementStore) (target current : String) (currentTier : Int) :
    List Recipe → LoopState → LoopState
  | [], st => st
  | recipe :: rest, st =>
    let resultElem := recipe.result
    let resultTier := es.getElementTier resultElem
    if resultTier ≤ currentTier then
      expandStep es target current currentTier rest st
    else if st.visited.contains resultElem then
      expandStep es target current currentTier rest st
    else
      let st1 : LoopState :=
        { queue := st.queue ++ [resultElem]
          visited := resultElem :: st.visited
          parent := (resultElem, ⟨current, recipe⟩) :: st.parent
          visitedCount := st.visitedCount + 1
          found := st.found }
      if resultElem == target then { st1 with found := true }
      else expandStep es target current currentTier rest st1

/-- All identifiers a search can ever newly visit: the results of the
catalog's recipes (used as the termination measure universe). -/
def resultUniverse (es : ElementStore) : List String :=
  es.recipes.map (fun r => r.result)

/-- Termination measure of the BFS loop: twice the unvisited universe plus
the frontier length. -/
def measure (es : ElementStore) (st : LoopState) : Nat :=
  2 * ((resultUniverse es).filter (fun x => !st.visited.contains x)).length + st.queue.length

theorem expandStep_measure (es : ElementStore) (target current : String)
    (currentTier : Int) (recipes : List Recipe) (st : LoopState)
    (h : ∀ r ∈ recipes, r.result ∈ resultUniverse es) :
    measure es (expandStep es target current currentTier recipes st) ≤ measure es st := by
  induction recipes generalizing st with
  | nil => simp [expandStep]
  | cons recipe rest ih =>
    have hres : recipe.result ∈ resultUniverse es := h recipe (by simp)
    have hrest : ∀ r ∈ rest, r.result ∈ resultUniverse es := fun r hr => h r (by simp [hr])
    simp only [expandStep]
    split
    · exact ih st hrest
    · split
      · exact ih st hrest
      · rename_i hskip hvis
        set st1 : LoopState :=
          { queue := st.queue ++ [recipe.result]
            visited := recipe.result :: st.visited
            parent := (recipe.result, ⟨current, recipe⟩) :: st.parent
            visitedCount := st.visitedCount + 1
            found := st.found } with hst1
        have hm1 : measure es st1 ≤ measure es st := by
          have hfilter := filter_unvisited_cons (resultUniverse es) st.visited recipe.result
            hres (by simpa using hvis)
          simp only [measure, hst1, List.length_append, List.length_cons, List.length_nil]
          omega
        split
        · exact hm1
        · exact le_trans (ih st1 hrest) hm1

theorem getPossibleRecipes_results_mem (es : ElementStore) (elementID : String)
    (currentTier : Int) :
    ∀ r ∈ getPossibleRecipesThatRespectTiers es elementID currentTier,
      r.result ∈ resultUniverse es := by
  intro r hr
  have : r ∈ es.recipes := (List.mem_filter.mp hr).1
  exact List.mem_map.mpr ⟨r, this, rfl⟩

/-- The main BFS loop of `FindShortestPath`: pop the frontier head, stop if
it is the target, otherwise expand it. -/
def bfsLoop (es : ElementStore) (target : String) (st : LoopState) : LoopState :=
  if st.found then st
  else
    match hq : st.queue with
    | [] => st
    | current :: rest =>
      let currentTier := es.getElementTier current
      if current == target then
        { st with queue := rest, found := true }
      else
        let st1 := expandStep es target current currentTier
          (getPossibleRecipesThatRespectTiers es current currentTier)
          { st with queue := rest }
        if st1.found then st1
        else bfsLoop es target st1
  termination_by measure es st
  decreasing_by
    have hexp := expandStep_measure es target current (es.getElementTier current)
      (getPossibleRecipesThatRespectTiers es current (es.getElementTier current))
      { st with queue := rest }
      (getPossibleRecipes_results_mem es current (es.getElementTier current))
    have : measure es { st with queue := rest } < measure es st := by
      simp [measure, hq]
    omega

/-- The initial loop state of the breadth-first search: the frontier and
the visited set are seeded with the basic elements, the backpointer map is
empty. -/
def initLoopState (es : ElementStore) : LoopState :=
  let basicElements := es.getBasicElements
  { queue := basicElements
    visited := basicElements.foldl (fun v e => e :: v) []
    parent := []
    visitedCount := (basicElements.length : Int)
    found := false }

/-- `FindShortestPath` of the non-filtering breadth-first engine. -/
def FindShortestPath (es : ElementStore) (target : String) (now : Int) :
    Except SearchError SearchResult :=
  if !(es.elements.contains target) then .error .elementNotFound
  else
    let basicElements := es.getBasicElements
    if basicElements.length = 0 then .error .noBasicElements
    else
      let stF := bfsLoop es target (initLoopState es)
      if !stF.found then .error .noPathFound
      else
        .ok { path := reconstructPath target stF.parent
              visitedNodes := stF.visitedCount
              executionTime := now
              variationIndex := 0 }

/-- `findPathWithVariation` of the non-filtering engine: re-run
`FindShortestPath` and tag the result with the variation index. -/
def findPathWithVariation (es : ElementStore) (target : String)
    (variationIndex : Int) (now : Int) : Except SearchError SearchResult :=
  match FindShortestPath es target now with
  | .error e => .error e
  | .ok result => .ok { result with variationIndex := variationIndex }

/-- `FindMultiplePaths` of the non-filtering engine, spawn-order
serialization: run `maxPaths` variation workers (which share no mutable
state) and collect the successful results. -/
def FindMultiplePaths (es : ElementStore) (target : String) (maxPaths : Nat)
    (now : Int) : Except SearchError (List SearchResult) :=
  if !(es.elements.contains target) then .error .elementNotFound
  else
    let results := (List.range maxPaths).foldl (fun acc i =>
      match findPathWithVariation es target (Int.ofNat i) now with
      | .ok result => acc ++ [result]
      | .error _ => acc) []
    if results.length = 0 then .error .noPathFound
    else .ok results

end BFS1

namespace BFS0

/-!
## The canonical (filtering, pruning) breadth-first engine

`BreadthFirstFinder` as in the source file that filters candidate recipes
by ingredient-tier validity and prunes results above the target tier; the
specification adopts this variant as canonical.
-/

/-- `getPossibleRecipesThatRespectTiers` (canonical variant): recipes using
the element as an ingredient, with result tier not exceeding the target
tier, all ingredient tiers strictly below the result tier, and result tier
strictly above the current tier. -/
def getPossibleRecipesThatRespectTiers (es : ElementStore) (elementID : String)
    (currentTier targetTier : Int) : List Recipe :=
  es.recipes.filter (fun recipe =>
    recipe.ingredients.contains elementID &&
    !(decide (targetTier < es.getElementTier recipe.result)) &&
    recipe.ingredients.all (fun ing =>
      decide (es.getElementTier ing < es.getElementTier recipe.result)) &&
    decide (currentTier < es.getElementTier recipe.result))

/-- The inner expansion loop of the canonical `FindShortestPath`: skip
recipes with an ingredient at or above the result tier, skip results not
strictly above the current tier, enqueue unvisited results. -/
def expandStep (es : ElementStore) (target current : String) (currentTier : Int) :
    List Recipe → LoopState → LoopState
  | [], st => st
  | recipe :: rest, st =>
    let resultElem := recipe.result
    let resultTier := es.getElementTier resultElem
    if !(recipe.ingredients.all fun ing => decide (es.getElementTier ing < resultTier)) then
      expandStep es target current currentTier rest st
    else if resultTier ≤ currentTier then
      expandStep es target current currentTier rest st
    else if st.visited.contains resultElem then
      expandStep es target current currentTier rest st
    else
      let st1 : LoopState :=
        { queue := st.queue ++ [resultElem]
          visited := resultElem :: st.visited
          parent := (resultElem, ⟨current, recipe⟩) :: st.parent
          visitedCount := st.visitedCount + 1
          found := st.found }
      if resultElem == target then { st1 with found := true }
      else expandStep es target current currentTier rest st1

theorem expandStep_measure_can (es : ElementStore) (target current : String)
    (currentTier : Int) (recipes : List Recipe) (st : LoopState)
    (h : ∀ r ∈ recipes, r.result ∈ BFS1.resultUniverse es) :
    BFS1.measure es (expandStep es target current currentTier recipes st) ≤
      BFS1.measure es st := by
  induction recipes generalizing st with
  | nil => simp [expandStep]
  | cons recipe rest ih =>
    have hres : recipe.result ∈ BFS1.resultUniverse es := h recipe (by simp)
    have hrest : ∀ r ∈ rest, r.result ∈ BFS1.resultUniverse es := fun r hr => h r (by simp [hr])
    simp only [expandStep]
    split
    · exact ih st hrest
    · split
      · exact ih st hrest
      · split
        · exact ih st hrest
        · rename_i hval hskip hvis
          set st1 : LoopState :=
            { queue := st.queue ++ [recipe.result]
              visited := recipe.result :: st.visited
              parent := (recipe.result, ⟨current, recipe⟩) :: st.parent
              visitedCount := st.visitedCount + 1
              found := st.found } with hst1
          have hm1 : BFS1.measure es st1 ≤ BFS1.measure es st := by
            have hfilter := filter_unvisited_cons (BFS1.resultUniverse es) st.visited recipe.result
              hres (by simpa using hvis)
            simp only [BFS1.measure, hst1, List.length_append, List.length_cons, List.length_nil]
            omega
          split
          · exact hm1
          · exact le_trans (ih st1 hrest) hm1

theorem getPossibleRecipes_results_mem_can (es : ElementStore) (elementID : String)
    (currentTier targetTier : Int) :
    ∀ r ∈ getPossibleRecipesThatRespectTiers es elementID currentTier targetTier,
      r.result ∈ BFS1.resultUniverse es := by
  intro r hr
  have : r ∈ es.recipes := (List.mem_filter.mp hr).1
  exact List.mem_map.mpr ⟨r, this, rfl⟩

/-- The main loop of the canonical `FindShortestPath`. -/
def bfsLoop (es : ElementStore) (target : String) (targetTier : Int)
    (st : LoopState) : LoopState :=
  if st.found then st
  else
    match hq : st.queue with
    | [] => st
    | current :: rest =>
      let currentTier := es.getElementTier current
      if current == target then
        { st with queue := rest, found := true }
      else
        let st1 := expandStep es target current currentTier
          (getPossibleRecipesThatRespectTiers es current currentTier targetTier)
          { st with queue := rest }
        if st1.found then st1
        else bfsLoop es target targetTier st1
  termination_by BFS1.measure es st
  decreasing_by
    have hexp := expandStep_measure_can es target current (es.getElementTier current)
      (getPossibleRecipesThatRespectTiers es current (es.getElementTier current) targetTier)
      { st with queue := rest }
      (getPossibleRecipes_results_mem_can es current (es.getElementTier current) targetTier)
    have : BFS1.measure es { st with queue := rest } < BFS1.measure es st := by
      simp [BFS1.measure, hq]
    omega

/-- `FindShortestPath` of the canonical breadth-first engine. -/
def FindShortestPath (es : ElementStore) (target : String) (now : Int) :
    Except SearchError SearchResult :=
  if !(es.elements.contains target) then .error .elementNotFound
  else
    let targetTier := es.getElementTier target
    let basicElements := es.getBasicElements
    if basicElements.length = 0 then .error .noBasicElements
    else
      let st0 : LoopState :=
        { queue := basicElements
          visited := basicElements.foldl (fun v e => e :: v) []
          parent := []
          visitedCount := (basicElements.length : Int)
          found := false }
      let stF := bfsLoop es target targetTier st0
      if !stF.found then .error .noPathFound
      else
        .ok { path := reconstructPath target stF.parent
              visitedNodes := stF.visitedCount
              executionTime := now
              variationIndex := 0 }

/-- The index-derived adjacent-pair reordering of `findPathVariation`:
walk the candidate list in steps of two, swapping a pair when
`(i + randomFactor) % 7 = 0`. -/
def reorderPairs (randomFactor : Nat) : Nat → List Recipe → List Recipe
  | _, [] => []
  | _, [a] => [a]
  | i, a :: b :: rest =>
    if (i + randomFactor) % 7 = 0 then b :: a :: reorderPairs randomFactor (i + 2) rest
    else a :: b :: reorderPairs randomFactor (i + 2) rest

/-- The inner expansion loop of the canonical `findPathVariation`: like
`expandStep` but without the `resultTier ≤ currentTier` skip, and with the
duplicate-signature check on early target discovery (a duplicate clears
the found flag and the search continues). -/
def expandStepVar (es : ElementStore) (target current : String)
    (existingPaths : List String) : List Recipe → LoopState → LoopState
  | [], st => st
  | recipe :: rest, st =>
    let resultElem := recipe.result
    let resultTier := es.getElementTier resultElem
    if !(recipe.ingredients.all fun ing => decide (es.getElementTier ing < resultTier)) then
      expandStepVar es target current existingPaths rest st
    else if st.visited.contains resultElem then
      expandStepVar es target current existingPaths rest st
    else
      let st1 : LoopState :=
        { queue := st.queue ++ [resultElem]
          visited := resultElem :: st.visited
          parent := (resultElem, ⟨current, recipe⟩) :: st.parent
          visitedCount := st.visitedCount + 1
          found := st.found }
      if resultElem == target then
        if existingPaths.contains (getPathSignature (reconstructPath target st1.parent)) then
          { st1 with found := false }
        else { st1 with found := true }
      else expandStepVar es target current existingPaths rest st1

theorem expandStepVar_measure (es : ElementStore) (target current : String)
    (existingPaths : List String) (recipes : List Recipe) (st : LoopState)
    (h : ∀ r ∈ recipes, r.result ∈ BFS1.resultUniverse es) :
    BFS1.measure es (expandStepVar es target current existingPaths recipes st) ≤
      BFS1.measure es st := by
  induction recipes generalizing st with
  | nil => simp [expandStepVar]
  | cons recipe rest ih =>
    have hres : recipe.result ∈ BFS1.resultUniverse es := h recipe (by simp)
    have hrest : ∀ r ∈ rest, r.result ∈ BFS1.resultUniverse es := fun r hr => h r (by simp [hr])
    simp only [expandStepVar]
    split
    · exact ih st hrest
    · split
      · exact ih st hrest
      · rename_i hval hvis
        set st1 : LoopState :=
          { queue := st.queue ++ [recipe.result]
            visited := recipe.result :: st.visited
            parent := (recipe.result, ⟨current, recipe⟩) :: st.parent
            visitedCount := st.visitedCount + 1
            found := st.found } with hst1
        have hm1 : BFS1.measure es st1 ≤ BFS1.measure es st := by
          have hfilter := filter_unvisited_cons (BFS1.resultUniverse es) st.visited recipe.result
            hres (by simpa using hvis)
          simp only [BFS1.measure, hst1, List.length_append, List.length_cons, List.length_nil]
          omega
        split
        · split
          · exact hm1
          · exact hm1
        · exact le_trans (ih st1 hrest) hm1

theorem reorderPairs_subset (randomFactor : Nat) :
    ∀ (i : Nat) (l : List Recipe), ∀ r ∈ reorderPairs randomFactor i l, r ∈ l
  | _, [] => by simp [reorderPairs]
  | _, [a] => by simp [reorderPairs]
  | i, a :: b :: rest => by
    intro r hr
    by_cases hif : (i + randomFactor) % 7 = 0
    · simp only [reorderPairs, if_pos hif, List.mem_cons] at hr
      rcases hr with h | h | h
      · simp [h]
      · simp [h]
      · have := reorderPairs_subset randomFactor (i + 2) rest r h
        simp [this]
    · simp only [reorderPairs, if_neg hif, List.mem_cons] at hr
      rcases hr with h | h | h
      · simp [h]
      · simp [h]
      · have := reorderPairs_subset randomFactor (i + 2) rest r h
        simp [this]

/-- The candidate-recipe list used by the canonical `findPathVariation`:
the tier-respecting candidates, pair-reordered when there is more than one
and the random factor is positive. -/
def variationRecipes (es : ElementStore) (current : String)
    (currentTier targetTier : Int) (randomFactor : Nat) : List Recipe :=
  let possibleRecipes := getPossibleRecipesThatRespectTiers es current currentTier targetTier
  if 1 < possibleRecipes.length ∧ 0 < randomFactor then
    reorderPairs randomFactor 0 possibleRecipes
  else possibleRecipes

theorem variationRecipes_results_mem (es : ElementStore) (current : String)
    (currentTier targetTier : Int) (randomFactor : Nat) :
    ∀ r ∈ variationRecipes es current currentTier targetTier randomFactor,
      r.result ∈ BFS1.resultUniverse es := by
  intro r hr
  simp only [variationRecipes] at hr
  split at hr
  · exact getPossibleRecipes_results_mem_can es current currentTier targetTier r
      (reorderPairs_subset randomFactor 0 _ r hr)
  · exact getPossibleRecipes_results_mem_can es current currentTier targetTier r hr

/-- The main loop of the canonical `findPathVariation`: like `bfsLoop` but
with the index-derived reordering of candidate recipes and the
duplicate-signature check. -/
def bfsLoopVar (es : ElementStore) (target : String) (targetTier : Int)
    (randomFactor : Nat) (existingPaths : List String) (st : LoopState) : LoopState :=
  if st.found then st
  else
    match hq : st.queue with
    | [] => st
    | current :: rest =>
      let currentTier := es.getElementTier current
      if current == target then
        { st with queue := rest, found := true }
      else
        let st1 := expandStepVar es target current existingPaths
          (variationRecipes es current currentTier targetTier randomFactor)
          { st with queue := rest }
        if st1.found then st1
        else bfsLoopVar es target targetTier randomFactor existingPaths st1
  termination_by BFS1.measure es st
  decreasing_by
    have hexp := expandStepVar_measure es target current existingPaths
      (variationRecipes es current (es.getElementTier current) targetTier randomFactor)
      { st with queue := rest }
      (variationRecipes_results_mem es current (es.getElementTier current) targetTier randomFactor)
    have : BFS1.measure es { st with queue := rest } < BFS1.measure es st := by
      simp [BFS1.measure, hq]
    omega

/-- `findPathVariation` of the canonical breadth-first engine: rotate the
basic-element seed order by the variation index, reorder candidate
recipes, and reject a discovered path whose signature is already known. -/
def findPathVariation (es : ElementStore) (target : String) (variationIndex : Nat)
    (targetTier : Int) (existingPaths : List String) (now : Int) :
    Except SearchError SearchResult :=
  let basicElements := es.getBasicElements
  if basicElements.length = 0 then .error .noBasicElements
  else
    let offset := variationIndex % basicElements.length
    let seeds := basicElements.drop offset ++ basicElements.take offset
    let randomFactor := variationIndex % 10
    let st0 : LoopState :=
      { queue := seeds
        visited := seeds.foldl (fun v e => e :: v) []
        parent := []
        visitedCount := (seeds.length : Int)
        found := false }
    let stF := bfsLoopVar es target targetTier randomFactor existingPaths st0
    if !stF.found then .error .noPathFound
    else
      .ok { path := reconstructPath target stF.parent
            visitedNodes := stF.visitedCount
            executionTime := now
            variationIndex := (variationIndex : Int) }

/-- `FindMultiplePaths` of the canonical breadth-first engine, spawn-order
serialization: the shortest path first, then `maxPaths - 1` variation
workers that consult the shared signature set. -/
def FindMultiplePaths (es : ElementStore) (target : String) (maxPaths : Nat)
    (now : Int) : Except SearchError (List SearchResult) :=
  if !(es.elements.contains target) then .error .elementNotFound
  else
    let targetTier := es.getElementTier target
    match FindShortestPath es target now with
    | .error e => .error e
    | .ok shortestPath =>
      let initSigs :=
        if 0 < shortestPath.path.length then [getPathSignature shortestPath.path] else []
      let final := (List.range (maxPaths - 1)).foldl (fun acc i =>
        match findPathVariation es target i targetTier acc.2 now with
        | .ok result => (acc.1 ++ [result], getPathSignature result.path :: acc.2)
        | .error _ => acc) ([shortestPath], initSigs)
      if final.1.length = 0 then .error .noPathFound
      else .ok final.1

end BFS0

namespace DFS

/-!
## The depth-bounded depth-first engine

`DepthFirstFinder` as in the source file with tier constraints: recursive
backtracking with a depth ceiling `2 × tier(target)`, candidate recipes
filtered exactly as in the canonical BFS.  The Go depth counter `depth`
bounded by `maxDepth` is modelled by the remaining budget
`fuel = (maxDepth - depth).toNat`; the recursion passes `fuel - 1` to each
child exactly where Go passes `depth + 1`.
-/

/-- The mutable state of a depth-first search: the visited set, the
backpointer map and the visited counter. -/
structure DfsState where
  visited : List String
  parent : List (String × RecipeStep)
  visitedCount : Int
  deriving Repr

/-- `getPossibleRecipesThatRespectTiers` of the DFS engine file: textually
identical to the canonical BFS filter. -/
def getPossibleRecipesThatRespectTiers (es : ElementStore) (elementID : String)
    (currentTier targetTier : Int) : List Recipe :=
  BFS0.getPossibleRecipesThatRespectTiers es elementID currentTier targetTier

mutual

/-- `dfsSearchWithTiers`: return true on reaching the target, fail at the
depth ceiling, otherwise try each candidate recipe in order. -/
def dfsSearchWithTiers (es : ElementStore) (target : String) (targetTier : Int)
    (fuel : Nat) (current : String) (st : DfsState) : Bool × DfsState :=
  if current == target then (true, st)
  else if fuel = 0 then (false, st)
  else
    let currentTier := es.getElementTier current
    dfsTryRecipes es target targetTier (fuel - 1) current currentTier
      (getPossibleRecipesThatRespectTiers es current currentTier targetTier) st
  termination_by (fuel, 0, 0)

/-- The candidate loop of `dfsSearchWithTiers`: skip invalid or
non-progress recipes, mark-and-recurse into each unvisited result, and
un-mark the result and its backpointer when the recursion fails. -/
def dfsTryRecipes (es : ElementStore) (target : String) (targetTier : Int)
    (fuel : Nat) (current : String) (currentTier : Int) :
    List Recipe → DfsState → Bool × DfsState
  | [], st => (false, st)
  | recipe :: rest, st =>
    let resultElem := recipe.result
    let resultTier := es.getElementTier resultElem
    if !(recipe.ingredients.all fun ing => decide (es.getElementTier ing < resultTier)) then
      dfsTryRecipes es target targetTier fuel current currentTier rest st
    else if resultTier ≤ currentTier then
      dfsTryRecipes es target targetTier fuel current currentTier rest st
    else if st.visited.contains resultElem then
      dfsTryRecipes es target targetTier fuel current currentTier rest st
    else
      let st1 : DfsState :=
        { visited := resultElem :: st.visited
          parent := (resultElem, ⟨current, recipe⟩) :: st.parent
          visitedCount := st.visitedCount + 1 }
      let res := dfsSearchWithTiers es target targetTier fuel resultElem st1
      if res.1 then (true, res.2)
      else
        dfsTryRecipes es target targetTier fuel current currentTier rest
          { res.2 with
            visited := res.2.visited.erase resultElem
            parent := res.2.parent.eraseP (fun p => p.1 == resultElem) }
  termination_by recipes st => (fuel, 1, recipes.length)

end

/-- The per-basic-element driver loop of the DFS `FindShortestPath`: mark
the seed, search from it, and un-mark it when the search fails. -/
def tryBasics (es : ElementStore) (target : String) (targetTier : Int)
    (maxDepth : Int) : List String → DfsState → Bool × DfsState
  | [], st => (false, st)
  | elemID :: rest, st =>
    let st1 : DfsState :=
      { st with visited := elemID :: st.visited, visitedCount := st.visitedCount + 1 }
    let res := dfsSearchWithTiers es target targetTier maxDepth.toNat elemID st1
    if res.1 then (true, res.2)
    else
      tryBasics es target targetTier maxDepth rest
        { res.2 with visited := res.2.visited.erase elemID }

/-- `FindShortestPath` of the depth-bounded engine. -/
def FindShortestPath (es : ElementStore) (target : String) (now : Int) :
    Except SearchError SearchResult :=
  if !(es.elements.contains target) then .error .elementNotFound
  else
    let targetTier := es.getElementTier target
    let basicElements := es.getBasicElements
    if basicElements.length = 0 then .error .noBasicElements
    else
      let maxDepth := targetTier * 2
      let res := tryBasics es target targetTier maxDepth basicElements ⟨[], [], 0⟩
      if !res.1 then .error .noPathFound
      else
        .ok { path := reconstructPath target res.2.parent
              visitedNodes := res.2.visitedCount
              executionTime := now
              variationIndex := 0 }

/-- Swap two positions of a list (the in-place slice swap of the Go
shuffle). -/
def swapAt (l : List Recipe) (i j : Nat) : List Recipe :=
  match l.get? i, l.get? j with
  | some a, some b => (l.set i b).set j a
  | _, _ => l

/-- The index-derived shuffle of `dfsVariationSearch`: for each position
`i`, swap it with `(i + variationIndex) % length` when they differ. -/
def shuffleRecipes (variationIndex : Nat) (l : List Recipe) : List Recipe :=
  (List.range l.length).foldl (fun acc i =>
    let swapIndex := (i + variationIndex) % l.length
    if swapIndex = i then acc else swapAt acc i swapIndex) l

/-- The candidate-recipe list of `dfsVariationSearch`: shuffled when the
variation index is positive and there is more than one candidate. -/
def variationRecipes (es : ElementStore) (current : String)
    (currentTier targetTier : Int) (variationIndex : Nat) : List Recipe :=
  let possibleRecipes := getPossibleRecipesThatRespectTiers es current currentTier targetTier
  if 0 < variationIndex ∧ 1 < possibleRecipes.length then
    shuffleRecipes variationIndex possibleRecipes
  else possibleRecipes

mutual

/-- `dfsVariationSearch`: `dfsSearchWithTiers` with index-derived recipe
reordering (the shared signature set is threaded through but never read
inside the recursion, so it is omitted here). -/
def dfsVariationSearch (es : ElementStore) (target : String) (targetTier : Int)
    (variationIndex : Nat) (fuel : Nat) (current : String) (st : DfsState) :
    Bool × DfsState :=
  if current == target then (true, st)
  else if fuel = 0 then (false, st)
  else
    let currentTier := es.getElementTier current
    dfsVarTryRecipes es target targetTier variationIndex (fuel - 1) current currentTier
      (variationRecipes es current currentTier targetTier variationIndex) st
  termination_by (fuel, 0, 0)

/-- The candidate loop of `dfsVariationSearch`. -/
def dfsVarTryRecipes (es : ElementStore) (target : String) (targetTier : Int)
    (variationIndex : Nat) (fuel : Nat) (current : String) (currentTier : Int) :
    List Recipe → DfsState → Bool × DfsState
  | [], st => (false, st)
  | recipe :: rest, st =>
    let resultElem := recipe.result
    let resultTier := es.getElementTier resultElem
    if !(recipe.ingredients.all fun ing => decide (es.getElementTier ing < resultTier)) then
      dfsVarTryRecipes es target targetTier variationIndex fuel current currentTier rest st
    else if resultTier ≤ currentTier then
      dfsVarTryRecipes es target targetTier variationIndex fuel current currentTier rest st
    else if st.visited.contains resultElem then
      dfsVarTryRecipes es target targetTier variationIndex fuel current currentTier rest st
    else
      let st1 : DfsState :=
        { visited := resultElem :: st.visited
          parent := (resultElem, ⟨current, recipe⟩) :: st.parent
          visitedCount := st.visitedCount + 1 }
      let res := dfsVariationSearch es target targetTier variationIndex fuel resultElem st1
      if res.1 then (true, res.2)
      else
        dfsVarTryRecipes es target targetTier variationIndex fuel current currentTier rest
          { res.2 with
            visited := res.2.visited.erase resultElem
            parent := res.2.parent.eraseP (fun p => p.1 == resultElem) }
  termination_by recipes st => (fuel, 1, recipes.length)

end

/-- The per-seed driver loop of the DFS `findPathVariation`: on success,
reject a path whose signature is already known by wiping both maps,
leaving the current seed marked, and moving to the next seed. -/
def tryBasicsVar (es : ElementStore) (target : String) (targetTier : Int)
    (maxDepth : Int) (variationIndex : Nat) (existingPaths : List String) :
    List String → DfsState → Bool × DfsState
  | [], st => (false, st)
  | elemID :: rest, st =>
    let st1 : DfsState :=
      { st with visited := elemID :: st.visited, visitedCount := st.visitedCount + 1 }
    let res := dfsVariationSearch es target targetTier variationIndex maxDepth.toNat elemID st1
    if res.1 then
      if existingPaths.contains (getPathSignature (reconstructPath target res.2.parent)) then
        tryBasicsVar es target targetTier maxDepth variationIndex existingPaths rest
          { visited := [elemID], parent := [], visitedCount := res.2.visitedCount }
      else (true, res.2)
    else
      tryBasicsVar es target targetTier maxDepth variationIndex existingPaths rest
        { res.2 with visited := res.2.visited.erase elemID }

/-- `findPathVariation` of the depth-bounded engine: depth ceiling
perturbed by `variationIndex % 5`, seed order rotated by
`variationIndex % |basics|`. -/
def findPathVariation (es : ElementStore) (target : String) (variationIndex : Nat)
    (targetTier : Int) (existingPaths : List String) (now : Int) :
    Except SearchError SearchResult :=
  let basicElements := es.getBasicElements
  if basicElements.length = 0 then .error .noBasicElements
  else
    let maxDepth := targetTier * 2 + ((variationIndex : Int) % 5)
    let startElemIndex := variationIndex % basicElements.length
    let reordered :=
      if 0 < startElemIndex ∧ 1 < basicElements.length then
        basicElements.drop startElemIndex ++ basicElements.take startElemIndex
      else basicElements
    let res := tryBasicsVar es target targetTier maxDepth variationIndex existingPaths
        reordered ⟨[], [], 0⟩
    if !res.1 then .error .noPathFound
    else
      .ok { path := reconstructPath target res.2.parent
            visitedNodes := res.2.visitedCount
            executionTime := now
            variationIndex := (variationIndex : Int) }

/-- `FindMultiplePaths` of the depth-bounded engine, spawn-order
serialization. -/
def FindMultiplePaths (es : ElementStore) (target : String) (maxPaths : Nat)
    (now : Int) : Except SearchError (List SearchResult) :=
  if !(es.elements.contains target) then .error .elementNotFound
  else
    let targetTier := es.getElementTier target
    match FindShortestPath es target now with
    | .error e => .error e
    | .ok shortestPath =>
      let initSigs :=
        if 0 < shortestPath.path.length then [getPathSignature shortestPath.path] else []
      let final := (List.range (maxPaths - 1)).foldl (fun acc i =>
        match findPathVariation es target i targetTier acc.2 now with
        | .ok result => (acc.1 ++ [result], getPathSignature result.path :: acc.2)
        | .error _ => acc) ([shortestPath], initSigs)
      if final.1.length = 0 then .error .noPathFound
      else .ok final.1

end DFS

namespace Bid

/-!
## The bidirectional engine

`BidirectionalFinder`: a forward frontier seeded with the basic elements
and a backward frontier seeded with the target, advanced one full level
per round until the visited sets intersect.  Go reads of the `forwardTier`
and `backwardTier` maps default to `0` on a missing key, modelled by
`tierLookup`.
-/

/-- Read a Go `map[string]int`: the stored value, or `0` when absent. -/
def tierLookup (m : List (String × Int)) (k : String) : Int :=
  (m.lookup k).getD 0

/-- The full search state of the bidirectional engine. -/
structure BidState where
  forwardQueue : List String
  forwardVisited : List String
  forwardParent : List (String × RecipeStep)
  forwardTier : List (String × Int)
  backwardQueue : List String
  backwardVisited : List String
  backwardParent : List (String × RecipeStep)
  backwardTier : List (String × Int)
  visitedCount : Int
  meetingPoint : String
  found : Bool
  deriving Repr

/-- `getValidRecipesWithElementAnyPosition`: recipes using the element as
an ingredient whose ingredient tiers are all strictly below the result
tier. -/
def getValidRecipesWithElementAnyPosition (es : ElementStore) (elementID : String) :
    List Recipe :=
  es.recipes.filter (fun recipe =>
    recipe.ingredients.contains elementID &&
    recipe.ingredients.all (fun ing =>
      decide (es.getElementTier ing < es.getElementTier recipe.result)))

/-- The forward expansion loop over candidate recipes: enqueue unvisited
results, record tier and backpointer, stop when the backward search has
already visited the result. -/
def forwardExpand (es : ElementStore) (current : String) (currentTier : Int) :
    List Recipe → BidState → BidState
  | [], st => st
  | recipe :: rest, st =>
    let resultElem := recipe.result
    let resultTier := es.getElementTier resultElem
    if !(recipe.ingredients.all fun ing => decide (es.getElementTier ing < resultTier)) then
      forwardExpand es current currentTier rest st
    else if resultTier ≤ currentTier then
      forwardExpand es current currentTier rest st
    else if st.forwardVisited.contains resultElem then
      forwardExpand es current currentTier rest st
    else
      let st1 : BidState :=
        { st with
          forwardQueue := st.forwardQueue ++ [resultElem]
          forwardVisited := resultElem :: st.forwardVisited
          forwardTier := (resultElem, resultTier) :: st.forwardTier
          forwardParent := (resultElem, ⟨current, recipe⟩) :: st.forwardParent
          visitedCount := st.visitedCount + 1 }
      if st.backwardVisited.contains resultElem then
        { st1 with meetingPoint := resultElem, found := true }
      else forwardExpand es current currentTier rest st1

/-- One forward round: process `n` dequeues (the level size captured
before the round), stopping as soon as a meeting point is found. -/
def forwardLevel (es : ElementStore) : Nat → BidState → BidState
  | 0, st => st
  | n + 1, st =>
    if st.found then st
    else
      match st.forwardQueue with
      | [] => st
      | current :: rest =>
        let st0 := { st with forwardQueue := rest }
        let currentTier := tierLookup st.forwardTier current
        if st0.backwardVisited.contains current then
          { st0 with meetingPoint := current, found := true }
        else
          forwardLevel es n
            (forwardExpand es current currentTier
              (getValidRecipesWithElementAnyPosition es current) st0)

/-- The backward per-recipe ingredient loop: enqueue unvisited ingredients
of strictly lower tier, recording a backpointer toward the target. -/
def backwardIngredients (current : String) (currentTier : Int)
    (es : ElementStore) (recipe : Recipe) : List String → BidState → BidState
  | [], st => st
  | ingredient :: rest, st =>
    let ingredientTier := es.getElementTier ingredient
    if currentTier ≤ ingredientTier then
      backwardIngredients current currentTier es recipe rest st
    else if st.backwardVisited.contains ingredient then
      backwardIngredients current currentTier es recipe rest st
    else
      let st1 : BidState :=
        { st with
          backwardQueue := st.backwardQueue ++ [ingredient]
          backwardVisited := ingredient :: st.backwardVisited
          backwardTier := (ingredient, ingredientTier) :: st.backwardTier
          backwardParent := (ingredient, ⟨current, recipe⟩) :: st.backwardParent
          visitedCount := st.visitedCount + 1 }
      if st.forwardVisited.contains ingredient then
        { st1 with meetingPoint := ingredient, found := true }
      else backwardIngredients current currentTier es recipe rest st1

/-- The backward scan over the whole recipe list: recipes producing the
current element whose ingredients all sit strictly below its tier. -/
def backwardRecipes (es : ElementStore) (current : String) (currentTier : Int) :
    List Recipe → BidState → BidState
  | [], st => st
  | recipe :: rest, st =>
    if !(recipe.result == current) then
      backwardRecipes es current currentTier rest st
    else if !(recipe.ingredients.all fun ing =>
        decide (es.getElementTier ing < currentTier)) then
      backwardRecipes es current currentTier rest st
    else
      let st1 := backwardIngredients current currentTier es recipe recipe.ingredients st
      if st1.found then st1
      else backwardRecipes es current currentTier rest st1

/-- One backward round: process `n` dequeues. -/
def backwardLevel (es : ElementStore) : Nat → BidState → BidState
  | 0, st => st
  | n + 1, st =>
    if st.found then st
    else
      match st.backwardQueue with
      | [] => st
      | current :: rest =>
        let st0 := { st with backwardQueue := rest }
        let currentTier := tierLookup st.backwardTier current
        if st0.forwardVisited.contains current then
          { st0 with meetingPoint := current, found := true }
        else
          backwardLevel es n (backwardRecipes es current currentTier es.recipes st0)

/-- Every identifier the backward search can newly visit: an ingredient of
some catalog recipe. -/
def ingredientUniverse (es : ElementStore) : List String :=
  es.recipes.flatMap (fun r => r.ingredients)

/-- Termination measure of the bidirectional round loop. -/
def bidMeasure (es : ElementStore) (st : BidState) : Nat :=
  2 * ((BFS1.resultUniverse es).filter (fun x => !st.forwardVisited.contains x)).length +
    st.forwardQueue.length +
  2 * ((ingredientUniverse es).filter (fun x => !st.backwardVisited.contains x)).length +
    st.backwardQueue.length

theorem forwardExpand_measure (es : ElementStore) (current : String)
    (currentTier : Int) (recipes : List Recipe) (st : BidState)
    (h : ∀ r ∈ recipes, r.result ∈ BFS1.resultUniverse es) :
    bidMeasure es (forwardExpand es current currentTier recipes st) ≤ bidMeasure es st := by
  induction recipes generalizing st with
  | nil => simp [forwardExpand]
  | cons recipe rest ih =>
    have hres : recipe.result ∈ BFS1.resultUniverse es := h recipe (by simp)
    have hrest : ∀ r ∈ rest, r.result ∈ BFS1.resultUniverse es := fun r hr => h r (by simp [hr])
    simp only [forwardExpand]
    split
    · exact ih st hrest
    · split
      · exact ih st hrest
      · split
        · exact ih st hrest
        · rename_i hval hskip hvis
          set st1 : BidState :=
            { st with
              forwardQueue := st.forwardQueue ++ [recipe.result]
              forwardVisited := recipe.result :: st.forwardVisited
              forwardTier := (recipe.result, es.getElementTier recipe.result) :: st.forwardTier
              forwardParent := (recipe.result, ⟨current, recipe⟩) :: st.forwardParent
              visitedCount := st.visitedCount + 1 } with hst1
          have hm1 : bidMeasure es st1 ≤ bidMeasure es st := by
            have hfilter := filter_unvisited_cons (BFS1.resultUniverse es) st.forwardVisited
              recipe.result hres (by simpa using hvis)
            simp only [bidMeasure, hst1, List.length_append, List.length_cons, List.length_nil]
            omega
          split
          · exact hm1
          · exact le_trans (ih st1 hrest) hm1

theorem getValidRecipes_results_mem (es : ElementStore) (elementID : String) :
    ∀ r ∈ getValidRecipesWithElementAnyPosition es elementID,
      r.result ∈ BFS1.resultUniverse es := by
  intro r hr
  have : r ∈ es.recipes := (List.mem_filter.mp hr).1
  exact List.mem_map.mpr ⟨r, this, rfl⟩

theorem forwardLevel_measure (es : ElementStore) (n : Nat) (st : BidState) :
    bidMeasure es (forwardLevel es n st) ≤ bidMeasure es st := by
  induction n generalizing st with
  | zero => simp [forwardLevel]
  | succ n ih =>
    simp only [forwardLevel]
    split
    · exact le_rfl
    · split
      · exact le_rfl
      · rename_i hnf current rest hq
        split
        · simp only [bidMeasure, hq, List.length_cons]
          omega
        · have hexp := forwardExpand_measure es current
            (tierLookup st.forwardTier current)
            (getValidRecipesWithElementAnyPosition es current)
            { st with forwardQueue := rest }
            (getValidRecipes_results_mem es current)

          have hq1 : bidMeasure es { st with forwardQueue := rest } + 1 = bidMeasure es st := by
            simp [bidMeasure, hq]
            omega
          have := ih (forwardExpand es current (tierLookup st.forwardTier current)
            (getValidRecipesWithElementAnyPosition es current) { st with forwardQueue := rest })
          omega

theorem forwardLevel_measure_strict (es : ElementStore) (n : Nat) (st : BidState)
    (hfound : st.found = false) (hq : st.forwardQueue ≠ []) (hn : 0 < n) :
    bidMeasure es (forwardLevel es n st) < bidMeasure es st := by
  obtain ⟨m, rfl⟩ : ∃ m, n = m + 1 := ⟨n - 1, by omega⟩
  simp only [forwardLevel]
  rw [if_neg (by simp [hfound])]
  cases hqq : st.forwardQueue with
  | nil => exact absurd hqq hq
  | cons current rest =>
    dsimp only
    have hq1 : bidMeasure es { st with forwardQueue := rest } + 1 = bidMeasure es st := by
      simp only [bidMeasure, hqq, List.length_cons]
      omega
    split
    · simp only [bidMeasure, hqq, List.length_cons]
      omega
    · have hexp := forwardExpand_measure es current
        (tierLookup st.forwardTier current)
        (getValidRecipesWithElementAnyPosition es current)
        { st with forwardQueue := rest }
        (getValidRecipes_results_mem es current)
      have := forwardLevel_measure es m (forwardExpand es current
        (tierLookup st.forwardTier current)
        (getValidRecipesWithElementAnyPosition es current) { st with forwardQueue := rest })
      omega

theorem backwardIngredients_measure (current : String) (currentTier : Int)
    (es : ElementStore) (recipe : Recipe) (ings : List String) (st : BidState)
    (h : ∀ ing ∈ ings, ing ∈ ingredientUniverse es) :
    bidMeasure es (backwardIngredients current currentTier es recipe ings st) ≤
      bidMeasure es st := by
  induction ings generalizing st with
  | nil => simp [backwardIngredients]
  | cons ingredient rest ih =>
    have hres : ingredient ∈ ingredientUniverse es := h ingredient (by simp)
    have hrest : ∀ i ∈ rest, i ∈ ingredientUniverse es := fun i hi => h i (by simp [hi])
    simp only [backwardIngredients]
    split
    · exact ih st hrest
    · split
      · exact ih st hrest
      · rename_i hskip hvis
        set st1 : BidState :=
          { st with
            backwardQueue := st.backwardQueue ++ [ingredient]
            backwardVisited := ingredient :: st.backwardVisited
            backwardTier := (ingredient, es.getElementTier ingredient) :: st.backwardTier
            backwardParent := (ingredient, ⟨current, recipe⟩) :: st.backwardParent
            visitedCount := st.visitedCount + 1 } with hst1
        have hm1 : bidMeasure es st1 ≤ bidMeasure es st := by
          have hfilter := filter_unvisited_cons (ingredientUniverse es) st.backwardVisited
            ingredient hres (by simpa using hvis)
          simp only [bidMeasure, hst1, List.length_append, List.length_cons, List.length_nil]
          omega
        split
        · exact hm1
        · exact le_trans (ih st1 hrest) hm1

theorem backwardRecipes_measure (es : ElementStore) (current : String)
    (currentTier : Int) (recipes : List Recipe) (st : BidState)
    (h : ∀ r ∈ recipes, r ∈ es.recipes) :
    bidMeasure es (backwardRecipes es current currentTier recipes st) ≤
      bidMeasure es st := by
  induction recipes generalizing st with
  | nil => simp [backwardRecipes]
  | cons recipe rest ih =>
    have hrec : recipe ∈ es.recipes := h recipe (by simp)
    have hrest : ∀ r ∈ rest, r ∈ es.recipes := fun r hr => h r (by simp [hr])
    simp only [backwardRecipes]
    split
    · exact ih st hrest
    · split
      · exact ih st hrest
      · have hing : ∀ ing ∈ recipe.ingredients, ing ∈ ingredientUniverse es := by
          intro ing hi
          exact List.mem_flatMap.mpr ⟨recipe, hrec, hi⟩
        have hbi := backwardIngredients_measure current currentTier es recipe
          recipe.ingredients st hing
        split
        · exact hbi
        · exact le_trans (ih _ hrest) hbi

theorem backwardLevel_measure (es : ElementStore) (n : Nat) (st : BidState) :
    bidMeasure es (backwardLevel es n st) ≤ bidMeasure es st := by
  induction n generalizing st with
  | zero => simp [backwardLevel]
  | succ n ih =>
    simp only [backwardLevel]
    split
    · exact le_rfl
    · split
      · exact le_rfl
      · rename_i hnf current rest hq
        split
        · simp only [bidMeasure, hq, List.length_cons]
          omega
        · have hbr := backwardRecipes_measure es current
            (tierLookup st.backwardTier current) es.recipes
            { st with backwardQueue := rest } (fun r hr => hr)
          have hq1 : bidMeasure es { st with backwardQueue := rest } + 1 = bidMeasure es st := by
            simp [bidMeasure, hq]
            omega
          have := ih (backwardRecipes es current (tierLookup st.backwardTier current)
            es.recipes { st with backwardQueue := rest })
          omega

/-- The round loop of the bidirectional `FindShortestPath`: while both
frontiers are non-empty and no meeting point has been found, advance one
full forward level, then one full backward level. -/
def bidLoop (es : ElementStore) (st : BidState) : BidState :=
  if st.forwardQueue.length = 0 ∨ st.backwardQueue.length = 0 ∨ st.found then st
  else
    let st1 := forwardLevel es st.forwardQueue.length st
    if st1.found then st1
    else
      let st2 := backwardLevel es st1.backwardQueue.length st1
      if st2.found then st2
      else bidLoop es st2
  termination_by bidMeasure es st
  decreasing_by
    rename_i hcond hf1 hf2
    push_neg at hcond
    have hstrict := forwardLevel_measure_strict es st.forwardQueue.length st
      (by simpa using hcond.2.2) (by
        intro hnil
        exact hcond.1 (by simp [hnil])) (by omega)
    have hback := backwardLevel_measure es
      (forwardLevel es st.forwardQueue.length st).backwardQueue.length
      (forwardLevel es st.forwardQueue.length st)
    omega

/-- `reconstructForwardPath`, fuel-indexed: walk the forward backpointer
map from the meeting point, stopping at a missing entry or at an entry
whose recipe violates the tier constraint. -/
def reconstructForwardPathAux (es : ElementStore)
    (parentMap : List (String × RecipeStep)) : Nat → String → List Recipe
  | 0, _ => []
  | fuel + 1, current =>
    match parentMap.lookup current with
    | none => []
    | some step =>
      if !(step.recipe.ingredients.all fun ing =>
          decide (es.getElementTier ing < es.getElementTier step.recipe.result)) then
        []
      else
        reconstructForwardPathAux es parentMap fuel step.parentID ++ [step.recipe]

/-- `reconstructForwardPath`: basic element to meeting point. -/
def reconstructForwardPath (es : ElementStore) (meetingPoint : String)
    (parentMap : List (String × RecipeStep)) : List Recipe :=
  reconstructForwardPathAux es parentMap (parentMap.length + 1) meetingPoint

/-- `reconstructBackwardPath`, fuel-indexed: walk the backward backpointer
map from the meeting point toward the target, appending recipes. -/
def reconstructBackwardPathAux (es : ElementStore)
    (childMap : List (String × RecipeStep)) : Nat → String → List Recipe
  | 0, _ => []
  | fuel + 1, current =>
    match childMap.lookup current with
    | none => []
    | some step =>
      if !(step.recipe.ingredients.all fun ing =>
          decide (es.getElementTier ing < es.getElementTier step.recipe.result)) then
        []
      else
        step.recipe :: reconstructBackwardPathAux es childMap fuel step.parentID

/-- `reconstructBackwardPath`: meeting point to target. -/
def reconstructBackwardPath (es : ElementStore) (meetingPoint : String)
    (childMap : List (String × RecipeStep)) : List Recipe :=
  reconstructBackwardPathAux es childMap (childMap.length + 1) meetingPoint

/-- The initial bidirectional state: forward frontier seeded with the
basic elements at tier 0, backward frontier seeded with the target. -/
def initState (es : ElementStore) (target : String) : BidState :=
  let targetTier := es.getElementTier target
  let basicElements := es.getBasicElements
  { forwardQueue := basicElements
    forwardVisited := basicElements.foldl (fun v e => e :: v) []
    forwardParent := []
    forwardTier := basicElements.foldl (fun m e => (e, 0) :: m) []
    backwardQueue := [target]
    backwardVisited := [target]
    backwardParent := []
    backwardTier := [(target, targetTier)]
    visitedCount := (basicElements.length : Int) + 1
    meetingPoint := ""
    found := false }

/-- `FindShortestPath` of the bidirectional engine. -/
def FindShortestPath (es : ElementStore) (target : String) (now : Int) :
    Except SearchError SearchResult :=
  if !(es.elements.contains target) then .error .elementNotFound
  else
    let basicElements := es.getBasicElements
    if basicElements.length = 0 then .error .noBasicElements
    else
      let stF := bidLoop es (initState es target)
      if !stF.found then .error .noPathFound
      else
        let forwardPath := reconstructForwardPath es stF.meetingPoint stF.forwardParent
        let backwardPath := reconstructBackwardPath es stF.meetingPoint stF.backwardParent
        .ok { path := forwardPath ++ backwardPath
              visitedNodes := stF.visitedCount
              executionTime := now
              variationIndex := 0 }

/-- The duplicate test a worker runs against a snapshot of the shared
result list before sending its result on the channel: equal length and
pointwise equal recipe results.  The snapshot is read under the mutex but
the send happens after the unlock, so two workers holding the same
snapshot can both send equal paths; the test therefore yields no
invariant of the collected output and is not reflected in
`FindMultiplePathsCollect`. -/
def samePathResults (p q : List Recipe) : Bool :=
  p.length == q.length &&
    (List.zip p q).all (fun rq => rq.1.result == rq.2.result)

/-- The result-collection mechanism of the bidirectional
`FindMultiplePaths`: the candidate list abstracts the results arriving on
the channel, in arrival order under an arbitrary interleaving of the
workers.  A worker sends only results that pass its tier-validity
re-check; that check is a pure predicate of the result alone, so placing
it on the collector side is output-equivalent and keeps the model closed
over every candidate stream.  The collector itself appends under the
mutex with only the `pathsFound < maxPaths` count check. -/
def FindMultiplePathsCollect (es : ElementStore) (maxPaths : Nat)
    (candidates : List SearchResult) : List SearchResult :=
  candidates.foldl (fun results result =>
    let isValid := result.path.all (fun recipe =>
      recipe.ingredients.all (fun ing =>
        decide (es.getElementTier ing < es.getElementTier recipe.result)))
    if isValid then
      if results.length < maxPaths then
        results ++ [result]
      else results
    else results) []

/-- `FindMultiplePaths` of the bidirectional engine over an abstract
candidate stream. -/
def FindMultiplePaths (es : ElementStore) (target : String) (maxPaths : Nat)
    (candidates : List SearchResult) : Except SearchError (List SearchResult) :=
  if !(es.elements.contains target) then .error .elementNotFound
  else
    let results := FindMultiplePathsCollect es maxPaths candidates
    if results.length = 0 then .error .noPathFound
    else .ok results

end Bid

/-!
## Concrete catalogs used as witnesses and counterexamples
-/

/-- A catalog with a raw recipe that violates tier validity: `C` (tier 1)
is produced from `A` (tier 0) and `B` (tier 2). -/
def storeX : ElementStore :=
  { elements := ["A", "B", "C"]
    recipes := [⟨["A", "B"], "C"⟩]
    basicElements := ["A"]
    tierMap := [("A", 0), ("B", 2), ("C", 1)] }

/-- The concrete scenario of the specification: basics `A`, `B` (tier 0),
`C` (tier 1) from `A`+`B`, `D` (tier 2) from `A`+`C`. -/
def storeSpec : ElementStore :=
  { elements := ["A", "B", "C", "D"]
    recipes := [⟨["A", "B"], "C"⟩, ⟨["A", "C"], "D"⟩]
    basicElements := ["A", "B"]
    tierMap := [("A", 0), ("B", 0), ("C", 1), ("D", 2)] }

/-!
## Shared lemmas about lookups, backpointer maps and path reconstruction
-/

/-- A successful lookup comes from a member of the association list. -/
theorem lookup_mem {α β : Type} [BEq α] [LawfulBEq α] {l : List (α × β)} {k : α} {v : β}
    (h : l.lookup k = some v) : (k, v) ∈ l := by
  induction l with
  | nil => simp [List.lookup] at h
  | cons p rest ih =>
    rcases p with ⟨a, b⟩
    simp only [List.lookup] at h
    by_cases hk : (k == a) = true
    · rw [hk] at h
      obtain rfl := Option.some.inj h
      have : k = a := by simpa using hk
      subst this
      simp
    · rw [Bool.not_eq_true] at hk
      rw [hk] at h
      exact List.mem_cons_of_mem _ (ih h)

/-- Every backpointer entry records a tier-valid recipe. -/
def ParentEntriesValid (es : ElementStore) (pm : List (String × RecipeStep)) : Prop :=
  ∀ p ∈ pm, ValidRecipe es p.2.recipe

/-- Every backpointer entry points from a strictly lower-tier parent. -/
def ParentTierDecreasing (es : ElementStore) (pm : List (String × RecipeStep)) : Prop :=
  ∀ p ∈ pm, es.getElementTier p.2.parentID < es.getElementTier p.1

/-- Every backpointer entry has a non-negative parent tier. -/
def ParentTierNonneg (es : ElementStore) (pm : List (String × RecipeStep)) : Prop :=
  ∀ p ∈ pm, 0 ≤ es.getElementTier p.2.parentID

/-- Every recipe produced by the reconstruction walk is the recipe of
some backpointer entry. -/
theorem reconstructPathAux_mem (pm : List (String × RecipeStep)) :
    ∀ (fuel : Nat) (current : String), ∀ r ∈ reconstructPathAux pm fuel current,
      ∃ k step, (k, step) ∈ pm ∧ step.recipe = r := by
  intro fuel
  induction fuel with
  | zero => simp [reconstructPathAux]
  | succ fuel ih =>
    intro current r hr
    simp only [reconstructPathAux] at hr
    match hl : pm.lookup current with
    | none => rw [hl] at hr; simp at hr
    | some step =>
      rw [hl] at hr
      rcases List.mem_append.mp hr with h | h
      · exact ih step.parentID r h
      · have : r = step.recipe := by simpa using h
        exact ⟨current, step, lookup_mem hl, this.symm⟩

/-- Paths reconstructed from a map whose entries are all tier-valid are
tier-valid. -/
theorem reconstructPath_valid (es : ElementStore) (target : String)
    (pm : List (String × RecipeStep)) (hv : ParentEntriesValid es pm) :
    TierValidPath es (reconstructPath target pm) := by
  intro r hr
  obtain ⟨k, step, hmem, hrec⟩ := reconstructPathAux_mem pm (pm.length + 1) target r hr
  rw [← hrec]
  exact hv (k, step) hmem

/-- Fewer elements satisfy the stronger of two filters. -/
theorem length_filter_le_of_imp {α : Type} (l : List α) (p q : α → Bool)
    (himp : ∀ a ∈ l, p a = true → q a = true) :
    (l.filter p).length ≤ (l.filter q).length := by
  induction l with
  | nil => simp
  | cons b rest ih =>
    have hr := ih (fun x hx => himp x (by simp [hx]))
    by_cases hpb : p b = true
    · have hqb := himp b (by simp) hpb
      simp only [List.filter_cons, hpb, hqb, if_pos, List.length_cons]
      omega
    · by_cases hqb : q b = true
      · simp only [List.filter_cons, hqb, if_pos]
        rw [if_neg hpb]
        simp only [List.length_cons]
        omega
      · simp only [List.filter_cons]
        rw [if_neg hpb, if_neg hqb]
        exact hr

/-- Strictly fewer elements satisfy the stronger of two filters when some
element separates them. -/
theorem length_filter_lt_of_imp {α : Type} (l : List α) (p q : α → Bool)
    (himp : ∀ a ∈ l, p a = true → q a = true) (a : α) (ha : a ∈ l)
    (hqa : q a = true) (hpa : ¬ p a = true) :
    (l.filter p).length < (l.filter q).length := by
  induction l with
  | nil => simp at ha
  | cons b rest ih =>
    by_cases hb : a = b
    · subst hb
      have h1 : (rest.filter p).length ≤ (rest.filter q).length :=
        length_filter_le_of_imp rest p q fun x hx => himp x (by simp [hx])
      simp only [List.filter_cons, hqa, if_pos]
      rw [if_neg hpa]
      simp only [List.length_cons]
      omega
    · have ha' : a ∈ rest := by
        rcases List.mem_cons.mp ha with h | h
        · exact absurd h hb
        · exact h
      have := ih (fun x hx hp => himp x (by simp [hx]) hp) ha'
      by_cases hpb : p b = true
      · have hqb : q b = true := himp b (by simp) hpb
        simp only [List.filter_cons, hpb, hqb, if_pos, List.length_cons]
        omega
      · by_cases hqb : q b = true
        · simp only [List.filter_cons, hqb, if_pos]
          rw [if_neg hpb]
          simp only [List.length_cons]
          omega
        · simp only [List.filter_cons]
          rw [if_neg hpb, if_neg hqb]
          exact this

/-- On a tier-decreasing backpointer map the reconstruction walk reaches
an entry-less element within any fuel exceeding the number of entries at
or below the current tier: the Go walk loop terminates. -/
theorem walkEnds_of_decreasing (es : ElementStore) (pm : List (String × RecipeStep))
    (hdec : ParentTierDecreasing es pm) :
    ∀ (fuel : Nat) (current : String),
      (pm.filter (fun p => decide (es.getElementTier p.1 ≤ es.getElementTier current))).length
        < fuel →
      walkEnds pm fuel current = true := by
  intro fuel
  induction fuel with
  | zero => intro current h; omega
  | succ fuel ih =>
    intro current hcount
    simp only [walkEnds]
    match hl : pm.lookup current with
    | none => rfl
    | some step =>
      apply ih
      have hmem : (current, step) ∈ pm := lookup_mem hl
      have hstep : es.getElementTier step.parentID < es.getElementTier current :=
        hdec (current, step) hmem
      have hlt := length_filter_lt_of_imp pm
        (fun p => decide (es.getElementTier p.1 ≤ es.getElementTier step.parentID))
        (fun p => decide (es.getElementTier p.1 ≤ es.getElementTier current))
        (by
          intro a _ hp
          simp only [decide_eq_true_eq] at hp ⊢
          omega)
        (current, step) hmem (by simp) (by simp; omega)
      omega

/-- On a tier-decreasing backpointer map with non-negative parent tiers,
the reconstructed path is no longer than the current element's tier. -/
theorem reconstructPathAux_length_le (es : ElementStore)
    (pm : List (String × RecipeStep)) (hdec : ParentTierDecreasing es pm)
    (hnn : ParentTierNonneg es pm) :
    ∀ (fuel : Nat) (current : String),
      (reconstructPathAux pm fuel current).length ≤ (es.getElementTier current).toNat := by
  intro fuel
  induction fuel with
  | zero => simp [reconstructPathAux]
  | succ fuel ih =>
    intro current
    simp only [reconstructPathAux]
    match hl : pm.lookup current with
    | none => simp
    | some step =>
      have hmem : (current, step) ∈ pm := lookup_mem hl
      have hstep : es.getElementTier step.parentID < es.getElementTier current :=
        hdec (current, step) hmem
      have hpos : 0 ≤ es.getElementTier step.parentID := hnn (current, step) hmem
      have := ih step.parentID
      simp only [List.length_append, List.length_cons, List.length_nil]
      omega

/-- The whole-path version of the walk length bound. -/
theorem reconstructPath_length_le (es : ElementStore) (target : String)
    (pm : List (String × RecipeStep)) (hdec : ParentTierDecreasing es pm)
    (hnn : ParentTierNonneg es pm) :
    (reconstructPath target pm).length ≤ (es.getElementTier target).toNat :=
  reconstructPathAux_length_le es pm hdec hnn (pm.length + 1) target

/-- Every path produced by the forward bidirectional reconstruction is
tier-valid (the walk re-checks every entry). -/
theorem reconstructForwardPathAux_valid (es : ElementStore)
    (pm : List (String × RecipeStep)) :
    ∀ (fuel : Nat) (mp : String),
      TierValidPath es (Bid.reconstructForwardPathAux es pm fuel mp) := by
  intro fuel
  induction fuel with
  | zero => simp [Bid.reconstructForwardPathAux, TierValidPath]
  | succ fuel ih =>
    intro mp r hr
    simp only [Bid.reconstructForwardPathAux] at hr
    match hl : pm.lookup mp with
    | none => rw [hl] at hr; simp at hr
    | some step =>
      rw [hl] at hr
      dsimp only at hr
      by_cases hvalid : (step.recipe.ingredients.all fun ing =>
          decide (es.getElementTier ing < es.getElementTier step.recipe.result)) = true
      · rw [hvalid] at hr
        simp only [Bool.not_true, Bool.false_eq_true, if_false] at hr
        rcases List.mem_append.mp hr with h | h
        · exact ih step.parentID r h
        · have : r = step.recipe := by simpa using h
          subst this
          intro ing hi
          have := List.all_eq_true.mp hvalid ing hi
          simpa using this
      · rw [Bool.not_eq_true] at hvalid
        rw [hvalid] at hr
        simp at hr

/-- Every path produced by the backward bidirectional reconstruction is
tier-valid. -/
theorem reconstructBackwardPathAux_valid (es : ElementStore)
    (pm : List (String × RecipeStep)) :
    ∀ (fuel : Nat) (mp : String),
      TierValidPath es (Bid.reconstructBackwardPathAux es pm fuel mp) := by
  intro fuel
  induction fuel with
  | zero => simp [Bid.reconstructBackwardPathAux, TierValidPath]
  | succ fuel ih =>
    intro mp r hr
    simp only [Bid.reconstructBackwardPathAux] at hr
    match hl : pm.lookup mp with
    | none => rw [hl] at hr; simp at hr
    | some step =>
      rw [hl] at hr
      dsimp only at hr
      by_cases hvalid : (step.recipe.ingredients.all fun ing =>
          decide (es.getElementTier ing < es.getElementTier step.recipe.result)) = true
      · rw [hvalid] at hr
        simp only [Bool.not_true, Bool.false_eq_true, if_false] at hr
        rcases List.mem_cons.mp hr with h | h
        · subst h
          intro ing hi
          have := List.all_eq_true.mp hvalid ing hi
          simpa using this
        · exact ih step.parentID r h
      · rw [Bool.not_eq_true] at hvalid
        rw [hvalid] at hr
        simp at hr

/-!
## Branch equations for the well-founded search loops
-/

theorem BFS1.bfsLoop_eq_found (es : ElementStore) (target : String)
    (st : LoopState) (hfound : st.found = true) :
    BFS1.bfsLoop es target st = st := by
  rw [BFS1.bfsLoop.eq_def]
  simp [hfound]

theorem BFS1.bfsLoop_eq_nil (es : ElementStore) (target : String)
    (st : LoopState) (hfound : st.found = false) (hq : st.queue = []) :
    BFS1.bfsLoop es target st = st := by
  rw [BFS1.bfsLoop.eq_def]
  simp only [hfound, Bool.false_eq_true, if_false]
  split
  next => rfl
  next c r heq => rw [hq] at heq; exact absurd heq (by simp)

theorem BFS1.bfsLoop_eq_target (es : ElementStore) (target : String)
    (st : LoopState) (current : String) (rest : List String)
    (hfound : st.found = false) (hq : st.queue = current :: rest)
    (htgt : (current == target) = true) :
    BFS1.bfsLoop es target st = { st with queue := rest, found := true } := by
  rw [BFS1.bfsLoop.eq_def]
  simp only [hfound, Bool.false_eq_true, if_false]
  split
  next heq => rw [hq] at heq; exact absurd heq (by simp)
  next c r heq =>
    rw [hq] at heq
    injection heq with h1 h2
    subst h1
    subst h2
    rw [if_pos htgt]

theorem BFS1.bfsLoop_eq_step (es : ElementStore) (target : String)
    (st : LoopState) (current : String) (rest : List String)
    (hfound : st.found = false) (hq : st.queue = current :: rest)
    (htgt : (current == target) = false) :
    BFS1.bfsLoop es target st =
      (let st1 := BFS1.expandStep es target current (es.getElementTier current)
        (BFS1.getPossibleRecipesThatRespectTiers es current (es.getElementTier current))
        { st with queue := rest };
      if st1.found then st1 else BFS1.bfsLoop es target st1) := by
  rw [BFS1.bfsLoop.eq_def]
  simp only [hfound, Bool.false_eq_true, if_false]
  split
  next heq => rw [hq] at heq; exact absurd heq (by simp)
  next c r heq =>
    rw [hq] at heq
    injection heq with h1 h2
    subst h1
    subst h2
    rw [if_neg (by simp [htgt])]

theorem BFS0.bfsLoop_eq_found_can (es : ElementStore) (target : String) (targetTier : Int)
    (st : LoopState) (hfound : st.found = true) :
    BFS0.bfsLoop es target targetTier st = st := by
  rw [BFS0.bfsLoop.eq_def]
  simp [hfound]

theorem BFS0.bfsLoop_eq_nil_can (es : ElementStore) (target : String) (targetTier : Int)
    (st : LoopState) (hfound : st.found = false) (hq : st.queue = []) :
    BFS0.bfsLoop es target targetTier st = st := by
  rw [BFS0.bfsLoop.eq_def]
  simp only [hfound, Bool.false_eq_true, if_false]
  split
  next => rfl
  next c r heq => rw [hq] at heq; exact absurd heq (by simp)

theorem BFS0.bfsLoop_eq_target_can (es : ElementStore) (target : String) (targetTier : Int)
    (st : LoopState) (current : String) (rest : List String)
    (hfound : st.found = false) (hq : st.queue = current :: rest)
    (htgt : (current == target) = true) :
    BFS0.bfsLoop es target targetTier st = { st with queue := rest, found := true } := by
  rw [BFS0.bfsLoop.eq_def]
  simp only [hfound, Bool.false_eq_true, if_false]
  split
  next heq => rw [hq] at heq; exact absurd heq (by simp)
  next c r heq =>
    rw [hq] at heq
    injection heq with h1 h2
    subst h1
    subst h2
    rw [if_pos htgt]

theorem BFS0.bfsLoop_eq_step_can (es : ElementStore) (target : String) (targetTier : Int)
    (st : LoopState) (current : String) (rest : List String)
    (hfound : st.found = false) (hq : st.queue = current :: rest)
    (htgt : (current == target) = false) :
    BFS0.bfsLoop es target targetTier st =
      (let st1 := BFS0.expandStep es target current (es.getElementTier current)
        (BFS0.getPossibleRecipesThatRespectTiers es current (es.getElementTier current) targetTier)
        { st with queue := rest };
      if st1.found then st1 else BFS0.bfsLoop es target targetTier st1) := by
  rw [BFS0.bfsLoop.eq_def]
  simp only [hfound, Bool.false_eq_true, if_false]
  split
  next heq => rw [hq] at heq; exact absurd heq (by simp)
  next c r heq =>
    rw [hq] at heq
    injection heq with h1 h2
    subst h1
    subst h2
    rw [if_neg (by simp [htgt])]

theorem BFS0.bfsLoopVar_eq_found (es : ElementStore) (target : String) (targetTier : Int)
    (randomFactor : Nat) (existingPaths : List String)
    (st : LoopState) (hfound : st.found = true) :
    BFS0.bfsLoopVar es target targetTier randomFactor existingPaths st = st := by
  rw [BFS0.bfsLoopVar.eq_def]
  simp [hfound]

theorem BFS0.bfsLoopVar_eq_nil (es : ElementStore) (target : String) (targetTier : Int)
    (randomFactor : Nat) (existingPaths : List String)
    (st : LoopState) (hfound : st.found = false) (hq : st.queue = []) :
    BFS0.bfsLoopVar es target targetTier randomFactor existingPaths st = st := by
  rw [BFS0.bfsLoopVar.eq_def]
  simp only [hfound, Bool.false_eq_true, if_false]
  split
  next => rfl
  next c r heq => rw [hq] at heq; exact absurd heq (by simp)

theorem BFS0.bfsLoopVar_eq_target (es : ElementStore) (target : String) (targetTier : Int)
    (randomFactor : Nat) (existingPaths : List String)
    (st : LoopState) (current : String) (rest : List String)
    (hfound : st.found = false) (hq : st.queue = current :: rest)
    (htgt : (current == target) = true) :
    BFS0.bfsLoopVar es target targetTier randomFactor existingPaths st =
      { st with queue := rest, found := true } := by
  rw [BFS0.bfsLoopVar.eq_def]
  simp only [hfound, Bool.false_eq_true, if_false]
  split
  next heq => rw [hq] at heq; exact absurd heq (by simp)
  next c r heq =>
    rw [hq] at heq
    injection heq with h1 h2
    subst h1
    subst h2
    rw [if_pos htgt]

theorem BFS0.bfsLoopVar_eq_step (es : ElementStore) (target : String) (targetTier : Int)
    (randomFactor : Nat) (existingPaths : List String)
    (st : LoopState) (current : String) (rest : List String)
    (hfound : st.found = false) (hq : st.queue = current :: rest)
    (htgt : (current == target) = false) :
    BFS0.bfsLoopVar es target targetTier randomFactor existingPaths st =
      (let st1 := BFS0.expandStepVar es target current existingPaths
        (BFS0.variationRecipes es current (es.getElementTier current) targetTier randomFactor)
        { st with queue := rest };
      if st1.found then st1
      else BFS0.bfsLoopVar es target targetTier randomFactor existingPaths st1) := by
  rw [BFS0.bfsLoopVar.eq_def]
  simp only [hfound, Bool.false_eq_true, if_false]
  split
  next heq => rw [hq] at heq; exact absurd heq (by simp)
  next c r heq =>
    rw [hq] at heq
    injection heq with h1 h2
    subst h1
    subst h2
    rw [if_neg (by simp [htgt])]

theorem Bid.bidLoop_eq_stop (es : ElementStore) (st : Bid.BidState)
    (h : st.forwardQueue.length = 0 ∨ st.backwardQueue.length = 0 ∨ st.found = true) :
    Bid.bidLoop es st = st := by
  rw [Bid.bidLoop.eq_def]
  rw [if_pos (by simpa using h)]

theorem Bid.bidLoop_eq_round (es : ElementStore) (st : Bid.BidState)
    (h : ¬(st.forwardQueue.length = 0 ∨ st.backwardQueue.length = 0 ∨ st.found = true)) :
    Bid.bidLoop es st =
      (let st1 := Bid.forwardLevel es st.forwardQueue.length st
      if st1.found then st1
      else
        let st2 := Bid.backwardLevel es st1.backwardQueue.length st1
        if st2.found then st2
        else Bid.bidLoop es st2) := by
  rw [Bid.bidLoop.eq_def]
  rw [if_neg (by simpa using h)]

/-- The recipe path of a search outcome, when one was returned. -/
def pathOf (r : Except SearchError SearchResult) : Option (List Recipe) :=
  match r with
  | .ok res => some res.path
  | .error _ => none

/-- C6.  Idempotence / determinism: two calls of the Breadth-First
engine's `FindShortestPath` with the same target and the same catalog
return identical recipe paths, and likewise two calls of the
Bidirectional engine's `FindShortestPath`.  The only run-varying input
the Go code reads is the clock (`time.Now`), modelled by the explicit
`now` argument; both modelled breadth-first variants and the
bidirectional engine iterate only over deterministically ordered slices,
so the returned path does not depend on `now`. -/
theorem C6_idempotence (es : ElementStore) (target : String) (now1 now2 : Int) :
    pathOf (BFS1.FindShortestPath es target now1) =
      pathOf (BFS1.FindShortestPath es target now2) ∧
    pathOf (BFS0.FindShortestPath es target now1) =
      pathOf (BFS0.FindShortestPath es target now2) ∧
    pathOf (Bid.FindShortestPath es target now1) =
      pathOf (Bid.FindShortestPath es target now2) := by
  refine ⟨?_, ?_, ?_⟩
  · unfold BFS1.FindShortestPath
    dsimp only
    split
    · rfl
    · split
      · rfl
      · split
        · rfl
        · rfl
  · unfold BFS0.FindShortestPath
    dsimp only
    split
    · rfl
    · split
      · rfl
      · split
        · rfl
        · rfl
  · unfold Bid.FindShortestPath
    dsimp only
    split
    · rfl
    · split
      · rfl
      · split
        · rfl
        · rfl

/-!
## Tier validity of backpointer maps built by the filtering engines
-/

theorem BFS0.expandStep_parent_valid (es : ElementStore) (target current : String)
    (currentTier : Int) (recipes : List Recipe) (st : LoopState)
    (h : ParentEntriesValid es st.parent) :
    ParentEntriesValid es (BFS0.expandStep es target current currentTier recipes st).parent := by
  induction recipes generalizing st with
  | nil => simpa [BFS0.expandStep] using h
  | cons recipe rest ih =>
    simp only [BFS0.expandStep]
    split
    · exact ih st h
    · split
      · exact ih st h
      · split
        · exact ih st h
        · rename_i hval hskip hvis
          have hrec : ValidRecipe es recipe := by
            have hval2 : (recipe.ingredients.all fun ing =>
                decide (es.getElementTier ing < es.getElementTier recipe.result)) = true := by
              simpa using hval
            intro ing hi
            have := List.all_eq_true.mp hval2 ing hi
            simpa using this
          have hnew : ParentEntriesValid es
              ((recipe.result, (⟨current, recipe⟩ : RecipeStep)) :: st.parent) := by
            intro p hp
            rcases List.mem_cons.mp hp with h1 | h1
            · subst h1; exact hrec
            · exact h p h1
          split
          · exact hnew
          · exact ih _ hnew

theorem BFS0.expandStepVar_parent_valid (es : ElementStore) (target current : String)
    (existingPaths : List String) (recipes : List Recipe) (st : LoopState)
    (h : ParentEntriesValid es st.parent) :
    ParentEntriesValid es
      (BFS0.expandStepVar es target current existingPaths recipes st).parent := by
  induction recipes generalizing st with
  | nil => simpa [BFS0.expandStepVar] using h
  | cons recipe rest ih =>
    simp only [BFS0.expandStepVar]
    split
    · exact ih st h
    · split
      · exact ih st h
      · rename_i hval hvis
        have hrec : ValidRecipe es recipe := by
          have hval2 : (recipe.ingredients.all fun ing =>
              decide (es.getElementTier ing < es.getElementTier recipe.result)) = true := by
            simpa using hval
          intro ing hi
          have := List.all_eq_true.mp hval2 ing hi
          simpa using this
        have hnew : ParentEntriesValid es
            ((recipe.result, (⟨current, recipe⟩ : RecipeStep)) :: st.parent) := by
          intro p hp
          rcases List.mem_cons.mp hp with h1 | h1
          · subst h1; exact hrec
          · exact h p h1
        split
        · split
          · exact hnew
          · exact hnew
        · exact ih _ hnew

theorem BFS0.bfsLoop_parent_valid (es : ElementStore) (target : String) (targetTier : Int)
    (st : LoopState) :
    ParentEntriesValid es st.parent →
    ParentEntriesValid es (BFS0.bfsLoop es target targetTier st).parent := by
  induction st using BFS0.bfsLoop.induct es target targetTier with
  | case1 st hfound =>
    intro h
    rw [BFS0.bfsLoop_eq_found_can es target targetTier st hfound]
    exact h
  | case2 st hfound hq =>
    intro h
    rw [BFS0.bfsLoop_eq_nil_can es target targetTier st (by simpa using hfound) hq]
    exact h
  | case3 st hfound current rest hq htgt =>
    intro h
    rw [BFS0.bfsLoop_eq_target_can es target targetTier st current rest
      (by simpa using hfound) hq htgt]
    exact h
  | case4 st hfound current rest hq currentTier htgt st1 hf1 =>
    intro h
    rw [BFS0.bfsLoop_eq_step_can es target targetTier st current rest
      (by simpa using hfound) hq (by simpa using htgt)]
    dsimp only
    rw [if_pos hf1]
    exact BFS0.expandStep_parent_valid es target current _ _ _ h
  | case5 st hfound current rest hq currentTier htgt st1 hf1 ih =>
    intro h
    rw [BFS0.bfsLoop_eq_step_can es target targetTier st current rest
      (by simpa using hfound) hq (by simpa using htgt)]
    dsimp only
    rw [if_neg (by simpa using hf1)]
    exact ih (BFS0.expandStep_parent_valid es target current _ _ _ h)

theorem BFS0.bfsLoopVar_parent_valid (es : ElementStore) (target : String)
    (targetTier : Int) (randomFactor : Nat) (existingPaths : List String)
    (st : LoopState) :
    ParentEntriesValid es st.parent →
    ParentEntriesValid es
      (BFS0.bfsLoopVar es target targetTier randomFactor existingPaths st).parent := by
  induction st using BFS0.bfsLoopVar.induct es target targetTier randomFactor existingPaths with
  | case1 st hfound =>
    intro h
    rw [BFS0.bfsLoopVar_eq_found es target targetTier randomFactor existingPaths st hfound]
    exact h
  | case2 st hfound hq =>
    intro h
    rw [BFS0.bfsLoopVar_eq_nil es target targetTier randomFactor existingPaths st
      (by simpa using hfound) hq]
    exact h
  | case3 st hfound current rest hq htgt =>
    intro h
    rw [BFS0.bfsLoopVar_eq_target es target targetTier randomFactor existingPaths st
      current rest (by simpa using hfound) hq htgt]
    exact h
  | case4 st hfound current rest hq currentTier htgt st1 hf1 =>
    intro h
    rw [BFS0.bfsLoopVar_eq_step es target targetTier randomFactor existingPaths st
      current rest (by simpa using hfound) hq (by simpa using htgt)]
    dsimp only
    rw [if_pos hf1]
    exact BFS0.expandStepVar_parent_valid es target current existingPaths _ _ h
  | case5 st hfound current rest hq currentTier htgt st1 hf1 ih =>
    intro h
    rw [BFS0.bfsLoopVar_eq_step es target targetTier randomFactor existingPaths st
      current rest (by simpa using hfound) hq (by simpa using htgt)]
    dsimp only
    rw [if_neg (by simpa using hf1)]
    exact ih (BFS0.expandStepVar_parent_valid es target current existingPaths _ _ h)

/-- The combined invariant of a DFS backpointer map: entries point from a
strictly lower, non-negative parent tier, and record tier-valid recipes. -/
def DfsParentInv (es : ElementStore) (pm : List (String × RecipeStep)) : Prop :=
  ParentTierDecreasing es pm ∧ ParentTierNonneg es pm ∧ ParentEntriesValid es pm

theorem DfsParentInv.nil (es : ElementStore) : DfsParentInv es [] := by
  refine ⟨?_, ?_, ?_⟩ <;> intro p hp <;> simp at hp

theorem DfsParentInv.of_sublist (es : ElementStore)
    {pm pm2 : List (String × RecipeStep)} (hsub : ∀ p ∈ pm2, p ∈ pm)
    (h : DfsParentInv es pm) : DfsParentInv es pm2 :=
  ⟨fun p hp => h.1 p (hsub p hp), fun p hp => h.2.1 p (hsub p hp),
    fun p hp => h.2.2 p (hsub p hp)⟩

theorem DFS.dfs_parent_inv (es : ElementStore) (target : String) (targetTier : Int) :
    ∀ fuel : Nat,
    (∀ current st, 0 ≤ es.getElementTier current → DfsParentInv es st.parent →
      DfsParentInv es (DFS.dfsSearchWithTiers es target targetTier fuel current st).2.parent) ∧
    (∀ current currentTier recipes st, currentTier = es.getElementTier current →
      0 ≤ currentTier → DfsParentInv es st.parent →
      DfsParentInv es
        (DFS.dfsTryRecipes es target targetTier fuel current currentTier recipes st).2.parent) := by
  intro fuel
  induction fuel using Nat.strong_induction_on with
  | _ fuel ih =>
    have hsearch : ∀ current st, 0 ≤ es.getElementTier current →
        DfsParentInv es st.parent →
        DfsParentInv es
          (DFS.dfsSearchWithTiers es target targetTier fuel current st).2.parent := by
      intro current st hcur hinv
      rw [DFS.dfsSearchWithTiers]
      split
      · exact hinv
      · split
        · exact hinv
        · rename_i htgt hfz
          have hfuel : fuel - 1 < fuel := by omega
          exact (ih (fuel - 1) hfuel).2 current (es.getElementTier current) _ st rfl hcur hinv
    refine ⟨hsearch, ?_⟩
    intro current currentTier recipes st hct hcur hinv
    induction recipes generalizing st with
    | nil => simpa [DFS.dfsTryRecipes] using hinv
    | cons recipe rest ihr =>
      rw [DFS.dfsTryRecipes]
      split
      · exact ihr st hinv
      · split
        · exact ihr st hinv
        · split
          · exact ihr st hinv
          · rename_i hval hskip hvis
            have hlt : currentTier < es.getElementTier recipe.result := by omega
            have hval2 : (recipe.ingredients.all fun ing =>
                decide (es.getElementTier ing < es.getElementTier recipe.result)) = true := by
              simpa using hval
            have hinv1 : DfsParentInv es
                ((recipe.result, (⟨current, recipe⟩ : RecipeStep)) :: st.parent) := by
              refine ⟨?_, ?_, ?_⟩ <;> intro p hp <;> rcases List.mem_cons.mp hp with h1 | h1
              · subst h1
                show es.getElementTier current < es.getElementTier recipe.result
                omega
              · exact hinv.1 p h1
              · subst h1
                show 0 ≤ es.getElementTier current
                omega
              · exact hinv.2.1 p h1
              · subst h1
                intro ing hi
                have := List.all_eq_true.mp hval2 ing hi
                simpa using this
              · exact hinv.2.2 p h1
            have hres : 0 ≤ es.getElementTier recipe.result := by omega
            have hrec := hsearch recipe.result
              ⟨recipe.result :: st.visited,
                (recipe.result, ⟨current, recipe⟩) :: st.parent,
                st.visitedCount + 1⟩ hres hinv1
            dsimp only
            split
            · exact hrec
            · exact ihr _ (DfsParentInv.of_sublist es
                (fun p hp => (List.eraseP_sublist _).mem hp) hrec)

theorem DFS.dfsVar_parent_inv (es : ElementStore) (target : String) (targetTier : Int)
    (variationIndex : Nat) :
    ∀ fuel : Nat,
    (∀ current st, 0 ≤ es.getElementTier current → DfsParentInv es st.parent →
      DfsParentInv es
        (DFS.dfsVariationSearch es target targetTier variationIndex fuel current st).2.parent) ∧
    (∀ current currentTier recipes st, currentTier = es.getElementTier current →
      0 ≤ currentTier → DfsParentInv es st.parent →
      DfsParentInv es
        (DFS.dfsVarTryRecipes es target targetTier variationIndex fuel current currentTier
          recipes st).2.parent) := by
  intro fuel
  induction fuel using Nat.strong_induction_on with
  | _ fuel ih =>
    have hsearch : ∀ current st, 0 ≤ es.getElementTier current →
        DfsParentInv es st.parent →
        DfsParentInv es
          (DFS.dfsVariationSearch es target targetTier variationIndex fuel
            current st).2.parent := by
      intro current st hcur hinv
      rw [DFS.dfsVariationSearch]
      split
      · exact hinv
      · split
        · exact hinv
        · rename_i htgt hfz
          have hfuel : fuel - 1 < fuel := by omega
          exact (ih (fuel - 1) hfuel).2 current (es.getElementTier current) _ st rfl hcur hinv
    refine ⟨hsearch, ?_⟩
    intro current currentTier recipes st hct hcur hinv
    induction recipes generalizing st with
    | nil => simpa [DFS.dfsVarTryRecipes] using hinv
    | cons recipe rest ihr =>
      rw [DFS.dfsVarTryRecipes]
      split
      · exact ihr st hinv
      · split
        · exact ihr st hinv
        · split
          · exact ihr st hinv
          · rename_i hval hskip hvis
            have hlt : currentTier < es.getElementTier recipe.result := by omega
            have hval2 : (recipe.ingredients.all fun ing =>
                decide (es.getElementTier ing < es.getElementTier recipe.result)) = true := by
              simpa using hval
            have hinv1 : DfsParentInv es
                ((recipe.result, (⟨current, recipe⟩ : RecipeStep)) :: st.parent) := by
              refine ⟨?_, ?_, ?_⟩ <;> intro p hp <;> rcases List.mem_cons.mp hp with h1 | h1
              · subst h1
                show es.getElementTier current < es.getElementTier recipe.result
                omega
              · exact hinv.1 p h1
              · subst h1
                show 0 ≤ es.getElementTier current
                omega
              · exact hinv.2.1 p h1
              · subst h1
                intro ing hi
                have := List.all_eq_true.mp hval2 ing hi
                simpa using this
              · exact hinv.2.2 p h1
            have hres : 0 ≤ es.getElementTier recipe.result := by omega
            have hrec := hsearch recipe.result
              ⟨recipe.result :: st.visited,
                (recipe.result, ⟨current, recipe⟩) :: st.parent,
                st.visitedCount + 1⟩ hres hinv1
            dsimp only
            split
            · exact hrec
            · exact ihr _ (DfsParentInv.of_sublist es
                (fun p hp => (List.eraseP_sublist _).mem hp) hrec)

theorem DFS.tryBasics_parent_inv (es : ElementStore) (target : String)
    (targetTier : Int) (maxDepth : Int) (seeds : List String) (st : DfsState)
    (hseeds : ∀ b ∈ seeds, 0 ≤ es.getElementTier b)
    (hinv : DfsParentInv es st.parent) :
    DfsParentInv es (DFS.tryBasics es target targetTier maxDepth seeds st).2.parent := by
  induction seeds generalizing st with
  | nil => simpa [DFS.tryBasics] using hinv
  | cons elemID rest ih =>
    have hb : 0 ≤ es.getElementTier elemID := hseeds elemID (by simp)
    have hrest : ∀ b ∈ rest, 0 ≤ es.getElementTier b := fun b hbr => hseeds b (by simp [hbr])
    rw [DFS.tryBasics]
    have hrec := (DFS.dfs_parent_inv es target targetTier maxDepth.toNat).1 elemID
      ⟨elemID :: st.visited, st.parent, st.visitedCount + 1⟩ hb hinv
    dsimp only
    split
    · exact hrec
    · exact ih _ hrest hrec

theorem DFS.tryBasicsVar_parent_inv (es : ElementStore) (target : String)
    (targetTier : Int) (maxDepth : Int) (variationIndex : Nat)
    (existingPaths : List String) (seeds : List String) (st : DfsState)
    (hseeds : ∀ b ∈ seeds, 0 ≤ es.getElementTier b)
    (hinv : DfsParentInv es st.parent) :
    DfsParentInv es
      (DFS.tryBasicsVar es target targetTier maxDepth variationIndex existingPaths
        seeds st).2.parent := by
  induction seeds generalizing st with
  | nil => simpa [DFS.tryBasicsVar] using hinv
  | cons elemID rest ih =>
    have hb : 0 ≤ es.getElementTier elemID := hseeds elemID (by simp)
    have hrest : ∀ b ∈ rest, 0 ≤ es.getElementTier b := fun b hbr => hseeds b (by simp [hbr])
    rw [DFS.tryBasicsVar]
    have hrec := (DFS.dfsVar_parent_inv es target targetTier variationIndex
      maxDepth.toNat).1 elemID
      ⟨elemID :: st.visited, st.parent, st.visitedCount + 1⟩ hb hinv
    dsimp only
    split
    · split
      · exact ih _ hrest (DfsParentInv.nil es)
      · exact hrec
    · exact ih _ hrest hrec

theorem WFStore.getBasicElements_eq {es : ElementStore} (wf : WFStore es) :
    es.getBasicElements = es.basicElements := by
  unfold ElementStore.getBasicElements
  apply List.filter_eq_self.mpr
  intro b hb
  simpa using wf.basicsInElements b hb

theorem WFStore.basic_tier_nonneg {es : ElementStore} (wf : WFStore es) :
    ∀ b ∈ es.getBasicElements, 0 ≤ es.getElementTier b := by
  intro b hb
  rw [wf.getBasicElements_eq] at hb
  rw [wf.basicTierZero b hb]

/-!
## Per-engine tier validity of returned paths
-/

theorem BFS0.FindShortestPath_valid_can (es : ElementStore) (target : String) (now : Int)
    (res : SearchResult) (h : BFS0.FindShortestPath es target now = .ok res) :
    TierValidPath es res.path := by
  unfold BFS0.FindShortestPath at h
  dsimp only at h
  split at h
  · exact absurd h (by simp)
  · split at h
    · exact absurd h (by simp)
    · split at h
      · exact absurd h (by simp)
      · obtain rfl := (Except.ok.inj h).symm
        exact reconstructPath_valid es target _
          (BFS0.bfsLoop_parent_valid es target (es.getElementTier target) _
            (by intro p hp; simp at hp))

theorem BFS0.findPathVariation_valid_can (es : ElementStore) (target : String)
    (variationIndex : Nat) (targetTier : Int) (existingPaths : List String) (now : Int)
    (res : SearchResult)
    (h : BFS0.findPathVariation es target variationIndex targetTier existingPaths now =
      .ok res) :
    TierValidPath es res.path := by
  unfold BFS0.findPathVariation at h
  dsimp only at h
  split at h
  · exact absurd h (by simp)
  · split at h
    · exact absurd h (by simp)
    · obtain rfl := (Except.ok.inj h).symm
      exact reconstructPath_valid es target _
        (BFS0.bfsLoopVar_parent_valid es target targetTier _ existingPaths _
          (by intro p hp; simp at hp))

theorem BFS0.FindMultiplePaths_valid_can (es : ElementStore) (target : String)
    (maxPaths : Nat) (now : Int) (results : List SearchResult)
    (h : BFS0.FindMultiplePaths es target maxPaths now = .ok results) :
    ∀ res ∈ results, TierValidPath es res.path := by
  unfold BFS0.FindMultiplePaths at h
  split at h
  · exact absurd h (by simp)
  · rename_i htgt
    split at h
    · exact absurd h (by simp)
    · rename_i shortestPath hshort
      dsimp only at h
      have hfold : ∀ (l : List Nat) (acc : List SearchResult × List String),
            (∀ r ∈ acc.1, TierValidPath es r.path) →
            ∀ r ∈ (l.foldl (fun acc i =>
              match BFS0.findPathVariation es target i (es.getElementTier target) acc.2 now with
              | .ok result => (acc.1 ++ [result], getPathSignature result.path :: acc.2)
              | .error _ => acc) acc).1, TierValidPath es r.path := by
          intro l
          induction l with
          | nil => intro acc hacc; exact hacc
          | cons i rest ih =>
            intro acc hacc
            simp only [List.foldl_cons]
            apply ih
            match hv : BFS0.findPathVariation es target i (es.getElementTier target)
                acc.2 now with
            | .ok result =>
              simp only [hv]
              intro r hr
              rcases List.mem_append.mp hr with h1 | h1
              · exact hacc r h1
              · have : r = result := by simpa using h1
                subst this
                exact BFS0.findPathVariation_valid_can es target i (es.getElementTier target)
                  acc.2 now r hv
            | .error e =>
              simp only [hv]
              exact hacc
      split at h
      all_goals
        split at h
      case isTrue.isTrue => exact absurd h (by simp)
      case isFalse.isTrue => exact absurd h (by simp)
      all_goals
        obtain rfl := (Except.ok.inj h).symm
        apply hfold
        intro r hr
        have hrs : r = shortestPath := by simpa using hr
        subst hrs
        exact BFS0.FindShortestPath_valid_can es target now r hshort

theorem DFS.FindShortestPath_valid_dfs (es : ElementStore) (target : String) (now : Int)
    (res : SearchResult) (wf : WFStore es)
    (h : DFS.FindShortestPath es target now = .ok res) :
    TierValidPath es res.path := by
  unfold DFS.FindShortestPath at h
  dsimp only at h
  split at h
  · exact absurd h (by simp)
  · split at h
    · exact absurd h (by simp)
    · split at h
      · exact absurd h (by simp)
      · obtain rfl := (Except.ok.inj h).symm
        apply reconstructPath_valid es target _
        have := DFS.tryBasics_parent_inv es target (es.getElementTier target)
          (es.getElementTier target * 2) es.getBasicElements ⟨[], [], 0⟩
          (wf.basic_tier_nonneg) (DfsParentInv.nil es)
        exact this.2.2

theorem DFS.findPathVariation_valid_dfs (es : ElementStore) (target : String)
    (variationIndex : Nat) (targetTier : Int) (existingPaths : List String) (now : Int)
    (res : SearchResult) (wf : WFStore es)
    (h : DFS.findPathVariation es target variationIndex targetTier existingPaths now =
      .ok res) :
    TierValidPath es res.path := by
  have hdrop : ∀ b ∈
      es.getBasicElements.drop (variationIndex % es.getBasicElements.length) ++
        es.getBasicElements.take (variationIndex % es.getBasicElements.length),
      0 ≤ es.getElementTier b := by
    intro b hb
    apply wf.basic_tier_nonneg
    rcases List.mem_append.mp hb with h1 | h1
    · exact List.mem_of_mem_drop h1
    · exact List.mem_of_mem_take h1
  unfold DFS.findPathVariation at h
  dsimp only at h
  split at h
  · exact absurd h (by simp)
  · split at h
    · split at h
      · exact absurd h (by simp)
      · obtain rfl := (Except.ok.inj h).symm
        exact reconstructPath_valid es target _
          (DFS.tryBasicsVar_parent_inv es target targetTier
            (targetTier * 2 + ((variationIndex : Int) % 5)) variationIndex existingPaths
            _ ⟨[], [], 0⟩ hdrop (DfsParentInv.nil es)).2.2
    · split at h
      · exact absurd h (by simp)
      · obtain rfl := (Except.ok.inj h).symm
        exact reconstructPath_valid es target _
          (DFS.tryBasicsVar_parent_inv es target targetTier
            (targetTier * 2 + ((variationIndex : Int) % 5)) variationIndex existingPaths
            _ ⟨[], [], 0⟩ wf.basic_tier_nonneg (DfsParentInv.nil es)).2.2

theorem DFS.FindMultiplePaths_valid_dfs (es : ElementStore) (target : String)
    (maxPaths : Nat) (now : Int) (results : List SearchResult) (wf : WFStore es)
    (h : DFS.FindMultiplePaths es target maxPaths now = .ok results) :
    ∀ res ∈ results, TierValidPath es res.path := by
  unfold DFS.FindMultiplePaths at h
  split at h
  · exact absurd h (by simp)
  · rename_i htgt
    split at h
    · exact absurd h (by simp)
    · rename_i shortestPath hshort
      dsimp only at h
      have hfold : ∀ (l : List Nat) (acc : List SearchResult × List String),
            (∀ r ∈ acc.1, TierValidPath es r.path) →
            ∀ r ∈ (l.foldl (fun acc i =>
              match DFS.findPathVariation es target i (es.getElementTier target) acc.2 now with
              | .ok result => (acc.1 ++ [result], getPathSignature result.path :: acc.2)
              | .error _ => acc) acc).1, TierValidPath es r.path := by
          intro l
          induction l with
          | nil => intro acc hacc; exact hacc
          | cons i rest ih =>
            intro acc hacc
            simp only [List.foldl_cons]
            apply ih
            match hv : DFS.findPathVariation es target i (es.getElementTier target)
                acc.2 now with
            | .ok result =>
              simp only [hv]
              intro r hr
              rcases List.mem_append.mp hr with h1 | h1
              · exact hacc r h1
              · have : r = result := by simpa using h1
                subst this
                exact DFS.findPathVariation_valid_dfs es target i (es.getElementTier target)
                  acc.2 now r wf hv
            | .error e =>
              simp only [hv]
              exact hacc
      split at h
      all_goals
        split at h
      case isTrue.isTrue => exact absurd h (by simp)
      case isFalse.isTrue => exact absurd h (by simp)
      all_goals
        obtain rfl := (Except.ok.inj h).symm
        apply hfold
        intro r hr
        have hrs : r = shortestPath := by simpa using hr
        subst hrs
        exact DFS.FindShortestPath_valid_dfs es target now r wf hshort

theorem Bid.FindShortestPath_valid_bid (es : ElementStore) (target : String) (now : Int)
    (res : SearchResult) (h : Bid.FindShortestPath es target now = .ok res) :
    TierValidPath es res.path := by
  unfold Bid.FindShortestPath at h
  dsimp only at h
  split at h
  · exact absurd h (by simp)
  · split at h
    · exact absurd h (by simp)
    · split at h
      · exact absurd h (by simp)
      · obtain rfl := (Except.ok.inj h).symm
        intro r hr
        rcases List.mem_append.mp hr with h1 | h1
        · exact reconstructForwardPathAux_valid es _ _ _ r h1
        · exact reconstructBackwardPathAux_valid es _ _ _ r h1

theorem Bid.FindMultiplePaths_valid_bid (es : ElementStore) (target : String)
    (maxPaths : Nat) (candidates : List SearchResult) (results : List SearchResult)
    (h : Bid.FindMultiplePaths es target maxPaths candidates = .ok results) :
    ∀ res ∈ results, TierValidPath es res.path := by
  unfold Bid.FindMultiplePaths at h
  split at h
  · exact absurd h (by simp)
  · dsimp only at h
    split at h
    · exact absurd h (by simp)
    · obtain rfl := (Except.ok.inj h).symm
      unfold Bid.FindMultiplePathsCollect
      have hfold : ∀ (l : List SearchResult) (acc : List SearchResult),
          (∀ r ∈ acc, TierValidPath es r.path) →
          ∀ r ∈ l.foldl (fun results result =>
            let isValid := result.path.all (fun recipe =>
              recipe.ingredients.all (fun ing =>
                decide (es.getElementTier ing < es.getElementTier recipe.result)))
            if isValid then
              if results.length < maxPaths then
                results ++ [result]
              else results
            else results) acc, TierValidPath es r.path := by
        intro l
        induction l with
        | nil => intro acc hacc; exact hacc
        | cons cand rest ih =>
          intro acc hacc
          simp only [List.foldl_cons]
          apply ih
          dsimp only
          split
          · rename_i hvalidb
            split
            · intro r hr
              rcases List.mem_append.mp hr with h1 | h1
              · exact hacc r h1
              · have : r = cand := by simpa using h1
                subst this
                intro recipe hrec ing hing
                have h2 := List.all_eq_true.mp hvalidb recipe hrec
                have h3 := List.all_eq_true.mp h2 ing hing
                simpa using h3
            · exact hacc
          · exact hacc
      exact hfold candidates [] (by intro r hr; simp at hr)

/-- C1 counterexample: on the catalog `storeX` — producible by the loader,
since raw recipes may violate tiers — the non-filtering breadth-first
engine's `FindShortestPath` returns a path whose single recipe has an
ingredient (`B`, tier 2) at or above its result tier (`C`, tier 1). -/
theorem C1_counterexample :
    BFS1.FindShortestPath storeX "C" 0 =
      .ok { path := [⟨["A", "B"], "C"⟩], visitedNodes := 2,
            executionTime := 0, variationIndex := 0 } ∧
    ¬ TierValidPath storeX [⟨["A", "B"], "C"⟩] := by
  constructor
  · simp [BFS1.FindShortestPath, BFS1.initLoopState, BFS1.bfsLoop, BFS1.expandStep,
      BFS1.getPossibleRecipesThatRespectTiers, storeX, ElementStore.getElementTier,
      ElementStore.getBasicElements, reconstructPath, reconstructPathAux,
      List.lookup, List.filter]
  · intro h
    have := h ⟨["A", "B"], "C"⟩ (by simp) "B" (by simp)
    simp [storeX, ElementStore.getElementTier, List.lookup] at this

/-- C1 (amended).  Tier validity of every returned path holds for the
ingredient-filtering engines: the canonical (pruning) breadth-first
engine, the depth-bounded engine (on well-formed catalogs) and the
bidirectional engine — for `FindShortestPath`, for every variation
worker, and for `FindMultiplePaths`.  The non-filtering breadth-first
variant checks only the progress constraint and violates the claim
(`C1_counterexample`). -/
theorem C1_tier_validity_amended :
    (∀ (es : ElementStore) (target : String) (now : Int) (res : SearchResult),
      BFS0.FindShortestPath es target now = .ok res → TierValidPath es res.path) ∧
    (∀ (es : ElementStore) (target : String) (vi : Nat) (tt : Int)
        (sigs : List String) (now : Int) (res : SearchResult),
      BFS0.findPathVariation es target vi tt sigs now = .ok res →
        TierValidPath es res.path) ∧
    (∀ (es : ElementStore) (target : String) (k : Nat) (now : Int)
        (results : List SearchResult),
      BFS0.FindMultiplePaths es target k now = .ok results →
        ∀ res ∈ results, TierValidPath es res.path) ∧
    (∀ (es : ElementStore) (target : String) (now : Int) (res : SearchResult),
      WFStore es → DFS.FindShortestPath es target now = .ok res →
        TierValidPath es res.path) ∧
    (∀ (es : ElementStore) (target : String) (vi : Nat) (tt : Int)
        (sigs : List String) (now : Int) (res : SearchResult),
      WFStore es → DFS.findPathVariation es target vi tt sigs now = .ok res →
        TierValidPath es res.path) ∧
    (∀ (es : ElementStore) (target : String) (k : Nat) (now : Int)
        (results : List SearchResult),
      WFStore es → DFS.FindMultiplePaths es target k now = .ok results →
        ∀ res ∈ results, TierValidPath es res.path) ∧
    (∀ (es : ElementStore) (target : String) (now : Int) (res : SearchResult),
      Bid.FindShortestPath es target now = .ok res → TierValidPath es res.path) ∧
    (∀ (es : ElementStore) (target : String) (k : Nat)
        (candidates results : List SearchResult),
      Bid.FindMultiplePaths es target k candidates = .ok results →
        ∀ res ∈ results, TierValidPath es res.path) :=
  ⟨fun es target now res h => BFS0.FindShortestPath_valid_can es target now res h,
   fun es target vi tt sigs now res h =>
     BFS0.findPathVariation_valid_can es target vi tt sigs now res h,
   fun es target k now results h => BFS0.FindMultiplePaths_valid_can es target k now results h,
   fun es target now res wf h => DFS.FindShortestPath_valid_dfs es target now res wf h,
   fun es target vi tt sigs now res wf h =>
     DFS.findPathVariation_valid_dfs es target vi tt sigs now res wf h,
   fun es target k now results wf h =>
     DFS.FindMultiplePaths_valid_dfs es target k now results wf h,
   fun es target now res h => Bid.FindShortestPath_valid_bid es target now res h,
   fun es target k candidates results h =>
     Bid.FindMultiplePaths_valid_bid es target k candidates results h⟩

/-- C1 witness: on the specification's concrete catalog the filtering
engines return paths, and those paths are tier-valid. -/
theorem C1_tier_validity_amended_witness :
    BFS0.FindShortestPath storeSpec "D" 0 =
      .ok { path := [⟨["A", "C"], "D"⟩], visitedNodes := 4,
            executionTime := 0, variationIndex := 0 } ∧
    TierValidPath storeSpec [⟨["A", "C"], "D"⟩] ∧
    WFStore storeSpec ∧
    DFS.FindShortestPath storeSpec "D" 0 =
      .ok { path := [⟨["A", "B"], "C"⟩, ⟨["A", "C"], "D"⟩], visitedNodes := 3,
            executionTime := 0, variationIndex := 0 } ∧
    TierValidPath storeSpec [⟨["A", "B"], "C"⟩, ⟨["A", "C"], "D"⟩] := by
  have hwf : WFStore storeSpec := by
    refine ⟨?_, ?_, ?_, ?_, ?_⟩ <;> decide
  have hbfs : BFS0.FindShortestPath storeSpec "D" 0 =
      .ok { path := [⟨["A", "C"], "D"⟩], visitedNodes := 4,
            executionTime := 0, variationIndex := 0 } := by
    simp [BFS0.FindShortestPath, BFS0.bfsLoop, BFS0.expandStep,
      BFS0.getPossibleRecipesThatRespectTiers, storeSpec, ElementStore.getElementTier,
      ElementStore.getBasicElements, reconstructPath, reconstructPathAux,
      List.lookup, List.filter]
  have hdfs : DFS.FindShortestPath storeSpec "D" 0 =
      .ok { path := [⟨["A", "B"], "C"⟩, ⟨["A", "C"], "D"⟩], visitedNodes := 3,
            executionTime := 0, variationIndex := 0 } := by
    simp [DFS.FindShortestPath, DFS.tryBasics, DFS.dfsSearchWithTiers, DFS.dfsTryRecipes,
      DFS.getPossibleRecipesThatRespectTiers, BFS0.getPossibleRecipesThatRespectTiers,
      storeSpec, ElementStore.getElementTier, ElementStore.getBasicElements,
      reconstructPath, reconstructPathAux, List.lookup, List.filter]
  refine ⟨hbfs, ?_, hwf, hdfs, ?_⟩
  · have := C1_tier_validity_amended.1 storeSpec "D" 0 _ hbfs
    simpa using this
  · have := C1_tier_validity_amended.2.2.2.1 storeSpec "D" 0 _ hwf hdfs
    simpa using this

/-!
## Backtracking restores the visited set and backpointer map (C7)
-/

theorem DFS.dfs_restore (es : ElementStore) (target : String) (targetTier : Int) :
    ∀ fuel : Nat,
    (∀ current st st2,
      DFS.dfsSearchWithTiers es target targetTier fuel current st = (false, st2) →
      st2.visited = st.visited ∧ st2.parent = st.parent) ∧
    (∀ current currentTier recipes st st2,
      DFS.dfsTryRecipes es target targetTier fuel current currentTier recipes st =
        (false, st2) →
      st2.visited = st.visited ∧ st2.parent = st.parent) := by
  intro fuel
  induction fuel using Nat.strong_induction_on with
  | _ fuel ih =>
    have hsearch : ∀ current st st2,
        DFS.dfsSearchWithTiers es target targetTier fuel current st = (false, st2) →
        st2.visited = st.visited ∧ st2.parent = st.parent := by
      intro current st st2 h
      rw [DFS.dfsSearchWithTiers] at h
      split at h
      · exact absurd h (by simp)
      · split at h
        · obtain rfl := (Prod.mk.inj h).2
          exact ⟨rfl, rfl⟩
        · rename_i htgt hfz
          exact (ih (fuel - 1) (by omega)).2 current (es.getElementTier current) _ st st2 h
    refine ⟨hsearch, ?_⟩
    intro current currentTier recipes st st2 h
    induction recipes generalizing st with
    | nil =>
      rw [DFS.dfsTryRecipes] at h
      obtain rfl := (Prod.mk.inj h).2
      exact ⟨rfl, rfl⟩
    | cons recipe rest ihr =>
      rw [DFS.dfsTryRecipes] at h
      split at h
      · exact ihr st h
      · split at h
        · exact ihr st h
        · split at h
          · exact ihr st h
          · rename_i hval hskip hvis
            dsimp only at h
            split at h
            · exact absurd h (by simp)
            · rename_i hres1
              set st1 : DFS.DfsState :=
                ⟨recipe.result :: st.visited,
                  (recipe.result, ⟨current, recipe⟩) :: st.parent,
                  st.visitedCount + 1⟩ with hst1
              have hres : DFS.dfsSearchWithTiers es target targetTier fuel
                  recipe.result st1 =
                  ((DFS.dfsSearchWithTiers es target targetTier fuel recipe.result st1).1,
                   (DFS.dfsSearchWithTiers es target targetTier fuel recipe.result st1).2) :=
                rfl
              have hfalse : (DFS.dfsSearchWithTiers es target targetTier fuel
                  recipe.result st1).1 = false := by
                simpa using hres1
              have hrestore := hsearch recipe.result st1 _ (by rw [hres, hfalse])
              have hih := ihr _ h
              rw [hih.1, hih.2]
              constructor
              · rw [hrestore.1, hst1]
                exact List.erase_cons_head recipe.result st.visited
              · dsimp only
                rw [hrestore.2, hst1]
                dsimp only
                exact List.eraseP_cons_of_pos (by simp)

/-- C7.  Backtracking restores state: whenever the depth-bounded recursive
search `dfsSearchWithTiers` returns false, the visited set and the
backpointer map are exactly as at that call's entry (every mark added
during the failed branch is removed before the next candidate is tried).
The visited counter is the one piece of state deliberately not rolled
back.  The Go depth/maxDepth pair is modelled by the remaining budget
`fuel`. -/
theorem C7_backtracking_restores (es : ElementStore) (target : String)
    (targetTier : Int) (fuel : Nat) (current : String) (st st2 : DFS.DfsState)
    (h : DFS.dfsSearchWithTiers es target targetTier fuel current st = (false, st2)) :
    st2.visited = st.visited ∧ st2.parent = st.parent :=
  (DFS.dfs_restore es target targetTier fuel).1 current st st2 h

/-- C7 witness: a concrete failed search (for an absent target) whose
final visited set and backpointer map equal the entry ones. -/
theorem C7_backtracking_restores_witness :
    DFS.dfsSearchWithTiers storeSpec "X" 2 4 "A" ⟨["A"], [], 1⟩ =
      (false, ⟨["A"], [], 4⟩) ∧
    (⟨["A"], [], 4⟩ : DFS.DfsState).visited = (⟨["A"], [], 1⟩ : DFS.DfsState).visited ∧
    (⟨["A"], [], 4⟩ : DFS.DfsState).parent = (⟨["A"], [], 1⟩ : DFS.DfsState).parent := by
  have h : DFS.dfsSearchWithTiers storeSpec "X" 2 4 "A" ⟨["A"], [], 1⟩ =
      (false, ⟨["A"], [], 4⟩) := by
    simp [DFS.dfsSearchWithTiers, DFS.dfsTryRecipes,
      DFS.getPossibleRecipesThatRespectTiers, BFS0.getPossibleRecipesThatRespectTiers,
      storeSpec, ElementStore.getElementTier, List.lookup, List.filter,
      List.eraseP, List.erase]
  exact ⟨h, C7_backtracking_restores storeSpec "X" 2 4 "A" _ _ h⟩

/-!
## The depth bound of the depth-bounded engine (C3)
-/

theorem DFS.FindShortestPath_length (es : ElementStore) (target : String) (now : Int)
    (res : SearchResult) (wf : WFStore es)
    (h : DFS.FindShortestPath es target now = .ok res) :
    (res.path.length : Int) ≤ 2 * es.getElementTier target := by
  unfold DFS.FindShortestPath at h
  dsimp only at h
  split at h
  · exact absurd h (by simp)
  · rename_i htgt
    have htmem : target ∈ es.elements := by simpa using htgt
    have htier : 0 ≤ es.getElementTier target := wf.elemTierNonneg target htmem
    split at h
    · exact absurd h (by simp)
    · split at h
      · exact absurd h (by simp)
      · obtain rfl := (Except.ok.inj h).symm
        have hinv := DFS.tryBasics_parent_inv es target (es.getElementTier target)
          (es.getElementTier target * 2) es.getBasicElements ⟨[], [], 0⟩
          (wf.basic_tier_nonneg) (DfsParentInv.nil es)
        have hlen := reconstructPath_length_le es target _ hinv.1 hinv.2.1
        simp only []
        omega

theorem DFS.findPathVariation_length (es : ElementStore) (target : String)
    (variationIndex : Nat) (targetTier : Int) (existingPaths : List String) (now : Int)
    (res : SearchResult) (wf : WFStore es) (htt : targetTier = es.getElementTier target)
    (htier : 0 ≤ targetTier)
    (h : DFS.findPathVariation es target variationIndex targetTier existingPaths now =
      .ok res) :
    (res.path.length : Int) ≤ 2 * targetTier := by
  subst htt
  have hdrop : ∀ b ∈
      es.getBasicElements.drop (variationIndex % es.getBasicElements.length) ++
        es.getBasicElements.take (variationIndex % es.getBasicElements.length),
      0 ≤ es.getElementTier b := by
    intro b hb
    apply wf.basic_tier_nonneg
    rcases List.mem_append.mp hb with h1 | h1
    · exact List.mem_of_mem_drop h1
    · exact List.mem_of_mem_take h1
  unfold DFS.findPathVariation at h
  dsimp only at h
  split at h
  · exact absurd h (by simp)
  · split at h
    · split at h
      · exact absurd h (by simp)
      · obtain rfl := (Except.ok.inj h).symm
        have hinv := DFS.tryBasicsVar_parent_inv es target (es.getElementTier target)
          (es.getElementTier target * 2 + ((variationIndex : Int) % 5)) variationIndex
          existingPaths _ ⟨[], [], 0⟩ hdrop (DfsParentInv.nil es)
        have hlen := reconstructPath_length_le es target _ hinv.1 hinv.2.1
        simp only []
        omega
    · split at h
      · exact absurd h (by simp)
      · obtain rfl := (Except.ok.inj h).symm
        have hinv := DFS.tryBasicsVar_parent_inv es target (es.getElementTier target)
          (es.getElementTier target * 2 + ((variationIndex : Int) % 5)) variationIndex
          existingPaths _ ⟨[], [], 0⟩ wf.basic_tier_nonneg (DfsParentInv.nil es)
        have hlen := reconstructPath_length_le es target _ hinv.1 hinv.2.1
        simp only []
        omega

/-- C3.  Depth bound: whenever the Depth-Bounded engine returns a path —
from `FindShortestPath` or as any result of `FindMultiplePaths` (first
the shortest path, then the variation workers, whose shared signature set
is universally quantified so that every interleaving is covered) — that
path contains at most `2 × tier(target)` recipes, on any well-formed
catalog.  The bound holds even for the variation workers, whose depth
ceiling is `2 × tier(target) + (variationIndex mod 5)`: strict tier
progress along backpointers caps every path at `tier(target)` recipes. -/
theorem C3_depth_bound (es : ElementStore) (target : String) (now : Int)
    (wf : WFStore es) :
    (∀ res : SearchResult, DFS.FindShortestPath es target now = .ok res →
      (res.path.length : Int) ≤ 2 * es.getElementTier target) ∧
    (∀ (vi : Nat) (sigs : List String) (res : SearchResult),
      0 ≤ es.getElementTier target →
      DFS.findPathVariation es target vi (es.getElementTier target) sigs now = .ok res →
      (res.path.length : Int) ≤ 2 * es.getElementTier target) ∧
    (∀ (k : Nat) (results : List SearchResult),
      DFS.FindMultiplePaths es target k now = .ok results →
      ∀ res ∈ results, (res.path.length : Int) ≤ 2 * es.getElementTier target) := by
  refine ⟨fun res h => DFS.FindShortestPath_length es target now res wf h,
    fun vi sigs res htier h =>
      DFS.findPathVariation_length es target vi _ sigs now res wf rfl htier h, ?_⟩
  intro k results h res hres
  unfold DFS.FindMultiplePaths at h
  split at h
  · exact absurd h (by simp)
  · rename_i htgt
    have htmem : target ∈ es.elements := by simpa using htgt
    have htier : 0 ≤ es.getElementTier target := wf.elemTierNonneg target htmem
    split at h
    · exact absurd h (by simp)
    · rename_i shortestPath hshort
      dsimp only at h
      have hfold : ∀ (l : List Nat) (acc : List SearchResult × List String),
          (∀ r ∈ acc.1, (r.path.length : Int) ≤ 2 * es.getElementTier target) →
          ∀ r ∈ (l.foldl (fun acc i =>
            match DFS.findPathVariation es target i (es.getElementTier target) acc.2 now with
            | .ok result => (acc.1 ++ [result], getPathSignature result.path :: acc.2)
            | .error _ => acc) acc).1,
            (r.path.length : Int) ≤ 2 * es.getElementTier target := by
        intro l
        induction l with
        | nil => intro acc hacc; exact hacc
        | cons i rest ihl =>
          intro acc hacc
          simp only [List.foldl_cons]
          apply ihl
          match hv : DFS.findPathVariation es target i (es.getElementTier target)
              acc.2 now with
          | .ok result =>
            simp only [hv]
            intro r hr
            rcases List.mem_append.mp hr with h1 | h1
            · exact hacc r h1
            · have : r = result := by simpa using h1
              subst this
              exact DFS.findPathVariation_length es target i _ acc.2 now r wf rfl htier hv
          | .error e =>
            simp only [hv]
            exact hacc
      split at h
      all_goals
        split at h
      case isTrue.isTrue => exact absurd h (by simp)
      case isFalse.isTrue => exact absurd h (by simp)
      all_goals
        obtain rfl := (Except.ok.inj h).symm
        refine hfold _ _ ?_ res hres
        intro r hr
        have hrs : r = shortestPath := by simpa using hr
        subst hrs
        exact DFS.FindShortestPath_length es target now r wf hshort

/-- C3 witness: the DFS path for the spec scenario's `D` (tier 2) has two
recipes, within the bound `2 × 2 = 4`; `FindMultiplePaths` results
likewise. -/
theorem C3_depth_bound_witness :
    WFStore storeSpec ∧
    DFS.FindShortestPath storeSpec "D" 0 =
      .ok { path := [⟨["A", "B"], "C"⟩, ⟨["A", "C"], "D"⟩], visitedNodes := 3,
            executionTime := 0, variationIndex := 0 } ∧
    ((2 : Int) ≤ 2 * storeSpec.getElementTier "D") := by
  have hwf : WFStore storeSpec := by
    refine ⟨?_, ?_, ?_, ?_, ?_⟩ <;> decide
  have hdfs : DFS.FindShortestPath storeSpec "D" 0 =
      .ok { path := [⟨["A", "B"], "C"⟩, ⟨["A", "C"], "D"⟩], visitedNodes := 3,
            executionTime := 0, variationIndex := 0 } := by
    simp [DFS.FindShortestPath, DFS.tryBasics, DFS.dfsSearchWithTiers, DFS.dfsTryRecipes,
      DFS.getPossibleRecipesThatRespectTiers, BFS0.getPossibleRecipesThatRespectTiers,
      storeSpec, ElementStore.getElementTier, ElementStore.getBasicElements,
      reconstructPath, reconstructPathAux, List.lookup, List.filter]
  refine ⟨hwf, hdfs, ?_⟩
  have := (C3_depth_bound storeSpec "D" 0 hwf).1 _ hdfs
  simpa using this

/-!
## The meeting-point invariant of the bidirectional engine (C8)
-/

/-- Membership in the Go-style `for … prepend` fold that seeds the
forward visited set. -/
theorem mem_foldl_cons (l acc : List String) (x : String)
    (h : x ∈ l ∨ x ∈ acc) : x ∈ l.foldl (fun v e => e :: v) acc := by
  induction l generalizing acc with
  | nil =>
    rcases h with h | h
    · simp at h
    · simpa using h
  | cons a rest ih =>
    simp only [List.foldl_cons]
    apply ih
    rcases h with h | h
    · rcases List.mem_cons.mp h with h1 | h1
      · subst h1
        right
        simp
      · left
        exact h1
    · right
      simp [h]

/-- The running invariant of the bidirectional state: each frontier is
contained in its visited set, and a found meeting point belongs to both
visited sets. -/
def Bid.MeetInv (st : Bid.BidState) : Prop :=
  (∀ x ∈ st.forwardQueue, x ∈ st.forwardVisited) ∧
  (∀ x ∈ st.backwardQueue, x ∈ st.backwardVisited) ∧
  (st.found = true → st.meetingPoint ∈ st.forwardVisited ∧
    st.meetingPoint ∈ st.backwardVisited)

theorem Bid.forwardExpand_meet_inv (es : ElementStore) (current : String)
    (currentTier : Int) (recipes : List Recipe) (st : Bid.BidState)
    (h : Bid.MeetInv st) :
    Bid.MeetInv (Bid.forwardExpand es current currentTier recipes st) := by
  induction recipes generalizing st with
  | nil => simpa [Bid.forwardExpand] using h
  | cons recipe rest ih =>
    simp only [Bid.forwardExpand]
    split
    · exact ih st h
    · split
      · exact ih st h
      · split
        · exact ih st h
        · have h1 : Bid.MeetInv
              { st with
                forwardQueue := st.forwardQueue ++ [recipe.result]
                forwardVisited := recipe.result :: st.forwardVisited
                forwardTier :=
                  (recipe.result, es.getElementTier recipe.result) :: st.forwardTier
                forwardParent := (recipe.result, ⟨current, recipe⟩) :: st.forwardParent
                visitedCount := st.visitedCount + 1 } := by
            refine ⟨?_, ?_, ?_⟩
            · intro x hx
              dsimp only at hx ⊢
              rcases List.mem_append.mp hx with hx1 | hx1
              · exact List.mem_cons_of_mem _ (h.1 x hx1)
              · have hxe : x = recipe.result := by simpa using hx1
                subst hxe
                simp
            · intro x hx
              dsimp only at hx ⊢
              exact h.2.1 x hx
            · intro hf
              dsimp only at hf ⊢
              obtain ⟨ha, hb⟩ := h.2.2 hf
              exact ⟨List.mem_cons_of_mem _ ha, hb⟩
          split
          · rename_i hbv
            refine ⟨?_, ?_, ?_⟩
            · intro x hx
              exact h1.1 x hx
            · intro x hx
              exact h1.2.1 x hx
            · intro _
              refine ⟨?_, ?_⟩
              · dsimp only
                simp
              · dsimp only
                simpa using hbv
          · exact ih _ h1

theorem Bid.forwardLevel_meet_inv (es : ElementStore) (n : Nat) (st : Bid.BidState)
    (h : Bid.MeetInv st) : Bid.MeetInv (Bid.forwardLevel es n st) := by
  induction n generalizing st with
  | zero => simpa [Bid.forwardLevel] using h
  | succ n ih =>
    simp only [Bid.forwardLevel]
    split
    · exact h
    · split
      · exact h
      · rename_i hnf current rest hq
        have h0 : Bid.MeetInv { st with forwardQueue := rest } := by
          refine ⟨?_, h.2.1, h.2.2⟩
          intro x hx
          exact h.1 x (by rw [hq]; exact List.mem_cons_of_mem _ hx)
        split
        · rename_i hbv
          refine ⟨h0.1, h0.2.1, ?_⟩
          intro _
          refine ⟨?_, ?_⟩
          · exact h.1 current (by rw [hq]; simp)
          · simpa using hbv
        · exact ih _ (Bid.forwardExpand_meet_inv es current _ _ _ h0)

theorem Bid.backwardIngredients_meet_inv (current : String) (currentTier : Int)
    (es : ElementStore) (recipe : Recipe) (ings : List String) (st : Bid.BidState)
    (h : Bid.MeetInv st) :
    Bid.MeetInv (Bid.backwardIngredients current currentTier es recipe ings st) := by
  induction ings generalizing st with
  | nil => simpa [Bid.backwardIngredients] using h
  | cons ingredient rest ih =>
    simp only [Bid.backwardIngredients]
    split
    · exact ih st h
    · split
      · exact ih st h
      · have h1 : Bid.MeetInv
            { st with
              backwardQueue := st.backwardQueue ++ [ingredient]
              backwardVisited := ingredient :: st.backwardVisited
              backwardTier :=
                (ingredient, es.getElementTier ingredient) :: st.backwardTier
              backwardParent := (ingredient, ⟨current, recipe⟩) :: st.backwardParent
              visitedCount := st.visitedCount + 1 } := by
          refine ⟨?_, ?_, ?_⟩
          · intro x hx
            dsimp only at hx ⊢
            exact h.1 x hx
          · intro x hx
            dsimp only at hx ⊢
            rcases List.mem_append.mp hx with hx1 | hx1
            · exact List.mem_cons_of_mem _ (h.2.1 x hx1)
            · have hxe : x = ingredient := by simpa using hx1
              subst hxe
              simp
          · intro hf
            dsimp only at hf ⊢
            obtain ⟨ha, hb⟩ := h.2.2 hf
            exact ⟨ha, List.mem_cons_of_mem _ hb⟩
        split
        · rename_i hfv
          refine ⟨?_, ?_, ?_⟩
          · intro x hx
            exact h1.1 x hx
          · intro x hx
            exact h1.2.1 x hx
          · intro _
            refine ⟨?_, ?_⟩
            · dsimp only
              simpa using hfv
            · dsimp only
              simp
        · exact ih _ h1

theorem Bid.backwardRecipes_meet_inv (es : ElementStore) (current : String)
    (currentTier : Int) (recipes : List Recipe) (st : Bid.BidState)
    (h : Bid.MeetInv st) :
    Bid.MeetInv (Bid.backwardRecipes es current currentTier recipes st) := by
  induction recipes generalizing st with
  | nil => simpa [Bid.backwardRecipes] using h
  | cons recipe rest ih =>
    simp only [Bid.backwardRecipes]
    split
    · exact ih st h
    · split
      · exact ih st h
      · have h1 := Bid.backwardIngredients_meet_inv current currentTier es recipe
          recipe.ingredients st h
        split
        · exact h1
        · exact ih _ h1

theorem Bid.backwardLevel_meet_inv (es : ElementStore) (n : Nat) (st : Bid.BidState)
    (h : Bid.MeetInv st) : Bid.MeetInv (Bid.backwardLevel es n st) := by
  induction n generalizing st with
  | zero => simpa [Bid.backwardLevel] using h
  | succ n ih =>
    simp only [Bid.backwardLevel]
    split
    · exact h
    · split
      · exact h
      · rename_i hnf current rest hq
        have h0 : Bid.MeetInv { st with backwardQueue := rest } := by
          refine ⟨h.1, ?_, h.2.2⟩
          intro x hx
          exact h.2.1 x (by rw [hq]; exact List.mem_cons_of_mem _ hx)
        split
        · rename_i hfv
          refine ⟨h0.1, h0.2.1, ?_⟩
          intro _
          refine ⟨?_, ?_⟩
          · simpa using hfv
          · exact h.2.1 current (by rw [hq]; simp)
        · exact ih _ (Bid.backwardRecipes_meet_inv es current _ _ _ h0)

theorem Bid.bidLoop_meet_inv (es : ElementStore) :
    ∀ (m : Nat) (st : Bid.BidState), Bid.bidMeasure es st ≤ m →
    Bid.MeetInv st → Bid.MeetInv (Bid.bidLoop es st) := by
  intro m
  induction m using Nat.strong_induction_on with
  | _ m ih =>
    intro st hm h
    by_cases hcond : st.forwardQueue.length = 0 ∨ st.backwardQueue.length = 0 ∨
      st.found = true
    · rw [Bid.bidLoop_eq_stop es st hcond]
      exact h
    · rw [Bid.bidLoop_eq_round es st (by simpa using hcond)]
      dsimp only
      push_neg at hcond
      obtain ⟨hq1, hq2, hfd⟩ := hcond
      have h1 : Bid.MeetInv (Bid.forwardLevel es st.forwardQueue.length st) :=
        Bid.forwardLevel_meet_inv es _ st h
      split
      · exact h1
      · have h2 : Bid.MeetInv (Bid.backwardLevel es
            (Bid.forwardLevel es st.forwardQueue.length st).backwardQueue.length
            (Bid.forwardLevel es st.forwardQueue.length st)) :=
          Bid.backwardLevel_meet_inv es _ _ h1
        split
        · exact h2
        · have hstrict := Bid.forwardLevel_measure_strict es st.forwardQueue.length st
            (by simpa using hfd) (fun hnil => hq1 (by simp [hnil])) (by omega)
          have hback := Bid.backwardLevel_measure es
            (Bid.forwardLevel es st.forwardQueue.length st).backwardQueue.length
            (Bid.forwardLevel es st.forwardQueue.length st)
          exact ih (m - 1) (by omega) _ (by omega) h2

theorem Bid.initState_meet_inv (es : ElementStore) (target : String) :
    Bid.MeetInv (Bid.initState es target) := by
  refine ⟨?_, ?_, ?_⟩
  · intro x hx
    simp only [Bid.initState] at hx ⊢
    exact mem_foldl_cons _ _ x (Or.inl hx)
  · intro x hx
    simp only [Bid.initState] at hx ⊢
    exact hx
  · intro hf
    simp [Bid.initState] at hf

/-- C8.  Bidirectional meeting-point correctness: whenever the
bidirectional engine's `FindShortestPath` returns a path, the meeting
identifier of the final search state is present in both the
forward-visited and the backward-visited set, and the returned path is
the forward partial path reconstructed up to the meeting identifier
concatenated with the backward partial path continuing from the meeting
identifier toward the target. -/
theorem C8_meeting_point (es : ElementStore) (target : String) (now : Int)
    (res : SearchResult) (h : Bid.FindShortestPath es target now = .ok res) :
    (Bid.bidLoop es (Bid.initState es target)).meetingPoint ∈
      (Bid.bidLoop es (Bid.initState es target)).forwardVisited ∧
    (Bid.bidLoop es (Bid.initState es target)).meetingPoint ∈
      (Bid.bidLoop es (Bid.initState es target)).backwardVisited ∧
    res.path =
      Bid.reconstructForwardPath es
        (Bid.bidLoop es (Bid.initState es target)).meetingPoint
        (Bid.bidLoop es (Bid.initState es target)).forwardParent ++
      Bid.reconstructBackwardPath es
        (Bid.bidLoop es (Bid.initState es target)).meetingPoint
        (Bid.bidLoop es (Bid.initState es target)).backwardParent := by
  have hinv := Bid.bidLoop_meet_inv es
    (Bid.bidMeasure es (Bid.initState es target)) (Bid.initState es target)
    le_rfl (Bid.initState_meet_inv es target)
  unfold Bid.FindShortestPath at h
  dsimp only at h
  split at h
  · exact absurd h (by simp)
  · split at h
    · exact absurd h (by simp)
    · split at h
      · exact absurd h (by simp)
      · rename_i h1 h2 hfound
        have hft : (Bid.bidLoop es (Bid.initState es target)).found = true := by
          simpa using hfound
        obtain ⟨ha, hb⟩ := hinv.2.2 hft
        refine ⟨ha, hb, ?_⟩
        obtain rfl := (Except.ok.inj h).symm
        rfl

/-- C8 witness: the concrete bidirectional run for `D` in the
specification scenario, whose final meeting point is `D` itself. -/
theorem C8_meeting_point_witness :
    Bid.FindShortestPath storeSpec "D" 0 =
      .ok { path := [⟨["A", "C"], "D"⟩], visitedNodes := 5,
            executionTime := 0, variationIndex := 0 } ∧
    ((Bid.bidLoop storeSpec (Bid.initState storeSpec "D")).meetingPoint ∈
      (Bid.bidLoop storeSpec (Bid.initState storeSpec "D")).forwardVisited ∧
    (Bid.bidLoop storeSpec (Bid.initState storeSpec "D")).meetingPoint ∈
      (Bid.bidLoop storeSpec (Bid.initState storeSpec "D")).backwardVisited ∧
    ({ path := [⟨["A", "C"], "D"⟩], visitedNodes := 5, executionTime := 0,
        variationIndex := 0 } : SearchResult).path =
      Bid.reconstructForwardPath storeSpec
        (Bid.bidLoop storeSpec (Bid.initState storeSpec "D")).meetingPoint
        (Bid.bidLoop storeSpec (Bid.initState storeSpec "D")).forwardParent ++
      Bid.reconstructBackwardPath storeSpec
        (Bid.bidLoop storeSpec (Bid.initState storeSpec "D")).meetingPoint
        (Bid.bidLoop storeSpec (Bid.initState storeSpec "D")).backwardParent) := by
  have heval : Bid.FindShortestPath storeSpec "D" 0 =
      .ok { path := [⟨["A", "C"], "D"⟩], visitedNodes := 5,
            executionTime := 0, variationIndex := 0 } := by
    simp [Bid.FindShortestPath, Bid.initState, Bid.bidLoop, Bid.forwardLevel,
      Bid.forwardExpand, Bid.backwardLevel, Bid.backwardRecipes, Bid.backwardIngredients,
      Bid.getValidRecipesWithElementAnyPosition, Bid.tierLookup,
      Bid.reconstructForwardPath, Bid.reconstructForwardPathAux,
      Bid.reconstructBackwardPath, Bid.reconstructBackwardPathAux,
      storeSpec, ElementStore.getElementTier, ElementStore.getBasicElements,
      List.lookup, List.filter]
  exact ⟨heval, C8_meeting_point storeSpec "D" 0 _ heval⟩

/-!
## Tier-decreasing backpointer maps and walk termination (C10)
-/

theorem BFS1.expandStep_parent_ptd (es : ElementStore) (target current : String)
    (recipes : List Recipe) (st : LoopState)
    (h : ParentTierDecreasing es st.parent) :
    ParentTierDecreasing es
      (BFS1.expandStep es target current (es.getElementTier current) recipes st).parent := by
  induction recipes generalizing st with
  | nil => simpa [BFS1.expandStep] using h
  | cons recipe rest ih =>
    simp only [BFS1.expandStep]
    split
    · exact ih st h
    · split
      · exact ih st h
      · rename_i hskip hvis
        have hlt : es.getElementTier current < es.getElementTier recipe.result := by
          simpa using hskip
        have hnew : ParentTierDecreasing es
            ((recipe.result, (⟨current, recipe⟩ : RecipeStep)) :: st.parent) := by
          intro p hp
          rcases List.mem_cons.mp hp with h1 | h1
          · subst h1
            exact hlt
          · exact h p h1
        split
        · exact hnew
        · exact ih _ hnew

theorem BFS1.bfsLoop_parent_ptd (es : ElementStore) (target : String) (st : LoopState) :
    ParentTierDecreasing es st.parent →
    ParentTierDecreasing es (BFS1.bfsLoop es target st).parent := by
  induction st using BFS1.bfsLoop.induct es target with
  | case1 st hfound =>
    intro h
    rw [BFS1.bfsLoop_eq_found es target st hfound]
    exact h
  | case2 st hfound hq =>
    intro h
    rw [BFS1.bfsLoop_eq_nil es target st (by simpa using hfound) hq]
    exact h
  | case3 st hfound current rest hq htgt =>
    intro h
    rw [BFS1.bfsLoop_eq_target es target st current rest (by simpa using hfound) hq htgt]
    exact h
  | case4 st hfound current rest hq currentTier htgt st1 hf1 =>
    intro h
    rw [BFS1.bfsLoop_eq_step es target st current rest (by simpa using hfound) hq
      (by simpa using htgt)]
    dsimp only
    rw [if_pos hf1]
    exact BFS1.expandStep_parent_ptd es target current _ _ h
  | case5 st hfound current rest hq currentTier htgt st1 hf1 ih =>
    intro h
    rw [BFS1.bfsLoop_eq_step es target st current rest (by simpa using hfound) hq
      (by simpa using htgt)]
    dsimp only
    rw [if_neg (by simpa using hf1)]
    exact ih (BFS1.expandStep_parent_ptd es target current _ _ h)

theorem Bid.getValidRecipes_contains (es : ElementStore) (elementID : String) :
    ∀ r ∈ Bid.getValidRecipesWithElementAnyPosition es elementID,
      elementID ∈ r.ingredients := by
  intro r hr
  have h2 := (List.mem_filter.mp hr).2
  simp only [Bool.and_eq_true] at h2
  simpa using h2.1

theorem Bid.forwardExpand_parent_ptd (es : ElementStore) (current : String)
    (currentTier : Int) (recipes : List Recipe) (st : Bid.BidState)
    (hc : ∀ r ∈ recipes, current ∈ r.ingredients)
    (h : ParentTierDecreasing es st.forwardParent) :
    ParentTierDecreasing es
      (Bid.forwardExpand es current currentTier recipes st).forwardParent := by
  induction recipes generalizing st with
  | nil => simpa [Bid.forwardExpand] using h
  | cons recipe rest ih =>
    have hcur : current ∈ recipe.ingredients := hc recipe (by simp)
    have hrest : ∀ r ∈ rest, current ∈ r.ingredients := fun r hr => hc r (by simp [hr])
    simp only [Bid.forwardExpand]
    split
    · exact ih st hrest h
    · split
      · exact ih st hrest h
      · rename_i hval hskip
        split
        · exact ih st hrest h
        · have hvt : (recipe.ingredients.all fun ing =>
              decide (es.getElementTier ing < es.getElementTier recipe.result)) = true := by
            simpa using hval
          have hlt : es.getElementTier current < es.getElementTier recipe.result := by
            have := List.all_eq_true.mp hvt current hcur
            simpa using this
          have hnew : ParentTierDecreasing es
              ((recipe.result, (⟨current, recipe⟩ : RecipeStep)) :: st.forwardParent) := by
            intro p hp
            rcases List.mem_cons.mp hp with h1 | h1
            · subst h1
              exact hlt
            · exact h p h1
          split
          · exact hnew
          · exact ih _ hrest hnew

theorem Bid.forwardLevel_parent_ptd (es : ElementStore) (n : Nat) (st : Bid.BidState)
    (h : ParentTierDecreasing es st.forwardParent) :
    ParentTierDecreasing es (Bid.forwardLevel es n st).forwardParent := by
  induction n generalizing st with
  | zero => simpa [Bid.forwardLevel] using h
  | succ n ih =>
    simp only [Bid.forwardLevel]
    split
    · exact h
    · split
      · exact h
      · rename_i hnf current rest hq
        split
        · exact h
        · exact ih _ (Bid.forwardExpand_parent_ptd es current _ _ _
            (Bid.getValidRecipes_contains es current) h)

theorem Bid.backwardIngredients_forwardParent (current : String) (currentTier : Int)
    (es : ElementStore) (recipe : Recipe) (ings : List String) (st : Bid.BidState) :
    (Bid.backwardIngredients current currentTier es recipe ings st).forwardParent =
      st.forwardParent := by
  induction ings generalizing st with
  | nil => simp [Bid.backwardIngredients]
  | cons ingredient rest ih =>
    simp only [Bid.backwardIngredients]
    split
    · exact ih st
    · split
      · exact ih st
      · split
        · rfl
        · exact ih _

theorem Bid.backwardRecipes_forwardParent (es : ElementStore) (current : String)
    (currentTier : Int) (recipes : List Recipe) (st : Bid.BidState) :
    (Bid.backwardRecipes es current currentTier recipes st).forwardParent =
      st.forwardParent := by
  induction recipes generalizing st with
  | nil => simp [Bid.backwardRecipes]
  | cons recipe rest ih =>
    simp only [Bid.backwardRecipes]
    split
    · exact ih st
    · split
      · exact ih st
      · split
        · exact Bid.backwardIngredients_forwardParent current
            currentTier es recipe recipe.ingredients st
        · rw [ih _]
          exact Bid.backwardIngredients_forwardParent current
            currentTier es recipe recipe.ingredients st

theorem Bid.backwardLevel_forwardParent (es : ElementStore) (n : Nat) (st : Bid.BidState) :
    (Bid.backwardLevel es n st).forwardParent = st.forwardParent := by
  induction n generalizing st with
  | zero => simp [Bid.backwardLevel]
  | succ n ih =>
    simp only [Bid.backwardLevel]
    split
    · rfl
    · split
      · rfl
      · rename_i hnf current rest hq
        split
        · rfl
        · rw [ih _]
          exact Bid.backwardRecipes_forwardParent es current _ es.recipes _

theorem Bid.bidLoop_parent_ptd (es : ElementStore) :
    ∀ (m : Nat) (st : Bid.BidState), Bid.bidMeasure es st ≤ m →
    ParentTierDecreasing es st.forwardParent →
    ParentTierDecreasing es (Bid.bidLoop es st).forwardParent := by
  intro m
  induction m using Nat.strong_induction_on with
  | _ m ih =>
    intro st hm h
    by_cases hcond : st.forwardQueue.length = 0 ∨ st.backwardQueue.length = 0 ∨
      st.found = true
    · rw [Bid.bidLoop_eq_stop es st hcond]
      exact h
    · rw [Bid.bidLoop_eq_round es st (by simpa using hcond)]
      dsimp only
      push_neg at hcond
      obtain ⟨hq1, hq2, hfd⟩ := hcond
      have h1 : ParentTierDecreasing es
          (Bid.forwardLevel es st.forwardQueue.length st).forwardParent :=
        Bid.forwardLevel_parent_ptd es _ st h
      split
      · exact h1
      · have h2 : ParentTierDecreasing es
            (Bid.backwardLevel es
              (Bid.forwardLevel es st.forwardQueue.length st).backwardQueue.length
              (Bid.forwardLevel es st.forwardQueue.length st)).forwardParent := by
          rw [Bid.backwardLevel_forwardParent]
          exact h1
        split
        · exact h2
        · have hstrict := Bid.forwardLevel_measure_strict es st.forwardQueue.length st
            (by simpa using hfd) (fun hnil => hq1 (by simp [hnil])) (by omega)
          have hback := Bid.backwardLevel_measure es
            (Bid.forwardLevel es st.forwardQueue.length st).backwardQueue.length
            (Bid.forwardLevel es st.forwardQueue.length st)
          exact ih (m - 1) (by omega) _ (by omega) h2

/-- C10.  Implicit: in the backpointer maps built by the searches named by
the claim — the breadth-first engine's `parent` map and the bidirectional
engine's forward map — every recorded parent identifier has strictly lower
tier than the element it points from (entries are only added when the
result tier strictly exceeds the expanding element's tier, respectively
when every ingredient sits strictly below the result), so every
backpointer chain is tier-strictly-decreasing and the `reconstructPath`
walk reaches an entry-less element within `|map| + 1` steps for every
start element. -/
theorem C10_backpointer_termination (es : ElementStore) (target : String) :
    ParentTierDecreasing es (BFS1.bfsLoop es target (BFS1.initLoopState es)).parent ∧
    (∀ start : String,
      walkEnds (BFS1.bfsLoop es target (BFS1.initLoopState es)).parent
        ((BFS1.bfsLoop es target (BFS1.initLoopState es)).parent.length + 1)
        start = true) ∧
    ParentTierDecreasing es (Bid.bidLoop es (Bid.initState es target)).forwardParent ∧
    (∀ start : String,
      walkEnds (Bid.bidLoop es (Bid.initState es target)).forwardParent
        ((Bid.bidLoop es (Bid.initState es target)).forwardParent.length + 1)
        start = true) := by
  have hb : ParentTierDecreasing es
      (BFS1.bfsLoop es target (BFS1.initLoopState es)).parent := by
    apply BFS1.bfsLoop_parent_ptd es target (BFS1.initLoopState es)
    intro p hp
    simp [BFS1.initLoopState] at hp
  have hd : ParentTierDecreasing es
      (Bid.bidLoop es (Bid.initState es target)).forwardParent := by
    apply Bid.bidLoop_parent_ptd es (Bid.bidMeasure es (Bid.initState es target))
      (Bid.initState es target) le_rfl
    intro p hp
    simp [Bid.initState] at hp
  refine ⟨hb, ?_, hd, ?_⟩
  · intro start
    apply walkEnds_of_decreasing es _ hb
    have := List.length_filter_le
      (fun p => decide (es.getElementTier p.1 ≤ es.getElementTier start))
      (BFS1.bfsLoop es target (BFS1.initLoopState es)).parent
    omega
  · intro start
    apply walkEnds_of_decreasing es _ hd
    have := List.length_filter_le
      (fun p => decide (es.getElementTier p.1 ≤ es.getElementTier start))
      (Bid.bidLoop es (Bid.initState es target)).forwardParent
    omega

/-!
## The error taxonomy of the single-result search (C5)
-/

/-- When the breadth-first loop ends without finding the target, its
frontier has been fully exhausted. -/
theorem BFS1.bfsLoop_not_found_queue (es : ElementStore) (target : String)
    (st : LoopState) :
    (BFS1.bfsLoop es target st).found = false →
    (BFS1.bfsLoop es target st).queue = [] := by
  induction st using BFS1.bfsLoop.induct es target with
  | case1 st hfound =>
    intro h
    rw [BFS1.bfsLoop_eq_found es target st hfound] at h
    exact absurd h (by simp [hfound])
  | case2 st hfound hq =>
    intro h
    rw [BFS1.bfsLoop_eq_nil es target st (by simpa using hfound) hq]
    exact hq
  | case3 st hfound current rest hq htgt =>
    intro h
    rw [BFS1.bfsLoop_eq_target es target st current rest
      (by simpa using hfound) hq htgt] at h
    simp at h
  | case4 st hfound current rest hq currentTier htgt st1 hf1 =>
    intro h
    rw [BFS1.bfsLoop_eq_step es target st current rest (by simpa using hfound) hq
      (by simpa using htgt)] at h
    dsimp only at h
    rw [if_pos hf1] at h
    exact absurd h (by simpa using hf1)
  | case5 st hfound current rest hq currentTier htgt st1 hf1 ih =>
    intro h
    rw [BFS1.bfsLoop_eq_step es target st current rest (by simpa using hfound) hq
      (by simpa using htgt)] at h ⊢
    dsimp only at h ⊢
    rw [if_neg (by simpa using hf1)] at h ⊢
    exact ih h

/-- C5.  Error taxonomy of the single-result search: `FindShortestPath`
returns `elementNotFound` exactly when the target is absent from the
catalog; otherwise it returns `noBasicElements` exactly when the basic
element set is empty; otherwise it returns `noPathFound` exactly when the
search loop ends unsuccessfully — and then its frontier has been fully
exhausted; in the remaining case it returns a `SearchResult` and no
error. -/
theorem C5_error_taxonomy (es : ElementStore) (target : String) (now : Int) :
    (BFS1.FindShortestPath es target now = .error .elementNotFound ↔
      target ∉ es.elements) ∧
    (target ∈ es.elements →
      (BFS1.FindShortestPath es target now = .error .noBasicElements ↔
        es.getBasicElements = [])) ∧
    (target ∈ es.elements → es.getBasicElements ≠ [] →
      (BFS1.FindShortestPath es target now = .error .noPathFound ↔
        (BFS1.bfsLoop es target (BFS1.initLoopState es)).found = false ∧
        (BFS1.bfsLoop es target (BFS1.initLoopState es)).queue = [])) ∧
    (target ∈ es.elements → es.getBasicElements ≠ [] →
      (BFS1.bfsLoop es target (BFS1.initLoopState es)).found = true →
      ∃ res, BFS1.FindShortestPath es target now = .ok res) := by
  refine ⟨?_, ?_, ?_, ?_⟩
  · constructor
    · intro h hmem
      unfold BFS1.FindShortestPath at h
      rw [if_neg (by simp [hmem])] at h
      dsimp only at h
      split at h
      · simp at h
      · split at h
        · simp at h
        · simp at h
    · intro hmem
      unfold BFS1.FindShortestPath
      rw [if_pos (by simpa using hmem)]
  · intro hmem
    constructor
    · intro h
      unfold BFS1.FindShortestPath at h
      rw [if_neg (by simp [hmem])] at h
      dsimp only at h
      split at h
      · rename_i hlen
        exact List.length_eq_zero.mp hlen
      · split at h
        · simp at h
        · simp at h
    · intro hnil
      unfold BFS1.FindShortestPath
      rw [if_neg (by simp [hmem])]
      dsimp only
      rw [if_pos (by simp [hnil])]
  · intro hmem hbne
    constructor
    · intro h
      unfold BFS1.FindShortestPath at h
      rw [if_neg (by simp [hmem])] at h
      dsimp only at h
      split at h
      · rename_i hlen
        exact absurd (List.length_eq_zero.mp hlen) hbne
      · split at h
        · rename_i hnf
          have hff : (BFS1.bfsLoop es target (BFS1.initLoopState es)).found = false := by
            simpa using hnf
          exact ⟨hff, BFS1.bfsLoop_not_found_queue es target (BFS1.initLoopState es) hff⟩
        · simp at h
    · intro hff
      unfold BFS1.FindShortestPath
      rw [if_neg (by simp [hmem])]
      dsimp only
      rw [if_neg (fun hl => hbne (List.length_eq_zero.mp hl))]
      rw [if_pos (by simp [hff.1])]
  · intro hmem hbne hft
    unfold BFS1.FindShortestPath
    rw [if_neg (by simp [hmem])]
    dsimp only
    rw [if_neg (fun hl => hbne (List.length_eq_zero.mp hl))]
    rw [if_neg (by simp [hft])]
    exact ⟨_, rfl⟩

/-- C5 witness: on the specification catalog the target `D` is present,
the basic set is non-empty, the loop finds `D`, and the search returns a
result; the absent target `E` yields `elementNotFound`. -/
theorem C5_error_taxonomy_witness :
    BFS1.FindShortestPath storeSpec "E" 0 = .error .elementNotFound ∧
    ("D" ∈ storeSpec.elements ∧ storeSpec.getBasicElements ≠ [] ∧
      (BFS1.bfsLoop storeSpec "D" (BFS1.initLoopState storeSpec)).found = true ∧
      ∃ res, BFS1.FindShortestPath storeSpec "D" 0 = .ok res) := by
  have hmem : "D" ∈ storeSpec.elements := by simp [storeSpec]
  have hbne : storeSpec.getBasicElements ≠ [] := by decide
  have hft : (BFS1.bfsLoop storeSpec "D" (BFS1.initLoopState storeSpec)).found = true := by
    simp [BFS1.bfsLoop, BFS1.expandStep, BFS1.getPossibleRecipesThatRespectTiers,
      BFS1.initLoopState, storeSpec, ElementStore.getElementTier,
      ElementStore.getBasicElements, List.lookup, List.filter]
  refine ⟨?_, hmem, hbne, hft, (C5_error_taxonomy storeSpec "D" 0).2.2.2 hmem hbne hft⟩
  exact (C5_error_taxonomy storeSpec "E" 0).1.mpr (by simp [storeSpec])

/-!
## Multi-path count bound and the failure of signature distinctness (C4)
-/

/-- A fold whose step appends at most one element grows by at most the
number of steps. -/
theorem foldl_length_le {α β : Type} (f : List α → β → List α)
    (hstep : ∀ acc b, (f acc b).length ≤ acc.length + 1) :
    ∀ (l : List β) (acc : List α), (l.foldl f acc).length ≤ acc.length + l.length := by
  intro l
  induction l with
  | nil =>
    intro acc
    simp
  | cons b rest ih =>
    intro acc
    simp only [List.foldl_cons, List.length_cons]
    have h1 := hstep acc b
    have h2 := ih (f acc b)
    omega

/-- The pair-state version: the step appends at most one element to the
first component. -/
theorem foldl_fst_length_le {α β γ : Type} (f : List α × γ → β → List α × γ)
    (hstep : ∀ acc b, (f acc b).1.length ≤ acc.1.length + 1) :
    ∀ (l : List β) (acc : List α × γ), ((l.foldl f acc).1).length ≤ acc.1.length + l.length := by
  intro l
  induction l with
  | nil =>
    intro acc
    simp
  | cons b rest ih =>
    intro acc
    simp only [List.foldl_cons, List.length_cons]
    have h1 := hstep acc b
    have h2 := ih (f acc b)
    omega

/-- The bidirectional collector keeps at most `maxPaths` results: the
count check runs under the collector's mutex, so the bound holds under
every interleaving of the workers. -/
theorem Bid.FindMultiplePathsCollect_spec (es : ElementStore) (maxPaths : Nat)
    (candidates : List SearchResult) :
    (Bid.FindMultiplePathsCollect es maxPaths candidates).length ≤ maxPaths := by
  unfold Bid.FindMultiplePathsCollect
  have hfold : ∀ (l : List SearchResult) (acc : List SearchResult),
      acc.length ≤ maxPaths →
      (l.foldl (fun results result =>
        let isValid := result.path.all (fun recipe =>
          recipe.ingredients.all (fun ing =>
            decide (es.getElementTier ing < es.getElementTier recipe.result)))
        if isValid then
          if results.length < maxPaths then
            results ++ [result]
          else results
        else results) acc).length ≤ maxPaths := by
    intro l
    induction l with
    | nil =>
      intro acc h1
      exact h1
    | cons cand rest ih =>
      intro acc h1
      simp only [List.foldl_cons]
      refine ih _ ?_
      dsimp only
      split
      · split
        · rename_i hcond
          simp only [List.length_append, List.length_cons, List.length_nil]
          omega
        · exact h1
      · exact h1
  exact hfold candidates [] (by simp)

/-- C4 counterexample: the breadth-first orchestrator on `storeX` with
`k = 2` returns two results with literally identical paths, hence equal
canonical signatures — the signature-based duplicate rejection of the
variation workers never sees the path the plain worker already returned. -/
theorem C4_counterexample :
    BFS1.FindMultiplePaths storeX "C" 2 0 =
      .ok [{ path := [⟨["A", "B"], "C"⟩], visitedNodes := 2,
             executionTime := 0, variationIndex := 0 },
           { path := [⟨["A", "B"], "C"⟩], visitedNodes := 2,
             executionTime := 0, variationIndex := 1 }] ∧
    getPathSignature [⟨["A", "B"], "C"⟩] = getPathSignature [⟨["A", "B"], "C"⟩] := by
  constructor
  · simp [BFS1.FindMultiplePaths, BFS1.findPathWithVariation, BFS1.FindShortestPath,
      BFS1.initLoopState, BFS1.bfsLoop, BFS1.expandStep,
      BFS1.getPossibleRecipesThatRespectTiers, storeX, ElementStore.getElementTier,
      ElementStore.getBasicElements, reconstructPath, reconstructPathAux,
      List.lookup, List.filter, List.range_succ]
  · rfl

/-- C4 (amended).  Only the count bound survives: every orchestrator
returns at most `k` results (for the canonical breadth-first and
depth-bounded orchestrators, which always keep the plain shortest path,
when `1 ≤ k`); for the bidirectional collector the bound holds for every
candidate stream, hence under every worker interleaving.  Pairwise
distinctness fails everywhere: the breadth-first orchestrator re-finds
the plain worker's path in its variation workers (`C4_counterexample`),
and the bidirectional duplicate test runs in the worker before the
channel send, so two concurrently produced identical paths can both be
accepted — no distinctness conjunct is claimed for it. -/
theorem C4_count_bound_amended :
    (∀ (es : ElementStore) (target : String) (k : Nat) (now : Int)
        (results : List SearchResult),
      BFS1.FindMultiplePaths es target k now = .ok results → results.length ≤ k) ∧
    (∀ (es : ElementStore) (target : String) (k : Nat) (now : Int)
        (results : List SearchResult),
      1 ≤ k → BFS0.FindMultiplePaths es target k now = .ok results →
        results.length ≤ k) ∧
    (∀ (es : ElementStore) (target : String) (k : Nat) (now : Int)
        (results : List SearchResult),
      1 ≤ k → DFS.FindMultiplePaths es target k now = .ok results →
        results.length ≤ k) ∧
    (∀ (es : ElementStore) (target : String) (k : Nat)
        (candidates results : List SearchResult),
      Bid.FindMultiplePaths es target k candidates = .ok results →
        results.length ≤ k) := by
  refine ⟨?_, ?_, ?_, ?_⟩
  · intro es target k now results h
    unfold BFS1.FindMultiplePaths at h
    split at h
    · exact absurd h (by simp)
    · dsimp only at h
      split at h
      · exact absurd h (by simp)
      · obtain rfl := (Except.ok.inj h).symm
        refine le_trans (foldl_length_le _ ?_ (List.range k) []) (by simp)
        intro acc b
        dsimp only
        split <;> simp
  · intro es target k now results hk h
    unfold BFS0.FindMultiplePaths at h
    split at h
    · exact absurd h (by simp)
    · dsimp only at h
      split at h
      · exact absurd h (by simp)
      · rename_i shortestPath heq
        split at h
        · split at h
          · exact absurd h (by simp)
          · obtain rfl := (Except.ok.inj h).symm
            refine le_trans (foldl_fst_length_le _ ?_ _ _) ?_
            · intro acc b
              dsimp only
              split <;> simp
            · dsimp only
              simp only [List.length_range, List.length_cons, List.length_nil]
              omega
        · split at h
          · exact absurd h (by simp)
          · obtain rfl := (Except.ok.inj h).symm
            refine le_trans (foldl_fst_length_le _ ?_ _ _) ?_
            · intro acc b
              dsimp only
              split <;> simp
            · dsimp only
              simp only [List.length_range, List.length_cons, List.length_nil]
              omega
  · intro es target k now results hk h
    unfold DFS.FindMultiplePaths at h
    split at h
    · exact absurd h (by simp)
    · dsimp only at h
      split at h
      · exact absurd h (by simp)
      · rename_i shortestPath heq
        split at h
        · split at h
          · exact absurd h (by simp)
          · obtain rfl := (Except.ok.inj h).symm
            refine le_trans (foldl_fst_length_le _ ?_ _ _) ?_
            · intro acc b
              dsimp only
              split <;> simp
            · dsimp only
              simp only [List.length_range, List.length_cons, List.length_nil]
              omega
        · split at h
          · exact absurd h (by simp)
          · obtain rfl := (Except.ok.inj h).symm
            refine le_trans (foldl_fst_length_le _ ?_ _ _) ?_
            · intro acc b
              dsimp only
              split <;> simp
            · dsimp only
              simp only [List.length_range, List.length_cons, List.length_nil]
              omega
  · intro es target k candidates results h
    unfold Bid.FindMultiplePaths at h
    split at h
    · exact absurd h (by simp)
    · dsimp only at h
      split at h
      · exact absurd h (by simp)
      · obtain rfl := (Except.ok.inj h).symm
        exact Bid.FindMultiplePathsCollect_spec es k candidates

/-- C4 witness: the canonical breadth-first orchestrator asked for one
path on the specification catalog returns exactly one result — within the
count bound. -/
theorem C4_count_bound_amended_witness :
    BFS0.FindMultiplePaths storeSpec "D" 1 0 =
      .ok [{ path := [⟨["A", "C"], "D"⟩], visitedNodes := 4,
             executionTime := 0, variationIndex := 0 }] ∧
    1 ≤ 1 ∧
    ([{ path := [⟨["A", "C"], "D"⟩], visitedNodes := 4,
        executionTime := 0, variationIndex := 0 }] : List SearchResult).length ≤ 1 := by
  have heval : BFS0.FindMultiplePaths storeSpec "D" 1 0 =
      .ok [{ path := [⟨["A", "C"], "D"⟩], visitedNodes := 4,
             executionTime := 0, variationIndex := 0 }] := by
    simp [BFS0.FindMultiplePaths, BFS0.FindShortestPath,
      BFS0.bfsLoop, BFS0.expandStep,
      BFS0.getPossibleRecipesThatRespectTiers,
      storeSpec, ElementStore.getElementTier, ElementStore.getBasicElements,
      reconstructPath, reconstructPathAux, getPathSignature,
      List.lookup, List.filter]
  exact ⟨heval, by norm_num,
    (C4_count_bound_amended.2.1 storeSpec "D" 1 0 _ (by norm_num) heval).trans (by norm_num)⟩

/-!
## Tier-valid chains and the canonical BFS minimality invariant (C2)
-/

/-- One application of a tier-valid recipe consuming `y` and producing
`x`: the step relation underlying the claim's tier-valid paths. -/
def ChainStep (es : ElementStore) (y x : String) : Prop :=
  ∃ r, r ∈ es.recipes ∧ y ∈ r.ingredients ∧ r.result = x ∧ ValidRecipe es r

/-- `ReachesIn es x n`: a tier-valid chain of `n` recipe applications from
some basic element to `x`. -/
def ReachesIn (es : ElementStore) : String → Nat → Prop
  | x, 0 => x ∈ es.getBasicElements
  | x, n + 1 => ∃ y, ReachesIn es y n ∧ ChainStep es y x

/-- The pruned step relation actually explored by the canonical BFS: a
tier-valid step whose result does not exceed the target tier. -/
def PStep (es : ElementStore) (targetTier : Int) (y x : String) : Prop :=
  ∃ r, r ∈ es.recipes ∧ y ∈ r.ingredients ∧ r.result = x ∧ ValidRecipe es r ∧
    ¬(targetTier < es.getElementTier x)

/-- Pruned reachability in `n` steps. -/
def PReaches (es : ElementStore) (targetTier : Int) : String → Nat → Prop
  | x, 0 => x ∈ es.getBasicElements
  | x, n + 1 => ∃ y, PReaches es targetTier y n ∧ PStep es targetTier y x

/-- The length of the backpointer chain recorded for `x`. -/
def depthOf (pm : List (String × RecipeStep)) (x : String) : Nat :=
  (reconstructPath x pm).length

/-- The converse of `mem_foldl_cons`. -/
theorem mem_of_mem_foldl_cons (l acc : List String) (x : String)
    (h : x ∈ l.foldl (fun v e => e :: v) acc) : x ∈ l ∨ x ∈ acc := by
  induction l generalizing acc with
  | nil => exact Or.inr (by simpa using h)
  | cons a rest ih =>
    simp only [List.foldl_cons] at h
    rcases ih (a :: acc) h with h1 | h1
    · exact Or.inl (by simp [h1])
    · rcases List.mem_cons.mp h1 with h2 | h2
      · exact Or.inl (by simp [h2])
      · exact Or.inr h2

/-- A reachable element forces a non-empty basic set. -/
theorem ReachesIn.basics_ne (es : ElementStore) :
    ∀ (n : Nat) (x : String), ReachesIn es x n → es.getBasicElements ≠ [] := by
  intro n
  induction n with
  | zero =>
    intro x h
    exact List.ne_nil_of_mem (by simpa [ReachesIn] using h)
  | succ n ih =>
    intro x h
    obtain ⟨y, hy, _⟩ := h
    exact ih y hy

/-- A tier-valid chain to an element at or below the target tier survives
the target-tier pruning. -/
theorem PReaches_of_ReachesIn (es : ElementStore) (T : Int) :
    ∀ (n : Nat) (x : String), ReachesIn es x n → es.getElementTier x ≤ T →
      PReaches es T x n := by
  intro n
  induction n with
  | zero =>
    intro x h _
    simpa [PReaches] using (by simpa [ReachesIn] using h : x ∈ es.getBasicElements)
  | succ n ih =>
    intro x h hx
    obtain ⟨y, hy, r, hr, hyi, hres, hval⟩ := h
    have hyx : es.getElementTier y < es.getElementTier x := by
      have := hval y hyi
      rwa [hres] at this
    exact ⟨y, ih y hy (by omega), r, hr, hyi, hres, hval, by omega⟩

/-- Conversely, every pruned chain is a tier-valid chain. -/
theorem ReachesIn_of_PReaches (es : ElementStore) (T : Int) :
    ∀ (n : Nat) (x : String), PReaches es T x n → ReachesIn es x n := by
  intro n
  induction n with
  | zero =>
    intro x h
    simpa [ReachesIn] using (by simpa [PReaches] using h : x ∈ es.getBasicElements)
  | succ n ih =>
    intro x h
    obtain ⟨y, hy, r, hr, hyi, hres, hval, _⟩ := h
    exact ⟨y, ih y hy, r, hr, hyi, hres, hval⟩

/-- On a tier-decreasing map the standard fuel suffices for every walk. -/
theorem walkEnds_of_ptd (es : ElementStore) (pm : List (String × RecipeStep))
    (hptd : ParentTierDecreasing es pm) (x : String) :
    walkEnds pm (pm.length + 1) x = true := by
  apply walkEnds_of_decreasing es pm hptd
  have := List.length_filter_le
    (fun p => decide (es.getElementTier p.1 ≤ es.getElementTier x)) pm
  omega

/-- A walk that ends within its fuel is insensitive to extra fuel. -/
theorem reconstructPathAux_fuel_mono (pm : List (String × RecipeStep)) :
    ∀ (f : Nat) (x : String) (f2 : Nat), walkEnds pm f x = true → f ≤ f2 →
      reconstructPathAux pm f2 x = reconstructPathAux pm f x := by
  intro f
  induction f with
  | zero =>
    intro x f2 h _
    simp [walkEnds] at h
  | succ f ih =>
    intro x f2 h hle
    obtain ⟨f3, rfl⟩ : ∃ f3, f2 = f3 + 1 := ⟨f2 - 1, by omega⟩
    simp only [walkEnds] at h
    simp only [reconstructPathAux]
    match hl : pm.lookup x with
    | none => rfl
    | some step =>
      rw [hl] at h
      dsimp only at h ⊢
      rw [ih step.parentID f3 h (by omega)]

/-- Walks that stay inside `V` are unchanged by prepending an entry whose
key lies outside `V`. -/
theorem reconstructPathAux_cons_fresh (pm : List (String × RecipeStep))
    (V : List String) (k : String) (s : RecipeStep)
    (hKV : ∀ p ∈ pm, p.1 ∈ V ∧ p.2.parentID ∈ V) (hk : k ∉ V) :
    ∀ (f : Nat) (x : String), x ∈ V →
      reconstructPathAux ((k, s) :: pm) f x = reconstructPathAux pm f x := by
  intro f
  induction f with
  | zero =>
    intro x _
    rfl
  | succ f ih =>
    intro x hx
    have hxk : (x == k) = false := by
      simp only [beq_eq_false_iff_ne, ne_eq]
      intro hcontra
      exact hk (hcontra ▸ hx)
    simp only [reconstructPathAux, List.lookup, hxk]
    match hl : pm.lookup x with
    | none => rfl
    | some step =>
      have hmem := lookup_mem hl
      have hpv := (hKV (x, step) hmem).2
      dsimp only
      rw [ih step.parentID hpv]

/-- Prepending a fresh entry leaves the recorded chain of every old
element unchanged. -/
theorem reconstructPath_cons_fresh (es : ElementStore)
    (pm : List (String × RecipeStep)) (V : List String) (k : String) (s : RecipeStep)
    (hptd : ParentTierDecreasing es pm)
    (hKV : ∀ p ∈ pm, p.1 ∈ V ∧ p.2.parentID ∈ V) (hk : k ∉ V)
    (x : String) (hx : x ∈ V) :
    reconstructPath x ((k, s) :: pm) = reconstructPath x pm := by
  unfold reconstructPath
  rw [reconstructPathAux_cons_fresh pm V k s hKV hk _ x hx]
  simp only [List.length_cons]
  exact reconstructPathAux_fuel_mono pm (pm.length + 1) x (pm.length + 1 + 1)
    (walkEnds_of_ptd es pm hptd x) (by omega)

/-- The chain recorded for a freshly inserted key extends its parent's
chain by the inserted recipe. -/
theorem reconstructPath_cons_new (es : ElementStore)
    (pm : List (String × RecipeStep)) (V : List String) (k current : String) (r : Recipe)
    (hptd : ParentTierDecreasing es pm)
    (hKV : ∀ p ∈ pm, p.1 ∈ V ∧ p.2.parentID ∈ V) (hk : k ∉ V) (hcur : current ∈ V) :
    reconstructPath k ((k, ⟨current, r⟩) :: pm) = reconstructPath current pm ++ [r] := by
  unfold reconstructPath
  simp only [List.length_cons]
  have hhead : ((k, (⟨current, r⟩ : RecipeStep)) :: pm).lookup k =
      some (⟨current, r⟩ : RecipeStep) := by
    simp [List.lookup]
  have hsucc : reconstructPathAux ((k, (⟨current, r⟩ : RecipeStep)) :: pm)
      (pm.length + 1 + 1) k =
      match ((k, (⟨current, r⟩ : RecipeStep)) :: pm).lookup k with
      | none => []
      | some step =>
        reconstructPathAux ((k, (⟨current, r⟩ : RecipeStep)) :: pm)
          (pm.length + 1) step.parentID ++ [step.recipe] := rfl
  rw [hsucc, hhead]
  dsimp only
  rw [reconstructPathAux_cons_fresh pm V k _ hKV hk _ current hcur]

theorem depthOf_nil (x : String) : depthOf [] x = 0 := rfl

theorem depthOf_cons_fresh (es : ElementStore)
    (pm : List (String × RecipeStep)) (V : List String) (k : String) (s : RecipeStep)
    (hptd : ParentTierDecreasing es pm)
    (hKV : ∀ p ∈ pm, p.1 ∈ V ∧ p.2.parentID ∈ V) (hk : k ∉ V)
    (x : String) (hx : x ∈ V) :
    depthOf ((k, s) :: pm) x = depthOf pm x := by
  unfold depthOf
  rw [reconstructPath_cons_fresh es pm V k s hptd hKV hk x hx]

theorem depthOf_cons_new (es : ElementStore)
    (pm : List (String × RecipeStep)) (V : List String) (k current : String) (r : Recipe)
    (hptd : ParentTierDecreasing es pm)
    (hKV : ∀ p ∈ pm, p.1 ∈ V ∧ p.2.parentID ∈ V) (hk : k ∉ V) (hcur : current ∈ V) :
    depthOf ((k, ⟨current, r⟩) :: pm) k = depthOf pm current + 1 := by
  unfold depthOf
  rw [reconstructPath_cons_new es pm V k current r hptd hKV hk hcur]
  simp

/-- A pruned step out of `current` always appears in the candidate list
computed for `current`. -/
theorem BFS0.pstep_mem_cands (es : ElementStore) (T : Int) (current : String)
    (r : Recipe) (hr : r ∈ es.recipes) (hyi : current ∈ r.ingredients)
    (hval : ValidRecipe es r) (hcap : ¬(T < es.getElementTier r.result)) :
    r ∈ BFS0.getPossibleRecipesThatRespectTiers es current
      (es.getElementTier current) T := by
  refine List.mem_filter.mpr ⟨hr, ?_⟩
  have hlt : es.getElementTier current < es.getElementTier r.result := hval current hyi
  simp only [Bool.and_eq_true, decide_eq_true_eq, Bool.not_eq_true']
  refine ⟨⟨⟨by simpa using hyi, by simpa using hcap⟩, ?_⟩, hlt⟩
  exact List.all_eq_true.mpr fun ing hi => by simpa using hval ing hi

/-- Every candidate for `current` is a catalog recipe containing `current`
as an ingredient, tier-valid, capped by the target tier, and strictly
progressing. -/
theorem BFS0.cands_spec (es : ElementStore) (T ct : Int) (current : String)
    (r : Recipe)
    (h : r ∈ BFS0.getPossibleRecipesThatRespectTiers es current ct T) :
    r ∈ es.recipes ∧ current ∈ r.ingredients ∧ ValidRecipe es r ∧
      ¬(T < es.getElementTier r.result) ∧ ct < es.getElementTier r.result := by
  obtain ⟨hmem, hp⟩ := List.mem_filter.mp h
  simp only [Bool.and_eq_true, decide_eq_true_eq, Bool.not_eq_true',
    decide_eq_false_iff_not] at hp
  obtain ⟨⟨⟨hc, hcap⟩, hall⟩, hprog⟩ := hp
  refine ⟨hmem, by simpa using hc, ?_, hcap, hprog⟩
  intro ing hi
  simpa using List.all_eq_true.mp hall ing hi

/-- The running invariant of the canonical breadth-first loop at frontier
level `d`. -/
structure BfsInv (es : ElementStore) (target : String) (targetTier : Int)
    (st : LoopState) (d : Nat) : Prop where
  kv : ∀ p ∈ st.parent, p.1 ∈ st.visited ∧ p.2.parentID ∈ st.visited
  ptd : ParentTierDecreasing es st.parent
  sound : ∀ x ∈ st.visited, ReachesIn es x (depthOf st.parent x)
  qv : ∀ x ∈ st.queue, x ∈ st.visited
  basicsVis : ∀ b ∈ es.getBasicElements, b ∈ st.visited
  level : ∃ q1 q2, st.queue = q1 ++ q2 ∧
    (∀ x ∈ q1, depthOf st.parent x = d) ∧ (∀ x ∈ q2, depthOf st.parent x = d + 1)
  visBound : ∀ x ∈ st.visited, depthOf st.parent x ≤ d + 1
  minVis : ∀ x n, PReaches es targetTier x n → n ≤ d →
    x ∈ st.visited ∧ depthOf st.parent x ≤ n
  processed : ∀ x ∈ st.visited, x ∉ st.queue → ∀ y, PStep es targetTier x y →
    y ∈ st.visited ∧ depthOf st.parent y ≤ depthOf st.parent x + 1
  tgt : st.found = false → target ∉ st.visited ∨ target ∈ st.queue

/-- The initial loop state of the canonical breadth-first engine satisfies
the invariant at level `0`. -/
theorem BfsInv.initial (es : ElementStore) (target : String) (targetTier : Int) :
    BfsInv es target targetTier
      { queue := es.getBasicElements
        visited := es.getBasicElements.foldl (fun v e => e :: v) []
        parent := []
        visitedCount := (es.getBasicElements.length : Int)
        found := false } 0 := by
  have hviseq : ∀ x : String,
      x ∈ es.getBasicElements.foldl (fun v e => e :: v) ([] : List String) ↔
        x ∈ es.getBasicElements := by
    intro x
    constructor
    · intro h
      rcases mem_of_mem_foldl_cons _ _ x h with h1 | h1
      · exact h1
      · simp at h1
    · intro h
      exact mem_foldl_cons _ _ x (Or.inl h)
  refine ⟨?_, ?_, ?_, ?_, ?_, ?_, ?_, ?_, ?_, ?_⟩
  · intro p hp
    simp at hp
  · intro p hp
    simp at hp
  · intro x hx
    rw [depthOf_nil]
    have := (hviseq x).mp hx
    simpa [ReachesIn] using this
  · intro x hx
    exact (hviseq x).mpr hx
  · intro b hb
    exact (hviseq b).mpr hb
  · exact ⟨es.getBasicElements, [], by simp, fun x _ => depthOf_nil x, by simp⟩
  · intro x hx
    rw [depthOf_nil]
    omega
  · intro x n h hn
    have hn0 : n = 0 := by omega
    subst hn0
    have hx : x ∈ es.getBasicElements := by simpa [PReaches] using h
    exact ⟨(hviseq x).mpr hx, by rw [depthOf_nil]⟩
  · intro x hx hxq y hy
    exact absurd ((hviseq x).mp hx) hxq
  · intro _
    by_cases hb : target ∈ es.getBasicElements
    · exact Or.inr hb
    · exact Or.inl fun hv => hb ((hviseq target).mp hv)

/-- Frontier normalization: when the queue is non-empty, the invariant can
be re-indexed so that the dequeued head is at the current level, with the
remaining queue split into the current and the next level. -/
theorem BfsInv.dequeue (es : ElementStore) (target : String) (targetTier : Int)
    (st : LoopState) (d : Nat) (current : String) (rest : List String)
    (hinv : BfsInv es target targetTier st d) (hq : st.queue = current :: rest) :
    ∃ d2 q1 q2, BfsInv es target targetTier st d2 ∧
      depthOf st.parent current = d2 ∧ rest = q1 ++ q2 ∧
      (∀ x ∈ q1, depthOf st.parent x = d2) ∧
      (∀ x ∈ q2, depthOf st.parent x = d2 + 1) := by
  obtain ⟨q1, q2, hsplit, h1, h2⟩ := hinv.level
  cases q1 with
  | cons c q1t =>
    have hceq : c = current ∧ rest = q1t ++ q2 := by
      rw [hq] at hsplit
      simp only [List.cons_append] at hsplit
      exact ⟨(List.cons.inj hsplit).1.symm, (List.cons.inj hsplit).2⟩
    obtain ⟨rfl, hrest⟩ := hceq
    exact ⟨d, q1t, q2, hinv, h1 c (by simp), hrest,
      fun x hx => h1 x (by simp [hx]), h2⟩
  | nil =>
    simp only [List.nil_append] at hsplit
    have hminVis2 : ∀ x n, PReaches es targetTier x n → n ≤ d + 1 →
        x ∈ st.visited ∧ depthOf st.parent x ≤ n := by
      intro x n h hn
      by_cases hnd : n ≤ d
      · exact hinv.minVis x n h hnd
      · have hn1 : n = d + 1 := by omega
        subst hn1
        obtain ⟨y, hy, hstep⟩ := h
        obtain ⟨hyv, hyd⟩ := hinv.minVis y d hy le_rfl
        have hynq : y ∉ st.queue := by
          intro hyq
          have := h2 y (by rwa [hsplit] at hyq)
          omega
        obtain ⟨hxv, hxd⟩ := hinv.processed y hyv hynq x hstep
        exact ⟨hxv, by omega⟩
    have hinv2 : BfsInv es target targetTier st (d + 1) :=
      { kv := hinv.kv
        ptd := hinv.ptd
        sound := hinv.sound
        qv := hinv.qv
        basicsVis := hinv.basicsVis
        level := ⟨q2, [], by simp [hsplit], h2, by simp⟩
        visBound := fun x hx => le_trans (hinv.visBound x hx) (by omega)
        minVis := hminVis2
        processed := fun x hx hxq y hy => by
          obtain ⟨hyv, hyd⟩ := hinv.processed x hx hxq y hy
          exact ⟨hyv, hyd⟩
        tgt := hinv.tgt }
    have hcq : current ∈ q2 := by
      rw [hq] at hsplit
      rw [← hsplit]
      simp
    cases q2 with
    | nil => simp at hcq
    | cons c2 r2 =>
      rw [hq] at hsplit
      obtain ⟨rfl, hr2⟩ : current = c2 ∧ rest = r2 :=
        ⟨(List.cons.inj hsplit).1, (List.cons.inj hsplit).2⟩
      exact ⟨d + 1, r2, [], hinv2, h2 current (by simp), by simp [hr2],
        fun x hx => h2 x (by simp [hx]), by simp⟩

/-- Invariant preservation through the expansion of `current`: scanning
the candidate list either discovers the target at a provably minimal
depth, or re-establishes the full invariant at the same level. -/
theorem BFS0.expandStep_inv (es : ElementStore) (target current : String)
    (targetTier : Int) (d : Nat) :
    ∀ (recipes : List Recipe) (st : LoopState),
    st.found = false →
    (∀ p ∈ st.parent, p.1 ∈ st.visited ∧ p.2.parentID ∈ st.visited) →
    ParentTierDecreasing es st.parent →
    (∀ x ∈ st.visited, ReachesIn es x (depthOf st.parent x)) →
    (∀ x ∈ st.queue, x ∈ st.visited) →
    (∀ b ∈ es.getBasicElements, b ∈ st.visited) →
    (∃ q1 q2, st.queue = q1 ++ q2 ∧ (∀ x ∈ q1, depthOf st.parent x = d) ∧
      (∀ x ∈ q2, depthOf st.parent x = d + 1)) →
    (∀ x ∈ st.visited, depthOf st.parent x ≤ d + 1) →
    (∀ x n, PReaches es targetTier x n → n ≤ d →
      x ∈ st.visited ∧ depthOf st.parent x ≤ n) →
    (∀ x ∈ st.visited, x ∉ st.queue → x ≠ current →
      ∀ y, PStep es targetTier x y →
        y ∈ st.visited ∧ depthOf st.parent y ≤ depthOf st.parent x + 1) →
    (target ∉ st.visited ∨ target ∈ st.queue) →
    current ∈ st.visited →
    depthOf st.parent current = d →
    (∀ r ∈ recipes, r ∈ es.recipes ∧ current ∈ r.ingredients) →
    (∀ y, PStep es targetTier current y →
      (∃ r2, r2 ∈ recipes ∧ r2 ∈ es.recipes ∧ current ∈ r2.ingredients ∧
        r2.result = y ∧ ValidRecipe es r2 ∧ ¬(targetTier < es.getElementTier y)) ∨
      (y ∈ st.visited ∧ depthOf st.parent y ≤ d + 1)) →
    (((BFS0.expandStep es target current (es.getElementTier current)
        recipes st).found = true →
      ReachesIn es target (depthOf (BFS0.expandStep es target current
        (es.getElementTier current) recipes st).parent target) ∧
      ∀ n, PReaches es targetTier target n →
        depthOf (BFS0.expandStep es target current
          (es.getElementTier current) recipes st).parent target ≤ n) ∧
    ((BFS0.expandStep es target current (es.getElementTier current)
        recipes st).found = false →
      BfsInv es target targetTier
        (BFS0.expandStep es target current (es.getElementTier current) recipes st) d)) := by
  intro recipes
  induction recipes with
  | nil =>
    intro st hfound hKV hPTD hSOUND hQV hBV hLEV hVB hMIN hPROC hTGT hcurv hcurd hR hscan
    simp only [BFS0.expandStep]
    constructor
    · intro h
      exact absurd h (by simp [hfound])
    · intro _
      refine ⟨hKV, hPTD, hSOUND, hQV, hBV, hLEV, hVB, hMIN, ?_, fun _ => hTGT⟩
      intro x hx hxq y hy
      by_cases hxc : x = current
      · subst hxc
        rcases hscan y hy with ⟨r2, hr2, _⟩ | ⟨hyv, hyd⟩
        · simp at hr2
        · exact ⟨hyv, by rw [hcurd]; exact hyd⟩
      · exact hPROC x hx hxq hxc y hy
  | cons rc rest ih =>
    intro st hfound hKV hPTD hSOUND hQV hBV hLEV hVB hMIN hPROC hTGT hcurv hcurd hR hscan
    have hRrest : ∀ r ∈ rest, r ∈ es.recipes ∧ current ∈ r.ingredients :=
      fun r hr => hR r (by simp [hr])
    simp only [BFS0.expandStep]
    split
    · rename_i hb1
      have hnval : ¬ ValidRecipe es rc := by
        intro hv
        have hall : (rc.ingredients.all fun ing =>
            decide (es.getElementTier ing < es.getElementTier rc.result)) = true :=
          List.all_eq_true.mpr fun ing hi => by simpa using hv ing hi
        rw [Bool.not_eq_true'] at hb1
        rw [hall] at hb1
        exact absurd hb1 (by simp)
      refine ih st hfound hKV hPTD hSOUND hQV hBV hLEV hVB hMIN hPROC hTGT hcurv hcurd
        hRrest ?_
      intro y hy
      rcases hscan y hy with ⟨r2, hr2m, hr2r, hr2i, hr2res, hr2v, hr2c⟩ | hdone
      · rcases List.mem_cons.mp hr2m with h1 | h1
        · subst h1
          exact absurd hr2v hnval
        · exact Or.inl ⟨r2, h1, hr2r, hr2i, hr2res, hr2v, hr2c⟩
      · exact Or.inr hdone
    · split
      · rename_i hb1 hb2
        refine ih st hfound hKV hPTD hSOUND hQV hBV hLEV hVB hMIN hPROC hTGT hcurv hcurd
          hRrest ?_
        intro y hy
        rcases hscan y hy with ⟨r2, hr2m, hr2r, hr2i, hr2res, hr2v, hr2c⟩ | hdone
        · rcases List.mem_cons.mp hr2m with h1 | h1
          · subst h1
            have hcontra := hr2v current hr2i
            exact absurd hcontra (by omega)
          · exact Or.inl ⟨r2, h1, hr2r, hr2i, hr2res, hr2v, hr2c⟩
        · exact Or.inr hdone
      · split
        · rename_i hb1 hb2 hb3
          refine ih st hfound hKV hPTD hSOUND hQV hBV hLEV hVB hMIN hPROC hTGT hcurv hcurd
            hRrest ?_
          intro y hy
          rcases hscan y hy with ⟨r2, hr2m, hr2r, hr2i, hr2res, hr2v, hr2c⟩ | hdone
          · rcases List.mem_cons.mp hr2m with h1 | h1
            · subst h1
              have hyv : y ∈ st.visited := by
                rw [← hr2res]
                simpa using hb3
              exact Or.inr ⟨hyv, hVB y hyv⟩
            · exact Or.inl ⟨r2, h1, hr2r, hr2i, hr2res, hr2v, hr2c⟩
          · exact Or.inr hdone
        · rename_i hb1 hb2 hb3
          have hval : ValidRecipe es rc := by
            intro ing hi
            have hall : (rc.ingredients.all fun ing =>
                decide (es.getElementTier ing < es.getElementTier rc.result)) = true := by
              simpa using hb1
            simpa using List.all_eq_true.mp hall ing hi
          have hprog : es.getElementTier current < es.getElementTier rc.result := by
            simpa using hb2
          have he : rc.result ∉ st.visited := by
            simpa using hb3
          have hdfresh : ∀ x ∈ st.visited,
              depthOf ((rc.result, (⟨current, rc⟩ : RecipeStep)) :: st.parent) x =
                depthOf st.parent x :=
            fun x hx => depthOf_cons_fresh es st.parent st.visited rc.result
              ⟨current, rc⟩ hPTD hKV he x hx
          have hdnew : depthOf ((rc.result, (⟨current, rc⟩ : RecipeStep)) :: st.parent)
              rc.result = d + 1 := by
            rw [depthOf_cons_new es st.parent st.visited rc.result current rc hPTD hKV
              he hcurv, hcurd]
          have hcurReach : ReachesIn es current d := by
            have := hSOUND current hcurv
            rwa [hcurd] at this
          have hnewReach : ReachesIn es rc.result (d + 1) :=
            ⟨current, hcurReach,
              (⟨rc, (hR rc (by simp)).1, (hR rc (by simp)).2, rfl, hval⟩ :
                ChainStep es current rc.result)⟩
          split
          · rename_i het
            have htg : target = rc.result := by
              have : rc.result = target := by simpa using het
              exact this.symm
            constructor
            · intro _
              subst htg
              constructor
              · dsimp only
                rw [hdnew]
                exact hnewReach
              · intro n hn
                dsimp only
                rw [hdnew]
                by_contra hlt
                push_neg at hlt
                obtain ⟨hxv, _⟩ := hMIN rc.result n hn (by omega)
                exact he hxv
            · intro hf
              exact absurd hf (by simp)
          · rename_i het
            have hne : rc.result ≠ target := by simpa using het
            apply ih
            · exact hfound
            · intro p hp
              dsimp only at hp ⊢
              rcases List.mem_cons.mp hp with h1 | h1
              · subst h1
                exact ⟨by simp, List.mem_cons_of_mem _ hcurv⟩
              · exact ⟨List.mem_cons_of_mem _ (hKV p h1).1,
                  List.mem_cons_of_mem _ (hKV p h1).2⟩
            · intro p hp
              dsimp only at hp
              rcases List.mem_cons.mp hp with h1 | h1
              · subst h1
                exact hprog
              · exact hPTD p h1
            · intro x hx
              dsimp only at hx ⊢
              rcases List.mem_cons.mp hx with h1 | h1
              · subst h1
                rw [hdnew]
                exact hnewReach
              · rw [hdfresh x h1]
                exact hSOUND x h1
            · intro x hx
              dsimp only at hx ⊢
              rcases List.mem_append.mp hx with h1 | h1
              · exact List.mem_cons_of_mem _ (hQV x h1)
              · have : x = rc.result := by simpa using h1
                subst this
                simp
            · intro b hb
              exact List.mem_cons_of_mem _ (hBV b hb)
            · obtain ⟨q1, q2, hsp, h1, h2⟩ := hLEV
              refine ⟨q1, q2 ++ [rc.result], ?_, ?_, ?_⟩
              · dsimp only
                rw [hsp, List.append_assoc]
              · intro x hx
                dsimp only
                rw [hdfresh x (hQV x (by rw [hsp]; exact List.mem_append_left q2 hx))]
                exact h1 x hx
              · intro x hx
                dsimp only
                rcases List.mem_append.mp hx with h3 | h3
                · rw [hdfresh x (hQV x (by rw [hsp]; exact List.mem_append_right q1 h3))]
                  exact h2 x h3
                · have : x = rc.result := by simpa using h3
                  subst this
                  exact hdnew
            · intro x hx
              dsimp only at hx ⊢
              rcases List.mem_cons.mp hx with h1 | h1
              · subst h1
                rw [hdnew]
              · rw [hdfresh x h1]
                exact hVB x h1
            · intro x n h hn
              obtain ⟨hxv, hxd⟩ := hMIN x n h hn
              refine ⟨List.mem_cons_of_mem _ hxv, ?_⟩
              dsimp only
              rw [hdfresh x hxv]
              exact hxd
            · intro x hx hxq hxc y hy
              dsimp only at hx hxq
              rcases List.mem_cons.mp hx with h1 | h1
              · subst h1
                exact absurd (List.mem_append_right st.queue (by simp)) hxq
              · have hxq2 : x ∉ st.queue := fun hq => hxq (List.mem_append_left _ hq)
                obtain ⟨hyv, hyd⟩ := hPROC x h1 hxq2 hxc y hy
                refine ⟨List.mem_cons_of_mem _ hyv, ?_⟩
                dsimp only
                rw [hdfresh y hyv, hdfresh x h1]
                exact hyd
            · rcases hTGT with h1 | h1
              · refine Or.inl ?_
                intro hc
                dsimp only at hc
                rcases List.mem_cons.mp hc with h2 | h2
                · exact hne h2.symm
                · exact h1 h2
              · exact Or.inr (List.mem_append_left _ h1)
            · exact List.mem_cons_of_mem _ hcurv
            · dsimp only
              rw [hdfresh current hcurv]
              exact hcurd
            · exact hRrest
            · intro y hy
              rcases hscan y hy with ⟨r2, hr2m, hr2r, hr2i, hr2res, hr2v, hr2c⟩ | ⟨hyv, hyd⟩
              · rcases List.mem_cons.mp hr2m with h1 | h1
                · subst h1
                  subst hr2res
                  refine Or.inr ⟨by simp, ?_⟩
                  dsimp only
                  rw [hdnew]
                · exact Or.inl ⟨r2, h1, hr2r, hr2i, hr2res, hr2v, hr2c⟩
              · refine Or.inr ⟨List.mem_cons_of_mem _ hyv, ?_⟩
                dsimp only
                rw [hdfresh y hyv]
                exact hyd

/-- At an exhausted frontier without a find, no pruned chain reaches the
target at all. -/
theorem BfsInv.no_path (es : ElementStore) (target : String) (targetTier : Int)
    (st : LoopState) (d : Nat) (hinv : BfsInv es target targetTier st d)
    (hq : st.queue = []) (hfound : st.found = false) :
    ∀ n, ¬ PReaches es targetTier target n := by
  have hall : ∀ (n : Nat) (x : String), PReaches es targetTier x n → x ∈ st.visited := by
    intro n
    induction n with
    | zero =>
      intro x h
      exact hinv.basicsVis x (by simpa [PReaches] using h)
    | succ n ihn =>
      intro x h
      obtain ⟨y, hy, hstep⟩ := h
      have hyv := ihn y hy
      have hynq : y ∉ st.queue := by
        rw [hq]
        simp
      exact (hinv.processed y hyv hynq x hstep).1
  intro n hn
  have htv := hall n target hn
  rcases hinv.tgt hfound with h1 | h1
  · exact h1 htv
  · rw [hq] at h1
    simp at h1

/-- The canonical breadth-first loop, run from any invariant state, either
finds the target at a depth realizable by a tier-valid chain and minimal
among all pruned chains, or terminates with the target unreachable. -/
theorem BFS0.bfsLoop_minimality (es : ElementStore) (target : String) (targetTier : Int) :
    ∀ (m : Nat) (st : LoopState), BFS1.measure es st ≤ m →
    st.found = false → (∃ d, BfsInv es target targetTier st d) →
    (((BFS0.bfsLoop es target targetTier st).found = true →
      ReachesIn es target
        (depthOf (BFS0.bfsLoop es target targetTier st).parent target) ∧
      ∀ n, PReaches es targetTier target n →
        depthOf (BFS0.bfsLoop es target targetTier st).parent target ≤ n) ∧
    ((BFS0.bfsLoop es target targetTier st).found = false →
      ∀ n, ¬ PReaches es targetTier target n)) := by
  intro m
  induction m using Nat.strong_induction_on with
  | _ m ihm =>
    intro st hm hfound hex
    obtain ⟨d, hinv⟩ := hex
    cases hq : st.queue with
    | nil =>
      rw [BFS0.bfsLoop_eq_nil_can es target targetTier st hfound hq]
      constructor
      · intro h
        exact absurd h (by simp [hfound])
      · intro _
        exact BfsInv.no_path es target targetTier st d hinv hq hfound
    | cons current rest =>
      obtain ⟨d2, q1, q2, hinv2, hcd, hrest, h1, h2⟩ :=
        BfsInv.dequeue es target targetTier st d current rest hinv hq
      have hcv : current ∈ st.visited := hinv2.qv current (by rw [hq]; simp)
      by_cases htgt : (current == target) = true
      · rw [BFS0.bfsLoop_eq_target_can es target targetTier st current rest hfound hq htgt]
        constructor
        · intro _
          obtain rfl : current = target := by simpa using htgt
          constructor
          · dsimp only
            exact hinv2.sound current hcv
          · intro n hn
            dsimp only
            by_cases hnle : n ≤ d2
            · exact (hinv2.minVis current n hn hnle).2
            · rw [hcd]
              omega
        · intro hf
          exact absurd hf (by simp)
      · rw [BFS0.bfsLoop_eq_step_can es target targetTier st current rest hfound hq
          (by simpa using htgt)]
        dsimp only
        have hb := BFS0.expandStep_inv es target current targetTier d2
          (BFS0.getPossibleRecipesThatRespectTiers es current
            (es.getElementTier current) targetTier)
          { st with queue := rest }
          hfound hinv2.kv hinv2.ptd hinv2.sound
          (fun x hx => hinv2.qv x (by rw [hq]; exact List.mem_cons_of_mem _ hx))
          hinv2.basicsVis
          ⟨q1, q2, hrest, h1, h2⟩
          hinv2.visBound hinv2.minVis
          (fun x hx hxq hxc y hy => hinv2.processed x hx
            (fun hmem => by
              rw [hq] at hmem
              rcases List.mem_cons.mp hmem with hh | hh
              · exact hxc hh
              · exact hxq hh) y hy)
          (by
            rcases hinv2.tgt hfound with ht | ht
            · exact Or.inl ht
            · rw [hq] at ht
              rcases List.mem_cons.mp ht with hh | hh
              · exact absurd (by simp [hh]) htgt
              · exact Or.inr hh)
          hcv hcd
          (fun r hr => by
            have := BFS0.cands_spec es targetTier (es.getElementTier current) current r hr
            exact ⟨this.1, this.2.1⟩)
          (by
            intro y hy
            obtain ⟨r2, hr2, hyi2, hres2, hval2, hcap2⟩ := hy
            refine Or.inl ⟨r2, ?_, hr2, hyi2, hres2, hval2, hcap2⟩
            apply BFS0.pstep_mem_cands es targetTier current r2 hr2 hyi2 hval2
            rw [hres2]
            exact hcap2)
        split
        · rename_i hf1
          refine ⟨fun _ => hb.1 hf1, fun hf => absurd hf (by simp [hf1])⟩
        · rename_i hf1
          have hfnd : (BFS0.expandStep es target current (es.getElementTier current)
              (BFS0.getPossibleRecipesThatRespectTiers es current
                (es.getElementTier current) targetTier)
              { st with queue := rest }).found = false := by
            simpa using hf1
          have hb2 := hb.2 hfnd
          have hexp := BFS0.expandStep_measure_can es target current
            (es.getElementTier current)
            (BFS0.getPossibleRecipesThatRespectTiers es current
              (es.getElementTier current) targetTier)
            { st with queue := rest }
            (BFS0.getPossibleRecipes_results_mem_can es current
              (es.getElementTier current) targetTier)
          have hq1 : BFS1.measure es { st with queue := rest } + 1 =
              BFS1.measure es st := by
            simp only [BFS1.measure, hq, List.length_cons]
            omega
          exact ihm (m - 1) (by omega) _ (by omega) hfnd ⟨d2, hb2⟩

/-- A catalog where the non-filtering breadth-first engine takes a
tier-invalid shortcut: `C` is tier-validly reachable only through `B`
(two applications), but a raw recipe `A + X → C` with `tier(X) = 5 ≥
tier(C) = 2` provides a one-application shortcut that only the
ingredient-filtering engines reject. -/
def storeM : ElementStore :=
  { elements := ["A", "B", "C", "X"]
    recipes := [⟨["A", "X"], "C"⟩, ⟨["A", "A"], "B"⟩, ⟨["B", "B"], "C"⟩]
    basicElements := ["A"]
    tierMap := [("A", 0), ("B", 1), ("C", 2), ("X", 5)] }

/-- C2 counterexample: on `storeM` the non-filtering breadth-first
engine returns a single-recipe path to `C`, yet every tier-valid path
from a basic element to `C` takes at least two recipe applications — the
returned path does not have the minimum length among the tier-valid
paths (it is not one of them). -/
theorem C2_counterexample :
    BFS1.FindShortestPath storeM "C" 0 =
      .ok { path := [⟨["A", "X"], "C"⟩], visitedNodes := 2,
            executionTime := 0, variationIndex := 0 } ∧
    ReachesIn storeM "C" 2 ∧
    ∀ n, ReachesIn storeM "C" n → 2 ≤ n := by
  refine ⟨?_, ?_, ?_⟩
  · simp [BFS1.FindShortestPath, BFS1.initLoopState, BFS1.bfsLoop, BFS1.expandStep,
      BFS1.getPossibleRecipesThatRespectTiers, storeM, ElementStore.getElementTier,
      ElementStore.getBasicElements, reconstructPath, reconstructPathAux,
      List.lookup, List.filter]
  · have h0 : ("A" : String) ∈ storeM.getBasicElements := by decide
    have h1 : ReachesIn storeM "B" 1 :=
      ⟨"A", h0, ⟨⟨["A", "A"], "B"⟩, by simp [storeM], by simp, rfl, by decide⟩⟩
    exact ⟨"B", h1, ⟨⟨["B", "B"], "C"⟩, by simp [storeM], by simp, rfl, by decide⟩⟩
  · intro n hn
    by_contra hlt
    push_neg at hlt
    interval_cases n
    · have hc : ("C" : String) ∈ storeM.getBasicElements := by
        simpa [ReachesIn] using hn
      exact absurd hc (by decide)
    · obtain ⟨y, hy, r, hrm, hyi, hres, hval⟩ := hn
      have hy0 : y ∈ storeM.getBasicElements := by simpa [ReachesIn] using hy
      have hyA : y = "A" := by
        have : storeM.getBasicElements = ["A"] := by decide
        rw [this] at hy0
        simpa using hy0
      subst hyA
      simp only [storeM, List.mem_cons, List.not_mem_nil, or_false] at hrm
      rcases hrm with rfl | rfl | rfl
      · exact absurd (hval "X" (by simp)) (by decide)
      · simp at hres
      · simp at hyi

/-- C2 (amended).  Minimality holds for the canonical filtering
breadth-first engine: for every catalog and every target contained in the
catalog and reachable by a tier-valid chain of recipe applications from a
basic element, `FindShortestPath` succeeds, its path length is realizable
by a tier-valid chain, and no tier-valid chain to the target is shorter.
The non-filtering variant violates the claim (`C2_counterexample`). -/
theorem C2_bfs_minimality_amended (es : ElementStore) (target : String) (now : Int)
    (n0 : Nat) (hmem : target ∈ es.elements) (hreach : ReachesIn es target n0) :
    ∃ res, BFS0.FindShortestPath es target now = .ok res ∧
      ReachesIn es target res.path.length ∧
      ∀ n, ReachesIn es target n → res.path.length ≤ n := by
  have hbne : es.getBasicElements ≠ [] := ReachesIn.basics_ne es n0 target hreach
  have hloop := BFS0.bfsLoop_minimality es target (es.getElementTier target)
    (BFS1.measure es
      { queue := es.getBasicElements
        visited := es.getBasicElements.foldl (fun v e => e :: v) []
        parent := []
        visitedCount := (es.getBasicElements.length : Int)
        found := false })
    { queue := es.getBasicElements
      visited := es.getBasicElements.foldl (fun v e => e :: v) []
      parent := []
      visitedCount := (es.getBasicElements.length : Int)
      found := false }
    le_rfl rfl ⟨0, BfsInv.initial es target (es.getElementTier target)⟩
  unfold BFS0.FindShortestPath
  rw [if_neg (by simp [hmem])]
  dsimp only
  rw [if_neg (fun hl => hbne (List.length_eq_zero.mp hl))]
  split
  · rename_i hnf
    rw [Bool.not_eq_true'] at hnf
    have hnp := hloop.2 hnf
    have hP := PReaches_of_ReachesIn es (es.getElementTier target) n0 target hreach le_rfl
    exact absurd hP (hnp n0)
  · rename_i hnf
    rw [Bool.not_eq_true'] at hnf
    simp only [Bool.not_eq_false] at hnf
    obtain ⟨hr, hmin⟩ := hloop.1 hnf
    refine ⟨_, rfl, ?_, ?_⟩
    · exact hr
    · intro n hn
      exact hmin n (PReaches_of_ReachesIn es (es.getElementTier target) n target hn le_rfl)

/-- C2 witness: `D` in the specification catalog is present, tier-validly
reachable in one application, and the canonical engine's result is a
shortest tier-valid chain. -/
theorem C2_bfs_minimality_amended_witness :
    "D" ∈ storeSpec.elements ∧ ReachesIn storeSpec "D" 1 ∧
    ∃ res, BFS0.FindShortestPath storeSpec "D" 0 = .ok res ∧
      ReachesIn storeSpec "D" res.path.length ∧
      ∀ n, ReachesIn storeSpec "D" n → res.path.length ≤ n := by
  have hmem : "D" ∈ storeSpec.elements := by simp [storeSpec]
  have h0 : ("A" : String) ∈ storeSpec.getBasicElements := by decide
  have hreach : ReachesIn storeSpec "D" 1 :=
    ⟨"A", h0, ⟨⟨["A", "C"], "D"⟩, by simp [storeSpec], by simp, rfl, by decide⟩⟩
  exact ⟨hmem, hreach, C2_bfs_minimality_amended storeSpec "D" 0 1 hmem hreach⟩

end Tubes
